import Mathlib

/-!
# MemoryPool (C-98 version): a shallow embedding and its properties

The development follows `C-98/MemoryPool.h` and `C-98/MemoryPool.tcc`.

## Modelling decisions

* An address is a natural number, `0` being null.  Pointer arithmetic (`p + n`,
  `currentSlot_++`) is addition on naturals: C++ gives no wrap-around meaning
  to pointer arithmetic.  `size_t` arithmetic, which does wrap, is taken
  modulo `2 ^ w` (`subW`, `padPointer`, `max_size`).
* The heap (`Heap`) maps an address to the pointer-sized word stored there,
  that is, to what `reinterpret_cast<slot_pointer_>(p)->next` reads.  A store
  through `p->next` changes the word at `p` and nothing else.
* An element is given by its object representation, a list with one entry for
  every address of the element; `construct` overwrites the whole range
  `[p, p + sizeof(T))`.
* The template parameters and the sizes fixed by the platform are gathered in
  `Config`: `BlockSize`, `sizeof(slot_type_)`, `sizeof(slot_pointer_)` and the
  width `w` of `size_t`.
* `operator new` is the memory source.  Its `i`-th call answers `src i`:
  `some b` hands out the block starting at `b`, `none` throws `bad_alloc`.
  The state records how many calls were made and which blocks were handed out.
* A function that may throw returns `Except Failure _ × State`: the outcome
  together with the state at the moment of return or throw.
* The invariant `BlockSize >= 2 * sizeof(slot_type_)` is a hypothesis of the
  theorems that need it.  The code does not enforce it (the assertion at
  `MemoryPool.h` 85-87 is commented out); the theorems `undersized_block_*`
  record what the code does outside it.
* A caller is modelled by the operations `Op`: calls of `allocate` and
  `deallocate`, and stores of a word inside a slot the caller holds.  `Sys`
  adds to the machine state what an observer records: the addresses produced
  by carving and the live addresses.
-/

set_option autoImplicit false

/-- The data members of `MemoryPool<T, BlockSize>` (`MemoryPool.h`, private part). -/
structure MemoryPool where
  currentBlock_ : Nat
  currentSlot_ : Nat
  lastSlot_ : Nat
  freeSlots_ : Nat
deriving DecidableEq, Repr

namespace MemoryPool

/-- The heap: the pointer-sized word stored at each address.  Addresses are
natural numbers and `0` is the null pointer. -/
abbrev Heap := Nat → Nat

/-- The parameters of one instantiation `MemoryPool<T, BlockSize>` on one platform. -/
structure Config where
  /-- width in bits of `size_t` -/
  w : Nat
  /-- the template parameter `BlockSize` -/
  BlockSize : Nat
  /-- the value of `sizeof(slot_type_)` -/
  slotSize : Nat
  /-- the value of `sizeof(slot_pointer_)`, also `sizeof(data_pointer_)` -/
  ptrSize : Nat
deriving DecidableEq, Repr

/-- Facts that hold of every instantiation: a pointer has at least one byte,
`Slot_` is a union with a pointer member, and sizes are `size_t` values. -/
def Config.WF (c : Config) : Prop :=
  0 < c.ptrSize ∧ c.ptrSize ≤ c.slotSize ∧ c.slotSize < 2 ^ c.w ∧ c.BlockSize < 2 ^ c.w

instance (c : Config) : Decidable c.WF := by
  unfold Config.WF
  infer_instance

/-- A fact about every platform the code is compiled for: the size of a pointer
is a power of two no larger than the range of `size_t`, so it divides `2 ^ w`. -/
def Config.PtrDividesWord (c : Config) : Prop :=
  c.ptrSize ∣ 2 ^ c.w

instance (c : Config) : Decidable c.PtrDividesWord := by
  unfold Config.PtrDividesWord
  infer_instance

/-- The failure a call can end with. -/
inductive Failure where
  | bad_alloc
deriving DecidableEq, Repr

/-- The machine state seen by the pool: its members, the heap, and the record
kept by the memory source. -/
structure State where
  pool : MemoryPool
  heap : Heap
  /-- number of calls made to `operator new` so far -/
  newCalls : Nat
  /-- blocks handed out by `operator new`, most recent first -/
  blocks : List Nat

/-- Subtraction of `size_t` values: `a - b` modulo `2 ^ w`. -/
def subW (w a b : Nat) : Nat :=
  (a % 2 ^ w + (2 ^ w - b % 2 ^ w)) % 2 ^ w

/-- `MemoryPool::padPointer` (`MemoryPool.tcc` 28-35). -/
def padPointer (c : Config) (p : Nat) (align : Nat) : Nat :=
  let result := p % 2 ^ c.w
  (subW c.w align result) % align

/-- `MemoryPool::MemoryPool()` (`MemoryPool.tcc` 39-47).  `self` is the storage
of the object under construction, whose members hold indeterminate values. -/
def ctor (self : MemoryPool) : MemoryPool :=
  let self := { self with currentBlock_ := 0 }
  let self := { self with currentSlot_ := 0 }
  let self := { self with lastSlot_ := 0 }
  { self with freeSlots_ := 0 }

/-- The loop of `MemoryPool::~MemoryPool()`: the blocks passed to
`operator delete`, in order; `none` when the fuel runs out before `curr`
becomes null. -/
def dtorLoop (heap : Heap) : Nat → Nat → Option (List Nat)
  | 0, _ => none
  | fuel + 1, curr =>
    if curr ≠ 0 then
      let prev := heap curr
      (dtorLoop heap fuel prev).map (fun rest => curr :: rest)
    else
      some []

/-- `MemoryPool::~MemoryPool()` (`MemoryPool.tcc` 70-80). -/
def dtor (fuel : Nat) (s : State) : Option (List Nat) :=
  dtorLoop s.heap fuel s.pool.currentBlock_

/-- `MemoryPool::MemoryPool(const MemoryPool&)` (`MemoryPool.tcc` 51-56).  The
body is the expression statement `MemoryPool();`, which default-constructs a
temporary (in storage `tmp`) and destroys it; no member of the object under
construction (`self`) is assigned. -/
def ctor_copy (self : MemoryPool) (_memoryPool : MemoryPool) (tmp : MemoryPool) : MemoryPool :=
  let _temporary := ctor tmp
  self

/-- `MemoryPool::MemoryPool(const MemoryPool<U>&)` (`MemoryPool.tcc` 60-66); the
body is the same expression statement `MemoryPool();`. -/
def ctor_rebind (self : MemoryPool) (_memoryPool : MemoryPool) (tmp : MemoryPool) : MemoryPool :=
  let _temporary := ctor tmp
  self

/-- The memory source `operator new(BlockSize)`: call number `s.newCalls`
answers `src s.newCalls`. -/
def operator_new (src : Nat → Option Nat) (s : State) : Except Failure Nat × State :=
  match src s.newCalls with
  | none => (.error .bad_alloc, { s with newCalls := s.newCalls + 1 })
  | some b => (.ok b, { s with newCalls := s.newCalls + 1, blocks := b :: s.blocks })

/-- `MemoryPool::allocateBlock` (`MemoryPool.tcc` 104-119). -/
def allocateBlock (c : Config) (src : Nat → Option Nat) (s : State) :
    Except Failure Unit × State :=
  match operator_new src s with
  | (.error e, s1) => (.error e, s1)
  | (.ok newBlock, s1) =>
    let s2 := { s1 with heap := Function.update s1.heap newBlock s1.pool.currentBlock_ }
    let s3 := { s2 with pool := { s2.pool with currentBlock_ := newBlock } }
    let body := newBlock + c.ptrSize
    let bodyPadding := padPointer c body c.slotSize
    let s4 := { s3 with pool := { s3.pool with currentSlot_ := body + bodyPadding } }
    (.ok (), { s4 with pool :=
      { s4.pool with lastSlot_ := newBlock + c.BlockSize - c.slotSize + 1 } })

/-- `MemoryPool::allocate(size_type, const_pointer)` (`MemoryPool.tcc` 123-137).
Both parameters are unnamed in the source. -/
def allocate (c : Config) (src : Nat → Option Nat) (_n : Nat) (_hint : Nat) (s : State) :
    Except Failure Nat × State :=
  if s.pool.freeSlots_ ≠ 0 then
    let result := s.pool.freeSlots_
    (.ok result, { s with pool := { s.pool with freeSlots_ := s.heap s.pool.freeSlots_ } })
  else
    if s.pool.currentSlot_ ≥ s.pool.lastSlot_ then
      match allocateBlock c src s with
      | (.error e, s1) => (.error e, s1)
      | (.ok _, s1) =>
        (.ok s1.pool.currentSlot_,
          { s1 with pool := { s1.pool with currentSlot_ := s1.pool.currentSlot_ + c.slotSize } })
    else
      (.ok s.pool.currentSlot_,
        { s with pool := { s.pool with currentSlot_ := s.pool.currentSlot_ + c.slotSize } })

/-- `MemoryPool::deallocate(pointer p, size_type)` (`MemoryPool.tcc` 141-149). -/
def deallocate (p : Nat) (_n : Nat) (s : State) : State :=
  if p ≠ 0 then
    let s1 := { s with heap := Function.update s.heap p s.pool.freeSlots_ }
    { s1 with pool := { s1.pool with freeSlots_ := p } }
  else
    s

/-- `MemoryPool::max_size` (`MemoryPool.tcc` 153-160), in `size_t` arithmetic. -/
def max_size (c : Config) : Nat :=
  let maxBlocks := (2 ^ c.w - 1) / c.BlockSize
  ((subW c.w c.BlockSize c.ptrSize / c.slotSize) * maxBlocks) % 2 ^ c.w

/-- `MemoryPool::construct` (`MemoryPool.tcc` 164-169): placement-new of a copy
of `val` at `p`.  The value is given by its object representation, one entry
for every address of the element, so `val.length` is `sizeof(T)`; the copy
overwrites the whole range `[p, p + sizeof(T))`, which starts at the `next`
member of the slot. -/
def construct (p : Nat) (val : List Nat) (s : State) : State :=
  { s with heap := fun x => if p ≤ x then (val[x - p]?).getD (s.heap x) else s.heap x }

/-- `MemoryPool::destroy` (`MemoryPool.tcc` 173-178): runs the element's
destructor, which leaves the pool and the stored word alone. -/
def destroy (_p : Nat) (s : State) : State :=
  s

/-- `MemoryPool::newElement` (`MemoryPool.tcc` 182-189). -/
def newElement (c : Config) (src : Nat → Option Nat) (val : List Nat) (s : State) :
    Except Failure Nat × State :=
  match allocate c src 1 0 s with
  | (.error e, s1) => (.error e, s1)
  | (.ok result, s1) => (.ok result, construct result val s1)

/-- `MemoryPool::deleteElement` (`MemoryPool.tcc` 193-201). -/
def deleteElement (p : Nat) (s : State) : State :=
  if p ≠ 0 then
    deallocate p 1 (destroy p s)
  else
    s

/-! ## Runs of caller operations -/

/-- What a caller can do with a pool it holds. -/
inductive Op where
  /-- call `allocate()` -/
  | allocate
  /-- call `deallocate(p)` -/
  | deallocate (p : Nat)
  /-- store the word `v` at address `q`, inside an element the caller holds -/
  | write (q : Nat) (v : Nat)
deriving DecidableEq, Repr

/-- The machine state together with the bookkeeping of an observer: which
addresses bump carving has produced and which addresses are live (returned by
`allocate` and not passed to `deallocate` since). -/
structure Sys where
  st : State
  /-- addresses produced by carving, most recent first -/
  carved : List Nat
  /-- live addresses, most recent first -/
  live : List Nat

/-- The state right after the default constructor ran, on an arbitrary heap. -/
def Sys.init (h0 : Heap) : Sys :=
  { st := { pool := ctor ⟨0, 0, 0, 0⟩, heap := h0, newCalls := 0, blocks := [] },
    carved := [], live := [] }

/-- One caller operation.  A failed `allocate` throws; the caller goes on with
the state the throw left behind.  An address returned by `allocate` becomes
live, and counts as carved when the free list was empty at the call. -/
def step (c : Config) (src : Nat → Option Nat) (op : Op) (y : Sys) : Sys :=
  match op with
  | .allocate =>
    match allocate c src 1 0 y.st with
    | (.ok p, st1) =>
      { st := st1,
        carved := if y.st.pool.freeSlots_ = 0 then p :: y.carved else y.carved,
        live := p :: y.live }
    | (.error _, st1) => { y with st := st1 }
  | .deallocate p =>
    { y with st := deallocate p 1 y.st, live := if p = 0 then y.live else y.live.erase p }
  | .write q v =>
    { y with st := { y.st with heap := Function.update y.st.heap q v } }

/-- Run a sequence of caller operations. -/
def run (c : Config) (src : Nat → Option Nat) : List Op → Sys → Sys
  | [], y => y
  | op :: ops, y => run c src ops (step c src op y)

/-- The precondition of one operation: `deallocate` is given null or a live
address, and a caller stores a word only inside a slot it holds, that is, the
word at `q` lies within `[p, p + slotSize)` for some live `p`. -/
def OpOK (c : Config) (y : Sys) : Op → Prop
  | .allocate => True
  | .deallocate p => p = 0 ∨ p ∈ y.live
  | .write q _ => ∃ p ∈ y.live, p ≤ q ∧ q + c.ptrSize ≤ p + c.slotSize

instance (c : Config) (y : Sys) (op : Op) : Decidable (OpOK c y op) := by
  cases op <;> unfold OpOK <;> infer_instance

/-- A sequence of operations each of which meets its precondition when it runs. -/
def WellFormed (c : Config) (src : Nat → Option Nat) : List Op → Sys → Prop
  | [], _ => True
  | op :: ops, y => OpOK c y op ∧ WellFormed c src ops (step c src op y)

instance (c : Config) (src : Nat → Option Nat) (ops : List Op) (y : Sys) :
    Decidable (WellFormed c src ops y) := by
  induction ops generalizing y with
  | nil => unfold WellFormed; infer_instance
  | cons op ops ih => unfold WellFormed; infer_instance

/-- An operation that is a call into the pool. -/
def Op.isCall : Op → Bool
  | .allocate => true
  | .deallocate _ => true
  | .write _ _ => false

/-- A sequence that consists of `allocate` and `deallocate` calls only. -/
def CallsOnly (ops : List Op) : Prop :=
  ∀ op ∈ ops, op.isCall = true

instance (ops : List Op) : Decidable (CallsOnly ops) := by
  unfold CallsOnly
  infer_instance

/-- What the memory source guarantees: a block is never null, lies inside the
address space, and two blocks handed out by different calls are disjoint. -/
def SourceOK (c : Config) (src : Nat → Option Nat) : Prop :=
  (∀ i b, src i = some b → b ≠ 0 ∧ b + c.BlockSize ≤ 2 ^ c.w) ∧
  (∀ i j bi bj, i ≠ j → src i = some bi → src j = some bj →
    bi + c.BlockSize ≤ bj ∨ bj + c.BlockSize ≤ bi)

/-- The first slot of every block lies inside the block: behind the header and
the padding there is room for one slot.  (`allocate` hands out the first slot
of a fresh block without comparing against `lastSlot_`.) -/
def FirstSlotFits (c : Config) (src : Nat → Option Nat) : Prop :=
  c.ptrSize + c.slotSize ≤ c.BlockSize ∧
  ∀ i b, src i = some b →
    c.ptrSize + padPointer c (b + c.ptrSize) c.slotSize + c.slotSize ≤ c.BlockSize

/-- A memory source that hands out the blocks of a list in order and then fails. -/
def srcOfList (l : List Nat) : Nat → Option Nat :=
  fun i => l[i]?

/-! ## Invariants -/

/-- Every address the pool can hand out next is a multiple of `a`: the carving
cursor, the live addresses, and everything reachable through the free list
(`W` is closed under following `next`). -/
def AlignInv (a : Nat) (y : Sys) : Prop :=
  a ∣ y.st.pool.currentSlot_ ∧ (∀ p ∈ y.live, a ∣ p) ∧
  ∃ W : Nat → Prop, (y.st.pool.freeSlots_ = 0 ∨ W y.st.pool.freeSlots_) ∧
    ∀ p, W p → a ∣ p ∧ (y.st.heap p = 0 ∨ W (y.st.heap p))

/-- A linked chain in the heap: starting at `p` and following the stored words
visits exactly the addresses of the list, none of them null, and then reaches
null. -/
def Chain (heap : Heap) : Nat → List Nat → Prop
  | p, [] => p = 0
  | p, x :: xs => p = x ∧ x ≠ 0 ∧ Chain heap (heap x) xs

/-- Where an address carved from the block at `b` can lie: at or after the end
of the header, and either before `b + ptrSize + slotSize` (the first slot, which
`allocate` hands out without a bound check) or with a whole slot inside the
block (the slots handed out after the check `currentSlot_ < lastSlot_`). -/
def Zone (c : Config) (b a : Nat) : Prop :=
  b + c.ptrSize ≤ a ∧ (a < b + c.ptrSize + c.slotSize ∨ a + c.slotSize ≤ b + c.BlockSize)

/-- The slot at `a` lies inside the block at `b`, behind the header. -/
def Inside (c : Config) (b a : Nat) : Prop :=
  b + c.ptrSize ≤ a ∧ a + c.slotSize ≤ b + c.BlockSize

/-- Every carved slot lies inside a block, the slots carved from the current
block end at or before the cursor, and two carved slots do not overlap. -/
def TightInv (c : Config) (y : Sys) : Prop :=
  (∀ a ∈ y.carved, ∃ b ∈ y.st.blocks, Inside c b a) ∧
  (∀ a ∈ y.carved, Inside c y.st.pool.currentBlock_ a →
    a + c.slotSize ≤ y.st.pool.currentSlot_) ∧
  (∀ a ∈ y.carved, ∀ a1 ∈ y.carved, a ≠ a1 →
    a + c.slotSize ≤ a1 ∨ a1 + c.slotSize ≤ a)

/-- The shape of the block list and of the carving cursor. -/
def GeomInv (c : Config) (src : Nat → Option Nat) (y : Sys) : Prop :=
  (∀ b ∈ y.st.blocks, ∃ i, i < y.st.newCalls ∧ src i = some b) ∧
  (y.st.blocks = [] → y.carved = []) ∧
  (∀ b rest, y.st.blocks = b :: rest →
    y.st.pool.currentBlock_ = b ∧ y.st.pool.lastSlot_ = b + c.BlockSize - c.slotSize + 1 ∧
    b + c.ptrSize ≤ y.st.pool.currentSlot_) ∧
  (y.st.blocks = [] → y.st.pool.currentSlot_ = 0 ∧ y.st.pool.lastSlot_ = 0 ∧
    y.st.pool.currentBlock_ = 0) ∧
  (∀ a ∈ y.carved, ∃ b ∈ y.st.blocks, Zone c b a) ∧
  (∀ a ∈ y.carved, Zone c y.st.pool.currentBlock_ a → a < y.st.pool.currentSlot_) ∧
  y.carved.Nodup

/-- The free list is a chain through exactly the carved addresses that are not
live, and no address is live twice. -/
def FreeInv (y : Sys) : Prop :=
  ∃ F : List Nat, Chain y.st.heap y.st.pool.freeSlots_ F ∧ F.Nodup ∧ y.live.Nodup ∧
    (∀ a ∈ F, a ∉ y.live) ∧ (∀ a, a ∈ y.carved ↔ a ∈ y.live ∨ a ∈ F)

/-- The block headers form a chain from `currentBlock_` through exactly the
blocks handed out by the memory source, and no carved address is a block base. -/
def HeaderInv (y : Sys) : Prop :=
  Chain y.st.heap y.st.pool.currentBlock_ y.st.blocks ∧ y.st.blocks.Nodup ∧
  ∀ a ∈ y.carved, a ∉ y.st.blocks

/-- The number of consecutive `allocate` calls that succeed from state `s`,
out of at most `fuel` calls. -/
def countServed (c : Config) (src : Nat → Option Nat) : Nat → State → Nat
  | 0, _ => 0
  | fuel + 1, s =>
    match allocate c src 1 0 s with
    | (.ok _, s1) => 1 + countServed c src fuel s1
    | (.error _, _) => 0

/-- The number of slots the block at `b` yields: how many `allocate` calls a
default-constructed pool serves when the memory source hands out the block at
`b` and nothing else.  (A block yields at most `BlockSize + 1` slots, so that
many calls are enough to see the first failure.) -/
def slotsPerBlock (c : Config) (b : Nat) : Nat :=
  countServed c (srcOfList [b]) (c.BlockSize + 1)
    { pool := ctor ⟨0, 0, 0, 0⟩, heap := fun _ => 0, newCalls := 0, blocks := [] }

/-- The number of slots that carving can still produce with the cursor at `cur`
and the bound at `last`. -/
def carveRoom (c : Config) (cur last : Nat) : Nat :=
  if cur < last then (last - cur + c.slotSize - 1) / c.slotSize else 0

/-- The count of blocks against the count of carved slots, `s` being the number
of slots of every block: either nothing was acquired, or the current block has
produced `k` slots so far, `1 ≤ k`, has room for `s - k` more, and every earlier
block has produced `s`. -/
def CountInv (c : Config) (s : Nat) (y : Sys) : Prop :=
  (y.st.blocks = [] ∧ y.carved = [] ∧ y.st.pool.currentSlot_ = 0 ∧ y.st.pool.lastSlot_ = 0) ∨
  (∃ k, 1 ≤ k ∧ k + carveRoom c y.st.pool.currentSlot_ y.st.pool.lastSlot_ = s ∧
    y.carved.length = (y.st.blocks.length - 1) * s + k ∧ y.st.blocks ≠ [])

/-- The carving cursor and every carved address are multiples of `a`. -/
def CarvedAligned (a : Nat) (y : Sys) : Prop :=
  a ∣ y.st.pool.currentSlot_ ∧ ∀ p ∈ y.carved, a ∣ p

/-- The count of carved slots against the capacity `q` of one block: either
nothing was acquired, or the current block has produced `k` slots, has room
for at most `q - k` more, and every earlier block has produced at most `q`. -/
def CapInv (c : Config) (q : Nat) (y : Sys) : Prop :=
  (y.st.blocks = [] ∧ y.carved = [] ∧ y.st.pool.currentSlot_ = 0 ∧ y.st.pool.lastSlot_ = 0) ∨
  (∃ k, 1 ≤ k ∧ k + carveRoom c y.st.pool.currentSlot_ y.st.pool.lastSlot_ ≤ q ∧
    y.carved.length ≤ (y.st.blocks.length - 1) * q + k ∧ y.st.blocks ≠ [])

/-- A well-formed pool state: the block list and the cursor have the shape the
operations give them, every carved slot lies inside a block and no two overlap,
and the free list is a chain through the carved slots that are not live. -/
def PoolWF (c : Config) (src : Nat → Option Nat) (y : Sys) : Prop :=
  GeomInv c src y ∧ TightInv c y ∧ FreeInv y

/-! ## `StackAlloc<T, MemoryPool<T>>` (`StackAlloc.h`)

A node `StackNode_<T>` has two members: `data` at offset 0, which shares its
word with the `next` member of the pool's slot union, and `prev` at the offset
`off`.  The allocator of the stack is a `MemoryPool<Node>` of its own
(`allocator_`), so the slot size of the configuration is the size of a node. -/

/-- The members of `StackAlloc`: `allocator_` (with the heap and the memory
source it works on) and `head_`. -/
structure StackAlloc where
  allocator_ : State
  head_ : Nat

/-- `StackAlloc::StackAlloc()` (`StackAlloc.h` 50): `allocator_` is
default-constructed and `head_` is set to null. -/
def StackAlloc.ctor (h0 : Heap) : StackAlloc :=
  { allocator_ :=
      { pool := MemoryPool.ctor (MemoryPool.mk 0 0 0 0), heap := h0, newCalls := 0,
        blocks := [] },
    head_ := 0 }

/-- `StackAlloc::empty` (`StackAlloc.h` 55). -/
def StackAlloc.empty (k : StackAlloc) : Bool :=
  k.head_ = 0

/-- `StackAlloc::push` (`StackAlloc.h` 71-77).  `Node()` is the
value-initialised node, every one of its `sizeof(Node)` bytes zero;
`allocator_.construct` copies it over the whole slot. -/
def StackAlloc.push (c : Config) (src : Nat → Option Nat) (off : Nat) (element : Nat)
    (k : StackAlloc) : Except Failure Unit × StackAlloc :=
  match allocate c src 1 0 k.allocator_ with
  | (.error e, s1) => (.error e, { k with allocator_ := s1 })
  | (.ok newNode, s1) =>
    let s2 := construct newNode (List.replicate c.slotSize 0) s1
    let s3 := { s2 with heap := Function.update s2.heap newNode element }
    let s4 := { s3 with heap := Function.update s3.heap (newNode + off) k.head_ }
    (.ok (), { allocator_ := s4, head_ := newNode })

/-- `StackAlloc::pop` (`StackAlloc.h` 80-87). -/
def StackAlloc.pop (off : Nat) (k : StackAlloc) : Nat × StackAlloc :=
  let result := k.allocator_.heap k.head_
  let tmp := k.allocator_.heap (k.head_ + off)
  let s1 := destroy k.head_ k.allocator_
  let s2 := deallocate k.head_ 1 s1
  (result, { allocator_ := s2, head_ := tmp })

/-- `StackAlloc::top` (`StackAlloc.h` 90). -/
def StackAlloc.top (k : StackAlloc) : Nat :=
  k.allocator_.heap k.head_

/-- Push the elements of a list, first element first; stops at the first
failure. -/
def StackAlloc.pushAll (c : Config) (src : Nat → Option Nat) (off : Nat) :
    List Nat → StackAlloc → Except Failure Unit × StackAlloc
  | [], k => (.ok (), k)
  | x :: xs, k =>
    match StackAlloc.push c src off x k with
    | (.ok _, k1) => StackAlloc.pushAll c src off xs k1
    | (.error e, k1) => (.error e, k1)

/-- Pop `n` times; the results in the order in which they were returned. -/
def StackAlloc.popAll (off : Nat) : Nat → StackAlloc → List Nat × StackAlloc
  | 0, k => ([], k)
  | n + 1, k =>
    ((StackAlloc.pop off k).1 ::
        (StackAlloc.popAll off n (StackAlloc.pop off k).2).1,
      (StackAlloc.popAll off n (StackAlloc.pop off k).2).2)

/-- The linked nodes of a stack in the heap: starting at `head` the nodes `ns`
hold the values `vs` in their `data` members and are linked through their
`prev` members, the last one to null. -/
def StackRep (off : Nat) (heap : Heap) : Nat → List Nat → List Nat → Prop
  | head, [], [] => head = 0
  | head, n :: ns, v :: vs =>
    head = n ∧ n ≠ 0 ∧ heap n = v ∧ StackRep off heap (heap (n + off)) ns vs
  | _, _, _ => False

/-- What holds of a stack between two operations: its allocator is a
well-formed pool whose live slots are exactly the nodes of the stack, top
first, and the nodes hold the values `vs`, top first. -/
def StackInv (c : Config) (src : Nat → Option Nat) (off : Nat) (k : StackAlloc)
    (ns vs : List Nat) : Prop :=
  ∃ y : Sys, y.st = k.allocator_ ∧ PoolWF c src y ∧ y.live = ns ∧
    StackRep off k.allocator_.heap k.head_ ns vs

/-! ## Concrete instantiations used as test cases -/

/-- A 64-bit platform, `BlockSize = 4096` (the default), a 24-byte element. -/
def cfg24 : Config := ⟨64, 4096, 24, 8⟩

/-- The scenario of the specification: `BlockSize = 64`, 8-byte slots, 8-byte
pointers, 64-bit `size_t`. -/
def cfgScenario : Config := ⟨64, 64, 8, 8⟩

/-- A memory source whose every answer is the block at 4096. -/
def srcOne : Nat → Option Nat := fun _ => some 4096

/-- A 32-bit platform with an 8-byte element and `BlockSize = 4`, smaller than
one slot. -/
def cfgTiny : Config := ⟨32, 4, 8, 4⟩

/-- A 64-bit platform with pointer-sized slots and `BlockSize = 8`, exactly one
slot. -/
def cfgOneSlot : Config := ⟨64, 8, 8, 8⟩

/-- A 64-bit platform with 16-byte slots and `BlockSize = 24`: a header and one
slot, but less than two slots. -/
def cfgTight : Config := ⟨64, 24, 16, 8⟩

/-- A heap holding null everywhere. -/
def heapZero : Heap := fun _ => 0

/-- A state of a pool with two live slots, 4144 and 4168, one slot on the free
list and room left in its block. -/
def stateBusy : State :=
  (run cfg24 (srcOfList [4096])
    [Op.allocate, Op.allocate, Op.allocate, Op.deallocate 4120] (Sys.init heapZero)).st

/-- A 64-bit platform, the default `BlockSize = 4096`, the 16-byte node of a
stack of 8-byte values: `data` at offset 0, `prev` at offset 8. -/
def cfgNode : Config := ⟨64, 4096, 16, 8⟩

/-- A 64-bit platform, the default `BlockSize = 4096`, the 4088-byte node of a
stack of 4080-byte values: `data` at offset 0, `prev` at offset 4080. -/
def cfgBigNode : Config := ⟨64, 4096, 4088, 8⟩

/-! ## Basic facts about the operations -/

theorem allocate_pop (c : Config) (src : Nat → Option Nat) (n : Nat) (hint : Nat) (s : State)
    (h : s.pool.freeSlots_ ≠ 0) :
    allocate c src n hint s =
      (.ok s.pool.freeSlots_,
        { s with pool := { s.pool with freeSlots_ := s.heap s.pool.freeSlots_ } }) := by
  simp [allocate, h]

theorem allocate_carve (c : Config) (src : Nat → Option Nat) (n : Nat) (hint : Nat) (s : State)
    (h : s.pool.freeSlots_ = 0) (hlt : s.pool.currentSlot_ < s.pool.lastSlot_) :
    allocate c src n hint s =
      (.ok s.pool.currentSlot_,
        { s with pool := { s.pool with currentSlot_ := s.pool.currentSlot_ + c.slotSize } }) := by
  simp [allocate, h, Nat.not_le.mpr hlt]

theorem allocate_block (c : Config) (src : Nat → Option Nat) (n : Nat) (hint : Nat) (s : State)
    (b : Nat) (h : s.pool.freeSlots_ = 0) (hge : s.pool.lastSlot_ ≤ s.pool.currentSlot_)
    (hb : src s.newCalls = some b) :
    allocate c src n hint s =
      (.ok (b + c.ptrSize + padPointer c (b + c.ptrSize) c.slotSize),
        { pool := ⟨b, b + c.ptrSize + padPointer c (b + c.ptrSize) c.slotSize + c.slotSize,
                   b + c.BlockSize - c.slotSize + 1, s.pool.freeSlots_⟩,
          heap := Function.update s.heap b s.pool.currentBlock_,
          newCalls := s.newCalls + 1,
          blocks := b :: s.blocks }) := by
  simp [allocate, allocateBlock, operator_new, h, hge, hb]

theorem allocate_fail (c : Config) (src : Nat → Option Nat) (n : Nat) (hint : Nat) (s : State)
    (h : s.pool.freeSlots_ = 0) (hge : s.pool.lastSlot_ ≤ s.pool.currentSlot_)
    (hb : src s.newCalls = none) :
    allocate c src n hint s = (.error .bad_alloc, { s with newCalls := s.newCalls + 1 }) := by
  simp [allocate, allocateBlock, operator_new, h, hge, hb]

theorem deallocate_nonnull (p : Nat) (n : Nat) (s : State) (h : p ≠ 0) :
    deallocate p n s =
      { s with heap := Function.update s.heap p s.pool.freeSlots_,
               pool := { s.pool with freeSlots_ := p } } := by
  simp [deallocate, h]

theorem construct_heap_in (p : Nat) (val : List Nat) (s : State) (i : Nat)
    (hi : i < val.length) : (construct p val s).heap (p + i) = val[i] := by
  simp [construct, hi]

theorem construct_heap_out (p : Nat) (val : List Nat) (s : State) (q : Nat)
    (hq : q < p ∨ p + val.length ≤ q) : (construct p val s).heap q = s.heap q := by
  simp only [construct]
  by_cases h : p ≤ q
  · rw [if_pos h, List.getElem?_eq_none (by omega)]
    rfl
  · rw [if_neg h]

/-! ## Padding -/

theorem padPointer_lt (c : Config) (p align : Nat) (h : 0 < align) :
    padPointer c p align < align :=
  Nat.mod_lt _ h

/-- `p + padPointer p align` is a multiple of every common divisor of `align`
and `2 ^ w`. -/
theorem padPointer_dvd (c : Config) (p align a : Nat) (ha : a ∣ align)
    (hm : a ∣ 2 ^ c.w) : a ∣ p + padPointer c p align := by
  unfold padPointer subW
  simp only [Nat.mod_mod]
  generalize hmdef : 2 ^ c.w = m at hm
  have hmpos : 0 < m := by rw [← hmdef]; positivity
  have hle : p % m ≤ m := (Nat.mod_lt p hmpos).le
  have e1 : (align % m + (m - p % m)) % m % align ≡ (align % m + (m - p % m)) % m [MOD a] :=
    (Nat.mod_modEq _ _).of_dvd ha
  have e2 : (align % m + (m - p % m)) % m ≡ align % m + (m - p % m) [MOD a] :=
    (Nat.mod_modEq _ _).of_dvd hm
  have e3 : p ≡ p % m [MOD a] := ((Nat.mod_modEq p m).of_dvd hm).symm
  have e4 : p % m + (align % m + (m - p % m)) = align % m + m := by
    generalize p % m = r at hle
    omega
  have e5 : align % m + m ≡ 0 [MOD a] :=
    (Nat.modEq_zero_iff_dvd).mpr (Nat.dvd_add ((Nat.dvd_mod_iff hm).mpr ha) hm)
  have e6 : p + (align % m + (m - p % m)) % m % align ≡ 0 [MOD a] :=
    calc p + (align % m + (m - p % m)) % m % align
        ≡ p % m + (align % m + (m - p % m)) [MOD a] := Nat.ModEq.add e3 (e1.trans e2)
      _ = align % m + m := e4
      _ ≡ 0 [MOD a] := e5
  exact (Nat.modEq_zero_iff_dvd).mp e6

theorem padPointer_least (c : Config) (p align : Nat) (h : 0 < align)
    (hm : align ∣ 2 ^ c.w) (x : Nat) (hx : p ≤ x) (hdvd : align ∣ x) :
    p + padPointer c p align ≤ x := by
  by_contra hlt
  have h1 : align ∣ p + padPointer c p align - x :=
    Nat.dvd_sub' (padPointer_dvd c p align align (dvd_refl _) hm) hdvd
  have h2 := padPointer_lt c p align h
  have h3 : 0 < p + padPointer c p align - x := by omega
  have := Nat.le_of_dvd h3 h1
  omega

/-! ## The four ways a call of `allocate` can go, seen from the caller -/

theorem step_allocate_pop (c : Config) (src : Nat → Option Nat) (y : Sys)
    (h : y.st.pool.freeSlots_ ≠ 0) :
    step c src .allocate y =
      { st := { y.st with pool := { y.st.pool with freeSlots_ := y.st.heap y.st.pool.freeSlots_ } },
        carved := y.carved,
        live := y.st.pool.freeSlots_ :: y.live } := by
  simp [step, allocate_pop c src 1 0 y.st h, h]

theorem step_allocate_carve (c : Config) (src : Nat → Option Nat) (y : Sys)
    (h : y.st.pool.freeSlots_ = 0) (hlt : y.st.pool.currentSlot_ < y.st.pool.lastSlot_) :
    step c src .allocate y =
      { st := { y.st with pool :=
                  { y.st.pool with currentSlot_ := y.st.pool.currentSlot_ + c.slotSize } },
        carved := y.st.pool.currentSlot_ :: y.carved,
        live := y.st.pool.currentSlot_ :: y.live } := by
  simp [step, allocate_carve c src 1 0 y.st h hlt, h]

theorem step_allocate_block (c : Config) (src : Nat → Option Nat) (y : Sys) (b : Nat)
    (h : y.st.pool.freeSlots_ = 0) (hge : y.st.pool.lastSlot_ ≤ y.st.pool.currentSlot_)
    (hb : src y.st.newCalls = some b) :
    step c src .allocate y =
      { st :=
          { pool := ⟨b, b + c.ptrSize + padPointer c (b + c.ptrSize) c.slotSize + c.slotSize,
                     b + c.BlockSize - c.slotSize + 1, 0⟩,
            heap := Function.update y.st.heap b y.st.pool.currentBlock_,
            newCalls := y.st.newCalls + 1,
            blocks := b :: y.st.blocks },
        carved := (b + c.ptrSize + padPointer c (b + c.ptrSize) c.slotSize) :: y.carved,
        live := (b + c.ptrSize + padPointer c (b + c.ptrSize) c.slotSize) :: y.live } := by
  simp [step, allocate_block c src 1 0 y.st b h hge hb, h]

theorem step_allocate_fail (c : Config) (src : Nat → Option Nat) (y : Sys)
    (h : y.st.pool.freeSlots_ = 0) (hge : y.st.pool.lastSlot_ ≤ y.st.pool.currentSlot_)
    (hb : src y.st.newCalls = none) :
    step c src .allocate y =
      { y with st := { y.st with newCalls := y.st.newCalls + 1 } } := by
  simp [step, allocate_fail c src 1 0 y.st h hge hb]

theorem step_deallocate_null (c : Config) (src : Nat → Option Nat) (y : Sys) :
    step c src (.deallocate 0) y = y := by
  simp [step, deallocate]

theorem step_deallocate_nonnull (c : Config) (src : Nat → Option Nat) (y : Sys) (p : Nat)
    (h : p ≠ 0) :
    step c src (.deallocate p) y =
      { st := { y.st with heap := Function.update y.st.heap p y.st.pool.freeSlots_,
                          pool := { y.st.pool with freeSlots_ := p } },
        carved := y.carved,
        live := y.live.erase p } := by
  simp [step, deallocate, h]

/-- A property kept by every operation that meets its precondition (and an
extra condition `Q` on the operation) holds after every well-formed run. -/
theorem run_invariant (c : Config) (src : Nat → Option Nat) (Inv : Sys → Prop) (Q : Op → Prop)
    (hstep : ∀ y op, Inv y → OpOK c y op → Q op → Inv (step c src op y)) :
    ∀ (ops : List Op) (y : Sys), Inv y → WellFormed c src ops y → (∀ op ∈ ops, Q op) →
      Inv (run c src ops y) := by
  intro ops
  induction ops with
  | nil => intro y hy _ _; exact hy
  | cons op ops ih =>
    intro y hy hwf hq
    exact ih (step c src op y) (hstep y op hy hwf.1 (hq op (List.mem_cons_self _ _))) hwf.2
      (fun o ho => hq o (List.mem_cons_of_mem _ ho))

/-! ## Alignment of what `allocate` returns -/

theorem alignInv_init (a : Nat) (h0 : Heap) : AlignInv a (Sys.init h0) :=
  ⟨dvd_zero a, fun _ hp => by simp [Sys.init] at hp,
    fun _ => False, Or.inl rfl, fun _ hp => hp.elim⟩

theorem alignInv_step (c : Config) (src : Nat → Option Nat) (a : Nat)
    (haS : a ∣ c.slotSize) (ham : a ∣ 2 ^ c.w) (y : Sys) (op : Op)
    (hy : AlignInv a y) (hop : OpOK c y op) (hq : op.isCall = true) :
    AlignInv a (step c src op y) := by
  obtain ⟨hcur, hlive, W, hfree, hW⟩ := hy
  cases op with
  | write p v => simp [Op.isCall] at hq
  | deallocate p =>
    by_cases hp : p = 0
    · subst hp
      rw [step_deallocate_null]
      exact ⟨hcur, hlive, W, hfree, hW⟩
    · rw [step_deallocate_nonnull c src y p hp]
      have hpl : p ∈ y.live := by
        rcases hop with h | h
        · exact absurd h hp
        · exact h
      refine ⟨hcur, fun q hq => hlive q (List.mem_of_mem_erase hq),
        fun q => q = p ∨ W q, Or.inr (Or.inl rfl), ?_⟩
      intro q hq
      by_cases hqp : q = p
      · subst hqp
        refine ⟨hlive q hpl, ?_⟩
        simp only [Function.update_same]
        rcases hfree with h | h
        · exact Or.inl h
        · exact Or.inr (Or.inr h)
      · have hWq : W q := by
          rcases hq with h | h
          · exact absurd h hqp
          · exact h
        refine ⟨(hW q hWq).1, ?_⟩
        simp only [Function.update_noteq hqp]
        rcases (hW q hWq).2 with h | h
        · exact Or.inl h
        · exact Or.inr (Or.inr h)
  | allocate =>
    by_cases hf : y.st.pool.freeSlots_ = 0
    · by_cases hfull : y.st.pool.lastSlot_ ≤ y.st.pool.currentSlot_
      · cases hsrc : src y.st.newCalls with
        | none =>
          rw [step_allocate_fail c src y hf hfull hsrc]
          exact ⟨hcur, hlive, W, hfree, hW⟩
        | some b =>
          rw [step_allocate_block c src y b hf hfull hsrc]
          have hr := padPointer_dvd c (b + c.ptrSize) c.slotSize a haS ham
          refine ⟨Nat.dvd_add hr haS, ?_, fun _ => False, Or.inl rfl, fun _ h => h.elim⟩
          intro q hq
          rcases List.mem_cons.mp hq with h | h
          · rw [h]; exact hr
          · exact hlive q h
      · rw [step_allocate_carve c src y hf (Nat.lt_of_not_le hfull)]
        refine ⟨Nat.dvd_add hcur haS, ?_, W, hfree, hW⟩
        intro q hq
        rcases List.mem_cons.mp hq with h | h
        · rw [h]; exact hcur
        · exact hlive q h
    · rw [step_allocate_pop c src y hf]
      have hWf : W y.st.pool.freeSlots_ := by
        rcases hfree with h | h
        · exact absurd h hf
        · exact h
      refine ⟨hcur, ?_, W, (hW _ hWf).2, hW⟩
      intro q hq
      rcases List.mem_cons.mp hq with h | h
      · rw [h]; exact (hW _ hWf).1
      · exact hlive q h

/-- A power of two that divides a `size_t` value other than `0` divides `2 ^ w`. -/
theorem pow_two_dvd_word (w s a k : Nat) (hak : a = 2 ^ k) (has : a ∣ s) (hs0 : 0 < s)
    (hsw : s < 2 ^ w) : a ∣ 2 ^ w := by
  subst hak
  have hle : 2 ^ k ≤ s := Nat.le_of_dvd hs0 has
  have hkw : k < w := (Nat.pow_lt_pow_iff_right (by decide : 1 < 2)).mp (Nat.lt_of_le_of_lt hle hsw)
  exact pow_dvd_pow 2 hkw.le

/-! ## Geometry of blocks and carved addresses -/

theorem zone_disjoint (c : Config) (b b1 a a1 : Nat) (hS : 0 < c.slotSize)
    (hB : c.slotSize ≤ c.BlockSize)
    (hd : b + c.BlockSize ≤ b1 ∨ b1 + c.BlockSize ≤ b)
    (h : Zone c b a) (h1 : Zone c b1 a1) : a ≠ a1 := by
  unfold Zone at h h1
  omega

theorem zone_not_base (c : Config) (b b1 a : Nat) (hP : 0 < c.ptrSize)
    (hS : 0 < c.slotSize) (hB : c.ptrSize + c.slotSize ≤ c.BlockSize)
    (hd : b = b1 ∨ b + c.BlockSize ≤ b1 ∨ b1 + c.BlockSize ≤ b)
    (h : Zone c b a) : a ≠ b1 := by
  unfold Zone at h
  omega

theorem geomInv_init (c : Config) (src : Nat → Option Nat) (h0 : Heap) :
    GeomInv c src (Sys.init h0) := by
  refine ⟨?_, ?_, ?_, ?_, ?_, ?_, ?_⟩ <;> simp [Sys.init, ctor]

/-- Two blocks on the block list are equal or disjoint; so are a block on the
list and the block the memory source hands out next. -/
theorem blocks_apart (c : Config) (src : Nat → Option Nat) (hsrc : SourceOK c src)
    (n : Nat) (blocks : List Nat)
    (hidx : ∀ b ∈ blocks, ∃ i, i < n ∧ src i = some b) :
    (∀ b ∈ blocks, ∀ b1 ∈ blocks,
      b = b1 ∨ b + c.BlockSize ≤ b1 ∨ b1 + c.BlockSize ≤ b) ∧
    (∀ b1, src n = some b1 → ∀ b ∈ blocks,
      b1 + c.BlockSize ≤ b ∨ b + c.BlockSize ≤ b1) := by
  constructor
  · intro b hb b1 hb1
    obtain ⟨i, -, hi⟩ := hidx b hb
    obtain ⟨j, -, hj⟩ := hidx b1 hb1
    by_cases hij : i = j
    · left
      rw [hij, hj] at hi
      exact (Option.some.inj hi).symm
    · right
      exact hsrc.2 i j b b1 hij hi hj
  · intro b1 hb1 b hb
    obtain ⟨i, hlt, hi⟩ := hidx b hb
    exact hsrc.2 n i b1 b (by omega) hb1 hi

theorem geomInv_step (c : Config) (src : Nat → Option Nat) (hc : c.WF)
    (hB : c.slotSize ≤ c.BlockSize) (hsrc : SourceOK c src) (y : Sys) (op : Op)
    (hy : GeomInv c src y) : GeomInv c src (step c src op y) := by
  have hS : 0 < c.slotSize := Nat.lt_of_lt_of_le hc.1 hc.2.1
  obtain ⟨hidx, hnil, hhead, hnil2, hzone, hcur, hnd⟩ := hy
  have hapart := blocks_apart c src hsrc y.st.newCalls y.st.blocks hidx
  cases op with
  | write p v => exact ⟨hidx, hnil, hhead, hnil2, hzone, hcur, hnd⟩
  | deallocate p =>
    by_cases hp : p = 0
    · subst hp
      rw [step_deallocate_null]
      exact ⟨hidx, hnil, hhead, hnil2, hzone, hcur, hnd⟩
    · rw [step_deallocate_nonnull c src y p hp]
      exact ⟨hidx, hnil, hhead, hnil2, hzone, hcur, hnd⟩
  | allocate =>
    by_cases hf : y.st.pool.freeSlots_ = 0
    · by_cases hfull : y.st.pool.lastSlot_ ≤ y.st.pool.currentSlot_
      · cases hnew : src y.st.newCalls with
        | none =>
          rw [step_allocate_fail c src y hf hfull hnew]
          refine ⟨?_, hnil, hhead, hnil2, hzone, hcur, hnd⟩
          intro b hb
          obtain ⟨i, hi, hib⟩ := hidx b hb
          exact ⟨i, Nat.lt_succ_of_lt hi, hib⟩
        | some b =>
          rw [step_allocate_block c src y b hf hfull hnew]
          have hpad := padPointer_lt c (b + c.ptrSize) c.slotSize hS
          have hzr : Zone c b (b + c.ptrSize + padPointer c (b + c.ptrSize) c.slotSize) := by
            unfold Zone; omega
          have hfresh : ∀ a ∈ y.carved, ¬ Zone c b a ∧
              a ≠ b + c.ptrSize + padPointer c (b + c.ptrSize) c.slotSize := by
            intro a ha
            obtain ⟨b1, hb1, hz1⟩ := hzone a ha
            have hd := hapart.2 b hnew b1 hb1
            exact ⟨fun hz => zone_disjoint c b b1 a a hS hB hd hz hz1 rfl,
              fun h => zone_disjoint c b b1 _ a hS hB hd hzr hz1 h.symm⟩
          refine ⟨?_, ?_, ?_, ?_, ?_, ?_, ?_⟩
          · intro b1 hb1
            rcases List.mem_cons.mp hb1 with h | h
            · exact ⟨y.st.newCalls, Nat.lt_succ_self _, by rw [h]; exact hnew⟩
            · obtain ⟨i, hi, hib⟩ := hidx b1 h
              exact ⟨i, Nat.lt_succ_of_lt hi, hib⟩
          · intro h; simp at h
          · intro b1 rest h
            simp only [List.cons.injEq] at h
            obtain ⟨rfl, -⟩ := h
            refine ⟨rfl, rfl, ?_⟩
            show b + c.ptrSize ≤ b + c.ptrSize + _ + c.slotSize
            omega
          · intro h; simp at h
          · intro a ha
            rcases List.mem_cons.mp ha with h | h
            · exact ⟨b, List.mem_cons_self _ _, by rw [h]; exact hzr⟩
            · obtain ⟨b1, hb1, hz1⟩ := hzone a h
              exact ⟨b1, List.mem_cons_of_mem _ hb1, hz1⟩
          · intro a ha hz
            rcases List.mem_cons.mp ha with h | h
            · show a < b + c.ptrSize + _ + c.slotSize
              omega
            · exact absurd hz (hfresh a h).1
          · exact List.nodup_cons.mpr ⟨fun h => (hfresh _ h).2 rfl, hnd⟩
      · have hlt : y.st.pool.currentSlot_ < y.st.pool.lastSlot_ := Nat.lt_of_not_le hfull
        rw [step_allocate_carve c src y hf hlt]
        -- the block list is not empty, or the cursor would be at its bound
        cases hbl : y.st.blocks with
        | nil =>
          have := hnil2 hbl
          omega
        | cons cb rest =>
          obtain ⟨hcb, hlast, hlow⟩ := hhead cb rest hbl
          have hzc : Zone c cb y.st.pool.currentSlot_ := by
            unfold Zone; omega
          have hfresh : ∀ a ∈ y.carved, a ≠ y.st.pool.currentSlot_ := by
            intro a ha heq
            obtain ⟨b1, hb1, hz1⟩ := hzone a ha
            have hcbm : cb ∈ y.st.blocks := by rw [hbl]; exact List.mem_cons_self _ _
            rcases hapart.1 cb hcbm b1 hb1 with h | h
            · subst h
              have := hcur a ha (by rw [hcb]; exact hz1)
              omega
            · exact zone_disjoint c cb b1 _ a hS hB h hzc hz1 heq.symm
          refine ⟨hidx, ?_, ?_, ?_, ?_, ?_, ?_⟩
          · intro h; rw [hbl] at h; simp at h
          · intro b1 rest1 h
            obtain ⟨h1, h2, h3⟩ := hhead b1 rest1 h
            refine ⟨h1, h2, ?_⟩
            show b1 + c.ptrSize ≤ y.st.pool.currentSlot_ + c.slotSize
            omega
          · intro h; rw [hbl] at h; simp at h
          · intro a ha
            rcases List.mem_cons.mp ha with h | h
            · exact ⟨cb, by rw [hbl]; exact List.mem_cons_self _ _, by rw [h]; exact hzc⟩
            · exact hzone a h
          · intro a ha hz
            show a < y.st.pool.currentSlot_ + c.slotSize
            rcases List.mem_cons.mp ha with h | h
            · omega
            · have := hcur a h hz
              omega
          · exact List.nodup_cons.mpr ⟨fun h => hfresh _ h rfl, hnd⟩
    · rw [step_allocate_pop c src y hf]
      exact ⟨hidx, hnil, hhead, hnil2, hzone, hcur, hnd⟩

/-! ## The free list -/

theorem chain_zero (heap : Heap) (L : List Nat) (h : Chain heap 0 L) : L = [] := by
  cases L with
  | nil => rfl
  | cons x xs => exact absurd h.1.symm h.2.1

theorem chain_nonzero (heap : Heap) (p : Nat) (L : List Nat) (hp : p ≠ 0)
    (h : Chain heap p L) : ∃ xs, L = p :: xs ∧ Chain heap (heap p) xs := by
  cases L with
  | nil => exact absurd h hp
  | cons x xs =>
    obtain ⟨h1, -, h3⟩ := h
    subst h1
    exact ⟨xs, rfl, h3⟩

theorem chain_update (heap : Heap) (q v : Nat) :
    ∀ (L : List Nat) (p : Nat), Chain heap p L → q ∉ L →
      Chain (Function.update heap q v) p L := by
  intro L
  induction L with
  | nil => intro p h _; exact h
  | cons x xs ih =>
    intro p h hq
    obtain ⟨h1, h2, h3⟩ := h
    have hxq : x ≠ q := fun e => hq (by rw [e]; exact List.mem_cons_self _ _)
    refine ⟨h1, h2, ?_⟩
    rw [Function.update_noteq hxq]
    exact ih _ h3 (fun hm => hq (List.mem_cons_of_mem _ hm))

theorem freeInv_init (h0 : Heap) : FreeInv (Sys.init h0) := by
  refine ⟨[], ?_, List.nodup_nil, ?_, ?_, ?_⟩ <;> simp [Sys.init, ctor, Chain]

theorem freeInv_step (c : Config) (src : Nat → Option Nat) (y : Sys) (op : Op)
    (hg1 : GeomInv c src (step c src op y)) (hy : FreeInv y) (hop : OpOK c y op)
    (hw : ∀ q v, op = Op.write q v → ∀ a ∈ y.carved, a ∉ y.live → a ≠ q) :
    FreeInv (step c src op y) := by
  obtain ⟨F, hch, hFnd, hlnd, hFl, hcv⟩ := hy
  cases op with
  | write q v =>
    have hqF : q ∉ F :=
      fun h => hw q v rfl q ((hcv q).mpr (Or.inr h)) (hFl q h) rfl
    exact ⟨F, chain_update _ q v F _ hch hqF, hFnd, hlnd, hFl, hcv⟩
  | deallocate p =>
    by_cases hp : p = 0
    · subst hp
      rw [step_deallocate_null]
      exact ⟨F, hch, hFnd, hlnd, hFl, hcv⟩
    · rw [step_deallocate_nonnull c src y p hp]
      have hpl : p ∈ y.live := by
        rcases hop with h | h
        · exact absurd h hp
        · exact h
      have hpF : p ∉ F := fun h => hFl p h hpl
      refine ⟨p :: F, ⟨rfl, hp, ?_⟩, List.nodup_cons.mpr ⟨hpF, hFnd⟩, hlnd.erase p, ?_, ?_⟩
      · simp only [Function.update_same]
        exact chain_update _ p _ F _ hch hpF
      · intro a ha hmem
        rcases List.mem_cons.mp ha with h | h
        · rw [h] at hmem
          exact ((hlnd.mem_erase_iff).mp hmem).1 rfl
        · exact hFl a h (List.mem_of_mem_erase hmem)
      · intro a
        rw [hcv a]
        by_cases hap : a = p
        · subst hap
          simp [hpl]
        · simp [hap, List.mem_erase_of_ne hap]
  | allocate =>
    by_cases hf : y.st.pool.freeSlots_ = 0
    · have hF : F = [] := chain_zero _ F (by rw [hf] at hch; exact hch)
      subst hF
      have hlc : ∀ a, a ∈ y.carved ↔ a ∈ y.live := by
        intro a; rw [hcv a]; simp
      by_cases hfull : y.st.pool.lastSlot_ ≤ y.st.pool.currentSlot_
      · cases hnew : src y.st.newCalls with
        | none =>
          rw [step_allocate_fail c src y hf hfull hnew]
          exact ⟨[], hch, hFnd, hlnd, hFl, hcv⟩
        | some b =>
          rw [step_allocate_block c src y b hf hfull hnew] at hg1 ⊢
          have hnd := hg1.2.2.2.2.2.2
          have hr := (List.nodup_cons.mp hnd).1
          refine ⟨[], rfl, List.nodup_nil, ?_, ?_, ?_⟩
          · exact List.nodup_cons.mpr ⟨fun h => hr ((hlc _).mpr h), hlnd⟩
          · intro a ha; simp at ha
          · intro a
            simp only [List.mem_cons, List.not_mem_nil, or_false]
            rw [hlc a]
      · have hlt : y.st.pool.currentSlot_ < y.st.pool.lastSlot_ := Nat.lt_of_not_le hfull
        rw [step_allocate_carve c src y hf hlt] at hg1 ⊢
        have hnd := hg1.2.2.2.2.2.2
        have hr := (List.nodup_cons.mp hnd).1
        refine ⟨[], ?_, List.nodup_nil, ?_, ?_, ?_⟩
        · exact hch
        · exact List.nodup_cons.mpr ⟨fun h => hr ((hlc _).mpr h), hlnd⟩
        · intro a ha; simp at ha
        · intro a
          simp only [List.mem_cons, List.not_mem_nil, or_false]
          rw [hlc a]
    · rw [step_allocate_pop c src y hf]
      obtain ⟨xs, hFx, hchx⟩ := chain_nonzero _ _ F hf hch
      subst hFx
      have hnd := List.nodup_cons.mp hFnd
      refine ⟨xs, hchx, hnd.2, ?_, ?_, ?_⟩
      · exact List.nodup_cons.mpr ⟨hFl _ (List.mem_cons_self _ _), hlnd⟩
      · intro a ha hmem
        rcases List.mem_cons.mp hmem with h | h
        · rw [h] at ha; exact hnd.1 ha
        · exact hFl a (List.mem_cons_of_mem _ ha) h
      · intro a
        rw [hcv a]
        simp only [List.mem_cons]
        tauto

/-! ## Memory sources given by a list -/

theorem sourceOK_ofList (c : Config) (l : List Nat)
    (h1 : ∀ b ∈ l, b ≠ 0 ∧ b + c.BlockSize ≤ 2 ^ c.w)
    (h2 : l.Pairwise (fun x y => x + c.BlockSize ≤ y ∨ y + c.BlockSize ≤ x)) :
    SourceOK c (srcOfList l) := by
  constructor
  · intro i b hb
    simp only [srcOfList] at hb
    obtain ⟨hi, hib⟩ := List.getElem?_eq_some.mp hb
    exact h1 b (by rw [← hib]; exact List.getElem_mem _)
  · intro i j bi bj hij hi hj
    simp only [srcOfList] at hi hj
    obtain ⟨hil, hib⟩ := List.getElem?_eq_some.mp hi
    obtain ⟨hjl, hjb⟩ := List.getElem?_eq_some.mp hj
    rw [List.pairwise_iff_getElem] at h2
    rcases Nat.lt_or_gt_of_ne hij with h | h
    · have := h2 i j hil hjl h
      rw [hib, hjb] at this
      exact this
    · have := h2 j i hjl hil h
      rw [hib, hjb] at this
      exact this.symm

/-! ## The invariants along a run -/

theorem allocate_ignores_arguments (c : Config) (src : Nat → Option Nat) (n hint : Nat)
    (s : State) : allocate c src n hint s = allocate c src 1 0 s :=
  rfl

theorem step_allocate_ok (c : Config) (src : Nat → Option Nat) (y : Sys) (n hint p : Nat)
    (s1 : State) (h : allocate c src n hint y.st = (.ok p, s1)) :
    (step c src .allocate y).live = p :: y.live ∧ (step c src .allocate y).st = s1 := by
  rw [allocate_ignores_arguments] at h
  simp [step, h]

theorem geom_free_run (c : Config) (src : Nat → Option Nat) (hc : c.WF)
    (hB : c.slotSize ≤ c.BlockSize) (hsrc : SourceOK c src) (h0 : Heap) (ops : List Op)
    (hwf : WellFormed c src ops (Sys.init h0)) (hcalls : CallsOnly ops) :
    GeomInv c src (run c src ops (Sys.init h0)) ∧ FreeInv (run c src ops (Sys.init h0)) :=
  run_invariant c src (fun y => GeomInv c src y ∧ FreeInv y) (fun op => op.isCall = true)
    (fun y op hy hop hq =>
      have hg := geomInv_step c src hc hB hsrc y op hy.1
      ⟨hg, freeInv_step c src y op hg hy.2 hop
        (fun q v h => by rw [h] at hq; simp [Op.isCall] at hq)⟩)
    ops (Sys.init h0) ⟨geomInv_init c src h0, freeInv_init h0⟩ hwf hcalls

/-! ## The chain of block headers -/

theorem headerInv_init (h0 : Heap) : HeaderInv (Sys.init h0) := by
  refine ⟨?_, ?_, ?_⟩ <;> simp [Sys.init, ctor, Chain]

theorem headerInv_step (c : Config) (src : Nat → Option Nat) (hc : c.WF)
    (hB : c.ptrSize + c.slotSize ≤ c.BlockSize) (hsrc : SourceOK c src) (y : Sys) (op : Op)
    (hg : GeomInv c src y) (hf : FreeInv y) (hy : HeaderInv y) (hop : OpOK c y op)
    (hwb : ∀ q v, op = Op.write q v → q ∉ y.st.blocks) :
    HeaderInv (step c src op y) := by
  have hP : 0 < c.ptrSize := hc.1
  have hS : 0 < c.slotSize := Nat.lt_of_lt_of_le hc.1 hc.2.1
  obtain ⟨hidx, hnil, hhead, hnil2, hzone, hcur, hnd⟩ := hg
  obtain ⟨F, -, -, -, -, hcv⟩ := hf
  obtain ⟨hch, hbnd, hcb⟩ := hy
  have hapart := blocks_apart c src hsrc y.st.newCalls y.st.blocks hidx
  have hlive : ∀ p ∈ y.live, p ∉ y.st.blocks :=
    fun p hp => hcb p ((hcv p).mpr (Or.inl hp))
  cases op with
  | write q v =>
    exact ⟨chain_update _ q v _ _ hch (hwb q v rfl), hbnd, hcb⟩
  | deallocate p =>
    by_cases hp : p = 0
    · subst hp
      rw [step_deallocate_null]
      exact ⟨hch, hbnd, hcb⟩
    · rw [step_deallocate_nonnull c src y p hp]
      have hpl : p ∈ y.live := by
        rcases hop with h | h
        · exact absurd h hp
        · exact h
      exact ⟨chain_update _ p _ _ _ hch (hlive p hpl), hbnd, hcb⟩
  | allocate =>
    by_cases hfr : y.st.pool.freeSlots_ = 0
    · by_cases hfull : y.st.pool.lastSlot_ ≤ y.st.pool.currentSlot_
      · cases hnew : src y.st.newCalls with
        | none =>
          rw [step_allocate_fail c src y hfr hfull hnew]
          exact ⟨hch, hbnd, hcb⟩
        | some b =>
          rw [step_allocate_block c src y b hfr hfull hnew]
          have hpad := padPointer_lt c (b + c.ptrSize) c.slotSize hS
          have hzr : Zone c b (b + c.ptrSize + padPointer c (b + c.ptrSize) c.slotSize) := by
            unfold Zone; omega
          have hbB : 0 < c.BlockSize := by omega
          have hbnew : b ∉ y.st.blocks := by
            intro hmem
            have := hapart.2 b hnew b hmem
            omega
          refine ⟨⟨rfl, (hsrc.1 _ b hnew).1, ?_⟩, List.nodup_cons.mpr ⟨hbnew, hbnd⟩, ?_⟩
          · simp only [Function.update_same]
            exact chain_update _ b _ _ _ hch hbnew
          · intro a ha hmem
            rcases List.mem_cons.mp ha with h | h
            · subst h
              rcases List.mem_cons.mp hmem with h1 | h1
              · exact zone_not_base c b b _ hP hS hB (Or.inl rfl) hzr h1
              · have hd := hapart.2 b hnew _ h1
                exact zone_not_base c b _ _ hP hS hB (Or.inr hd) hzr rfl
            · rcases List.mem_cons.mp hmem with h1 | h1
              · obtain ⟨b1, hb1, hz1⟩ := hzone a h
                have hd := hapart.2 b hnew b1 hb1
                exact zone_not_base c b1 b a hP hS hB (Or.inr hd.symm) hz1 h1
              · exact hcb a h h1
      · have hlt : y.st.pool.currentSlot_ < y.st.pool.lastSlot_ := Nat.lt_of_not_le hfull
        rw [step_allocate_carve c src y hfr hlt]
        refine ⟨hch, hbnd, ?_⟩
        cases hbl : y.st.blocks with
        | nil =>
          have := hnil2 hbl
          omega
        | cons cb rest =>
          obtain ⟨-, hlast, hlow⟩ := hhead cb rest hbl
          have hzc : Zone c cb y.st.pool.currentSlot_ := by
            unfold Zone; omega
          have hcbm : cb ∈ y.st.blocks := by rw [hbl]; exact List.mem_cons_self _ _
          intro a ha hmem
          rw [← hbl] at hmem
          rcases List.mem_cons.mp ha with h | h
          · subst h
            exact zone_not_base c cb _ _ hP hS hB (hapart.1 cb hcbm _ hmem) hzc rfl
          · exact hcb a h hmem
    · rw [step_allocate_pop c src y hfr]
      exact ⟨hch, hbnd, hcb⟩

/-- The destructor loop walks a chain to its end when the fuel exceeds the
length of the chain, and passes exactly the chain to `operator delete`. -/
theorem dtorLoop_chain (heap : Heap) :
    ∀ (L : List Nat) (p fuel : Nat), Chain heap p L → L.length < fuel →
      dtorLoop heap fuel p = some L := by
  intro L
  induction L with
  | nil =>
    intro p fuel h hlen
    cases fuel with
    | zero => simp at hlen
    | succ f => simp [dtorLoop, show p = 0 from h]
  | cons x xs ih =>
    intro p fuel h hlen
    obtain ⟨h1, h2, h3⟩ := h
    cases fuel with
    | zero => simp at hlen
    | succ f =>
      subst h1
      have := ih (heap p) f h3 (by simpa using hlen)
      simp [dtorLoop, h2, this]

/-! ## Counting blocks against carved slots -/

theorem carveRoom_step (c : Config) (cur last : Nat) (hS : 0 < c.slotSize) (h : cur < last) :
    carveRoom c cur last = 1 + carveRoom c (cur + c.slotSize) last := by
  unfold carveRoom
  rw [if_pos h]
  have e : last - cur + c.slotSize - 1 = (last - cur - 1) + c.slotSize := by omega
  rw [e, Nat.add_div_right _ hS]
  by_cases h2 : cur + c.slotSize < last
  · rw [if_pos h2]
    have e2 : last - (cur + c.slotSize) + c.slotSize - 1 = last - cur - 1 := by omega
    rw [e2]; omega
  · rw [if_neg h2]
    have : (last - cur - 1) / c.slotSize = 0 := Nat.div_eq_of_lt (by omega)
    omega

theorem carveRoom_done (c : Config) (cur last : Nat) (h : last ≤ cur) :
    carveRoom c cur last = 0 := by
  unfold carveRoom
  rw [if_neg (by omega)]

theorem carveRoom_le (c : Config) (cur last : Nat) : carveRoom c cur last ≤ last - cur := by
  unfold carveRoom
  split
  · rcases Nat.eq_zero_or_pos c.slotSize with h | h
    · rw [h]; simp
    · apply Nat.div_le_of_le_mul
      obtain ⟨e, he⟩ : ∃ e, last - cur = e + 1 := ⟨last - cur - 1, by omega⟩
      rw [he, Nat.mul_succ]
      have : e ≤ c.slotSize * e := Nat.le_mul_of_pos_left _ h
      omega
  · exact Nat.zero_le _

theorem countServed_carving (c : Config) (b : Nat) (hS : 0 < c.slotSize) :
    ∀ (fuel : Nat) (s : State), s.pool.freeSlots_ = 0 → 1 ≤ s.newCalls →
      countServed c (srcOfList [b]) fuel s
        = min fuel (carveRoom c s.pool.currentSlot_ s.pool.lastSlot_) := by
  intro fuel
  induction fuel with
  | zero => intro s _ _; simp [countServed]
  | succ f ih =>
    intro s hf hn
    by_cases hlt : s.pool.currentSlot_ < s.pool.lastSlot_
    · have hnext := ih
        { pool := { s.pool with currentSlot_ := s.pool.currentSlot_ + c.slotSize },
          heap := s.heap, newCalls := s.newCalls, blocks := s.blocks } hf hn
      rw [countServed, allocate_carve c _ 1 0 s hf hlt]
      simp only
      rw [hnext, carveRoom_step c _ _ hS hlt]
      simp only
      omega
    · have hge : s.pool.lastSlot_ ≤ s.pool.currentSlot_ := Nat.le_of_not_lt hlt
      have hnone : srcOfList [b] s.newCalls = none := by
        simp only [srcOfList]
        rw [List.getElem?_eq_none]
        simpa using hn
      rw [countServed, allocate_fail c _ 1 0 s hf hge hnone, carveRoom_done c _ _ hge]
      simp

theorem slotsPerBlock_eq (c : Config) (b : Nat) (hS : 0 < c.slotSize) :
    slotsPerBlock c b
      = 1 + carveRoom c (b + c.ptrSize + padPointer c (b + c.ptrSize) c.slotSize + c.slotSize)
              (b + c.BlockSize - c.slotSize + 1) := by
  unfold slotsPerBlock
  rw [countServed, allocate_block c (srcOfList [b]) 1 0
    { pool := ctor ⟨0, 0, 0, 0⟩, heap := fun _ => 0, newCalls := 0, blocks := [] } b rfl
    (Nat.le_refl _) (by simp [srcOfList])]
  simp only
  rw [countServed_carving c b hS _ _ rfl (by simp)]
  simp only
  have := carveRoom_le c (b + c.ptrSize + padPointer c (b + c.ptrSize) c.slotSize + c.slotSize)
    (b + c.BlockSize - c.slotSize + 1)
  rw [Nat.min_eq_right (by omega)]

theorem blocks_step (c : Config) (src : Nat → Option Nat) (y : Sys) (op : Op) :
    ∀ b ∈ y.st.blocks, b ∈ (step c src op y).st.blocks := by
  intro b hb
  cases op with
  | write p v => exact hb
  | deallocate p =>
    by_cases hp : p = 0
    · subst hp; rw [step_deallocate_null]; exact hb
    · rw [step_deallocate_nonnull c src y p hp]; exact hb
  | allocate =>
    by_cases hf : y.st.pool.freeSlots_ = 0
    · by_cases hfull : y.st.pool.lastSlot_ ≤ y.st.pool.currentSlot_
      · cases hnew : src y.st.newCalls with
        | none => rw [step_allocate_fail c src y hf hfull hnew]; exact hb
        | some b1 =>
          rw [step_allocate_block c src y b1 hf hfull hnew]
          exact List.mem_cons_of_mem _ hb
      · rw [step_allocate_carve c src y hf (Nat.lt_of_not_le hfull)]; exact hb
    · rw [step_allocate_pop c src y hf]; exact hb

theorem blocks_run (c : Config) (src : Nat → Option Nat) :
    ∀ (ops : List Op) (y : Sys), ∀ b ∈ y.st.blocks, b ∈ (run c src ops y).st.blocks := by
  intro ops
  induction ops with
  | nil => intro y b hb; exact hb
  | cons op ops ih =>
    intro y b hb
    exact ih (step c src op y) b (blocks_step c src y op b hb)

theorem countInv_step (c : Config) (src : Nat → Option Nat) (s : Nat) (hS : 0 < c.slotSize)
    (y : Sys) (op : Op) (hy : CountInv c s y)
    (hs : ∀ b ∈ (step c src op y).st.blocks, slotsPerBlock c b = s) :
    CountInv c s (step c src op y) := by
  cases op with
  | write p v => exact hy
  | deallocate p =>
    by_cases hp : p = 0
    · subst hp; rw [step_deallocate_null]; exact hy
    · rw [step_deallocate_nonnull c src y p hp]; exact hy
  | allocate =>
    by_cases hf : y.st.pool.freeSlots_ = 0
    · by_cases hfull : y.st.pool.lastSlot_ ≤ y.st.pool.currentSlot_
      · cases hnew : src y.st.newCalls with
        | none => rw [step_allocate_fail c src y hf hfull hnew]; exact hy
        | some b =>
          rw [step_allocate_block c src y b hf hfull hnew] at hs ⊢
          have hb := hs b (List.mem_cons_self _ _)
          rw [slotsPerBlock_eq c b hS] at hb
          right
          refine ⟨1, Nat.le_refl _, hb, ?_, by simp⟩
          rcases hy with ⟨h1, h2, -, -⟩ | ⟨k, hk1, hk2, hk3, hk4⟩
          · simp [h1, h2]
          · rw [carveRoom_done c _ _ hfull] at hk2
            simp only [List.length_cons, Nat.add_sub_cancel]
            rw [hk3]
            obtain ⟨m, hm⟩ : ∃ m, y.st.blocks.length = m + 1 :=
              ⟨y.st.blocks.length - 1, by
                have := List.length_pos.mpr hk4
                omega⟩
            rw [hm, Nat.add_sub_cancel, Nat.succ_mul]
            omega
      · have hlt : y.st.pool.currentSlot_ < y.st.pool.lastSlot_ := Nat.lt_of_not_le hfull
        rw [step_allocate_carve c src y hf hlt]
        rcases hy with ⟨-, -, h3, h4⟩ | ⟨k, hk1, hk2, hk3, hk4⟩
        · omega
        · right
          rw [carveRoom_step c _ _ hS hlt] at hk2
          refine ⟨k + 1, by omega, by simp only; omega, ?_, hk4⟩
          simp only [List.length_cons]
          omega
    · rw [step_allocate_pop c src y hf]; exact hy

theorem countInv_run (c : Config) (src : Nat → Option Nat) (s : Nat) (hS : 0 < c.slotSize) :
    ∀ (ops : List Op) (y : Sys), CountInv c s y →
      (∀ b ∈ (run c src ops y).st.blocks, slotsPerBlock c b = s) →
      CountInv c s (run c src ops y) := by
  intro ops
  induction ops with
  | nil => intro y hy _; exact hy
  | cons op ops ih =>
    intro y hy hs
    exact ih (step c src op y)
      (countInv_step c src s hS y op hy
        (fun b hb => hs b (blocks_run c src ops (step c src op y) b hb))) hs

theorem countInv_ceil (c : Config) (s : Nat) (y : Sys) (hs : 1 ≤ s) (hy : CountInv c s y) :
    y.st.blocks.length = (y.carved.length + s - 1) / s := by
  rcases hy with ⟨h1, h2, -, -⟩ | ⟨k, hk1, hk2, hk3, hk4⟩
  · rw [h1, h2]
    simp only [List.length_nil, Nat.zero_add]
    exact (Nat.div_eq_of_lt (by omega)).symm
  · obtain ⟨m, hm⟩ : ∃ m, y.st.blocks.length = m + 1 :=
      ⟨y.st.blocks.length - 1, by
        have := List.length_pos.mpr hk4
        omega⟩
    rw [hk3, hm, Nat.add_sub_cancel]
    have e : m * s + k + s - 1 = (k - 1) + s * (m + 1) := by
      rw [Nat.mul_succ, Nat.mul_comm s m]; omega
    rw [e, Nat.add_mul_div_left _ _ (by omega : 0 < s), Nat.div_eq_of_lt (by omega)]
    omega

/-! ## Runs made of pops and of releases -/

/-- Allocating as many times as the free list is long pops the whole list, in
list order, and touches neither the cursor nor the memory source. -/
theorem run_pops (c : Config) (src : Nat → Option Nat) :
    ∀ (F : List Nat) (y : Sys), Chain y.st.heap y.st.pool.freeSlots_ F →
      run c src (List.replicate F.length Op.allocate) y =
        { st := { y.st with pool := { y.st.pool with freeSlots_ := 0 } },
          carved := y.carved,
          live := F.reverse ++ y.live } := by
  intro F
  induction F with
  | nil =>
    intro y h
    have h0 : y.st.pool.freeSlots_ = 0 := h
    simp only [List.length_nil, List.replicate, run, List.reverse_nil, List.nil_append]
    rw [← h0]
  | cons x xs ih =>
    intro y h
    obtain ⟨h1, h2, h3⟩ := h
    have hne : y.st.pool.freeSlots_ ≠ 0 := by rw [h1]; exact h2
    simp only [List.length_cons, List.replicate, run]
    rw [step_allocate_pop c src y hne, ih _ (by rw [h1]; exact h3)]
    simp [h1]

/-- Releasing the addresses of `L` in order, all of them non-null, distinct and
outside the free list, threads them onto the free list, last released first. -/
theorem run_deallocs (c : Config) (src : Nat → Option Nat) :
    ∀ (L : List Nat) (y : Sys) (F rest : List Nat),
      (∀ p ∈ L, p ≠ 0) → L.Nodup → (∀ p ∈ L, p ∉ F) → y.live = L ++ rest →
      Chain y.st.heap y.st.pool.freeSlots_ F →
      Chain (run c src (L.map Op.deallocate) y).st.heap
        (run c src (L.map Op.deallocate) y).st.pool.freeSlots_ (L.reverse ++ F) ∧
      (run c src (L.map Op.deallocate) y).live = rest ∧
      (run c src (L.map Op.deallocate) y).carved = y.carved ∧
      (run c src (L.map Op.deallocate) y).st.blocks = y.st.blocks ∧
      (run c src (L.map Op.deallocate) y).st.newCalls = y.st.newCalls ∧
      (run c src (L.map Op.deallocate) y).st.pool.currentSlot_ = y.st.pool.currentSlot_ ∧
      (run c src (L.map Op.deallocate) y).st.pool.lastSlot_ = y.st.pool.lastSlot_ ∧
      (run c src (L.map Op.deallocate) y).st.pool.currentBlock_ = y.st.pool.currentBlock_ := by
  intro L
  induction L with
  | nil =>
    intro y F rest _ _ _ hl hch
    refine ⟨hch, ?_, rfl, rfl, rfl, rfl, rfl, rfl⟩
    show y.live = rest
    simpa using hl
  | cons p ps ih =>
    intro y F rest hnz hnd hF hl hch
    have hp : p ≠ 0 := hnz p (List.mem_cons_self _ _)
    have hpF : p ∉ F := hF p (List.mem_cons_self _ _)
    obtain ⟨hpps, hnd1⟩ := List.nodup_cons.mp hnd
    simp only [List.map_cons, run]
    rw [step_deallocate_nonnull c src y p hp]
    have hch1 : Chain (Function.update y.st.heap p y.st.pool.freeSlots_) p (p :: F) := by
      refine ⟨rfl, hp, ?_⟩
      simp only [Function.update_same]
      exact chain_update _ p _ F _ hch hpF
    have := ih
      { st := { y.st with heap := Function.update y.st.heap p y.st.pool.freeSlots_,
                          pool := { y.st.pool with freeSlots_ := p } },
        carved := y.carved, live := y.live.erase p } (p :: F) rest
      (fun q hq => hnz q (List.mem_cons_of_mem _ hq)) hnd1
      (by
        intro q hq hmem
        rcases List.mem_cons.mp hmem with h | h
        · exact hpps (by rw [← h]; exact hq)
        · exact hF q (List.mem_cons_of_mem _ hq) h)
      (by simp [hl])
      hch1
    simpa using this

/-! ## The scenario `BlockSize = 64`, slot size 8 -/

theorem padPointer_scenario (b : Nat) (h : 8 ∣ b) : padPointer cfgScenario (b + 8) 8 = 0 := by
  simp only [padPointer, subW, cfgScenario]
  norm_num
  omega

theorem scenario_block (src : Nat → Option Nat) (heap : Heap) (cb cur last nc : Nat)
    (blocks carved live : List Nat) (b : Nat) (h8 : 8 ∣ b) (hfull : last ≤ cur)
    (hs : src nc = some b) :
    step cfgScenario src Op.allocate
        { st := { pool := ⟨cb, cur, last, 0⟩, heap := heap, newCalls := nc, blocks := blocks },
          carved := carved, live := live } =
      { st := { pool := ⟨b, b + 16, b + 57, 0⟩, heap := Function.update heap b cb,
                newCalls := nc + 1, blocks := b :: blocks },
        carved := (b + 8) :: carved, live := (b + 8) :: live } := by
  have hp : padPointer cfgScenario (b + cfgScenario.ptrSize) cfgScenario.slotSize = 0 :=
    padPointer_scenario b h8
  rw [step_allocate_block cfgScenario src _ b rfl hfull hs, hp]
  simp only [cfgScenario, Nat.add_zero]
  have e1 : b + 8 + 8 = b + 16 := by omega
  have e2 : b + 64 - 8 + 1 = b + 57 := by omega
  rw [e1, e2]

theorem scenario_carve (src : Nat → Option Nat) (heap : Heap) (cb cur last nc : Nat)
    (blocks carved live : List Nat) (hlt : cur < last) :
    step cfgScenario src Op.allocate
        { st := { pool := ⟨cb, cur, last, 0⟩, heap := heap, newCalls := nc, blocks := blocks },
          carved := carved, live := live } =
      { st := { pool := ⟨cb, cur + 8, last, 0⟩, heap := heap, newCalls := nc,
                blocks := blocks },
        carved := cur :: carved, live := cur :: live } := by
  rw [step_allocate_carve cfgScenario src _ rfl hlt]
  rfl

theorem scenario_ten_allocs (src : Nat → Option Nat) (h0 : Heap) (b1 b2 : Nat)
    (h1 : 8 ∣ b1) (h2 : 8 ∣ b2) (hs0 : src 0 = some b1) (hs1 : src 1 = some b2) :
    run cfgScenario src (List.replicate 10 Op.allocate) (Sys.init h0) =
      { st := { pool := ⟨b2, b2 + 32, b2 + 57, 0⟩,
                heap := Function.update (Function.update h0 b1 0) b2 b1,
                newCalls := 2, blocks := [b2, b1] },
        carved := [b2 + 24, b2 + 16, b2 + 8, b1 + 56, b1 + 48, b1 + 40, b1 + 32, b1 + 24,
                   b1 + 16, b1 + 8],
        live := [b2 + 24, b2 + 16, b2 + 8, b1 + 56, b1 + 48, b1 + 40, b1 + 32, b1 + 24,
                   b1 + 16, b1 + 8] } := by
  simp only [List.replicate, run, Sys.init, ctor]
  rw [scenario_block src h0 0 0 0 0 [] [] [] b1 h1 (Nat.le_refl _) hs0]
  rw [scenario_carve src _ _ _ _ _ _ _ _ (by omega)]
  rw [scenario_carve src _ _ _ _ _ _ _ _ (by omega)]
  rw [scenario_carve src _ _ _ _ _ _ _ _ (by omega)]
  rw [scenario_carve src _ _ _ _ _ _ _ _ (by omega)]
  rw [scenario_carve src _ _ _ _ _ _ _ _ (by omega)]
  rw [scenario_carve src _ _ _ _ _ _ _ _ (by omega)]
  rw [scenario_block src _ _ _ _ _ _ _ _ b2 h2 (by omega) hs1]
  rw [scenario_carve src _ _ _ _ _ _ _ _ (by omega)]
  rw [scenario_carve src _ _ _ _ _ _ _ _ (by omega)]

/-- Releasing every live address, most recent first, and then allocating as many
times again returns the same addresses and leaves the cursor, the block list
and the count of calls to the memory source as they were. -/
theorem run_release_reallocate (c : Config) (src : Nat → Option Nat) (y : Sys)
    (hfree : y.st.pool.freeSlots_ = 0) (hnz : ∀ p ∈ y.live, p ≠ 0) (hnd : y.live.Nodup) :
    (run c src (y.live.map Op.deallocate) y).live = [] ∧
    (run c src (y.live.map Op.deallocate) y).st.newCalls = y.st.newCalls ∧
    (run c src (y.live.map Op.deallocate) y).st.blocks = y.st.blocks ∧
    (run c src (List.replicate y.live.length Op.allocate)
      (run c src (y.live.map Op.deallocate) y)).live = y.live ∧
    (run c src (List.replicate y.live.length Op.allocate)
      (run c src (y.live.map Op.deallocate) y)).carved = y.carved ∧
    (run c src (List.replicate y.live.length Op.allocate)
      (run c src (y.live.map Op.deallocate) y)).st.newCalls = y.st.newCalls ∧
    (run c src (List.replicate y.live.length Op.allocate)
      (run c src (y.live.map Op.deallocate) y)).st.blocks = y.st.blocks ∧
    (run c src (List.replicate y.live.length Op.allocate)
      (run c src (y.live.map Op.deallocate) y)).st.pool = y.st.pool := by
  obtain ⟨hch, hl, hc, hb, hn, hcur, hlast, hcb⟩ :=
    run_deallocs c src y.live y [] [] hnz hnd (fun _ _ h => by simp at h) (by simp)
      (by rw [hfree]; exact rfl)
  have hpop := run_pops c src (y.live.reverse ++ []) _ hch
  have hlen : (y.live.reverse ++ []).length = y.live.length := by simp
  rw [hlen] at hpop
  rw [hpop]
  refine ⟨hl, hn, hb, ?_, hc, hn, hb, ?_⟩
  · simp [hl]
  · have e : ∀ a b : MemoryPool, a.currentBlock_ = b.currentBlock_ →
        a.currentSlot_ = b.currentSlot_ → a.lastSlot_ = b.lastSlot_ →
        a.freeSlots_ = b.freeSlots_ → a = b := by
      intro a b h1 h2 h3 h4
      cases a; cases b; simp_all
    exact e _ _ hcb hcur hlast hfree.symm

/-! ## Slots inside blocks -/

theorem tightInv_init (c : Config) (h0 : Heap) : TightInv c (Sys.init h0) := by
  refine ⟨?_, ?_, ?_⟩ <;> simp [Sys.init]

theorem inside_apart (c : Config) (b b1 a a1 : Nat)
    (hd : b + c.BlockSize ≤ b1 ∨ b1 + c.BlockSize ≤ b)
    (h : Inside c b a) (h1 : Inside c b1 a1) :
    a + c.slotSize ≤ a1 ∨ a1 + c.slotSize ≤ a := by
  unfold Inside at h h1
  omega

theorem tightInv_step (c : Config) (src : Nat → Option Nat) (hc : c.WF)
    (hsrc : SourceOK c src) (hfit : FirstSlotFits c src) (y : Sys) (op : Op)
    (hg : GeomInv c src y) (hy : TightInv c y) : TightInv c (step c src op y) := by
  have hS : 0 < c.slotSize := Nat.lt_of_lt_of_le hc.1 hc.2.1
  obtain ⟨hidx, -, hhead, hnil2, -, -, -⟩ := hg
  obtain ⟨hin, hcur, hap⟩ := hy
  have hapart := blocks_apart c src hsrc y.st.newCalls y.st.blocks hidx
  cases op with
  | write q v => exact ⟨hin, hcur, hap⟩
  | deallocate p =>
    by_cases hp : p = 0
    · subst hp
      rw [step_deallocate_null]
      exact ⟨hin, hcur, hap⟩
    · rw [step_deallocate_nonnull c src y p hp]
      exact ⟨hin, hcur, hap⟩
  | allocate =>
    by_cases hf : y.st.pool.freeSlots_ = 0
    · by_cases hfull : y.st.pool.lastSlot_ ≤ y.st.pool.currentSlot_
      · cases hnew : src y.st.newCalls with
        | none =>
          rw [step_allocate_fail c src y hf hfull hnew]
          exact ⟨hin, hcur, hap⟩
        | some b =>
          rw [step_allocate_block c src y b hf hfull hnew]
          have hfb := hfit.2 _ b hnew
          have hir : Inside c b (b + c.ptrSize + padPointer c (b + c.ptrSize) c.slotSize) := by
            unfold Inside; omega
          have hold : ∀ a ∈ y.carved, ¬ Inside c b a ∧
              (a + c.slotSize ≤ b + c.ptrSize + padPointer c (b + c.ptrSize) c.slotSize ∨
               b + c.ptrSize + padPointer c (b + c.ptrSize) c.slotSize + c.slotSize ≤ a) := by
            intro a ha
            obtain ⟨b1, hb1, hi1⟩ := hin a ha
            have hd := hapart.2 b hnew b1 hb1
            refine ⟨fun hi => ?_, (inside_apart c b b1 _ a hd hir hi1).symm⟩
            have := inside_apart c b b1 a a hd hi hi1
            omega
          refine ⟨?_, ?_, ?_⟩
          · intro a ha
            rcases List.mem_cons.mp ha with h | h
            · exact ⟨b, List.mem_cons_self _ _, by rw [h]; exact hir⟩
            · obtain ⟨b1, hb1, hi1⟩ := hin a h
              exact ⟨b1, List.mem_cons_of_mem _ hb1, hi1⟩
          · intro a ha hi
            rcases List.mem_cons.mp ha with h | h
            · show a + c.slotSize ≤ b + c.ptrSize + _ + c.slotSize
              omega
            · exact absurd hi (hold a h).1
          · intro a ha a1 ha1 hne
            rcases List.mem_cons.mp ha with h | h <;> rcases List.mem_cons.mp ha1 with h1 | h1
            · exact absurd (h.trans h1.symm) hne
            · rw [h]; exact (hold a1 h1).2.symm
            · rw [h1]; exact (hold a h).2
            · exact hap a h a1 h1 hne
      · have hlt : y.st.pool.currentSlot_ < y.st.pool.lastSlot_ := Nat.lt_of_not_le hfull
        rw [step_allocate_carve c src y hf hlt]
        cases hbl : y.st.blocks with
        | nil =>
          have := hnil2 hbl
          omega
        | cons cb rest =>
          obtain ⟨hcb, hlast, hlow⟩ := hhead cb rest hbl
          have hcbm : cb ∈ y.st.blocks := by rw [hbl]; exact List.mem_cons_self _ _
          obtain ⟨i, -, hi⟩ := hidx cb hcbm
          have hfb := hfit.2 i cb hi
          have hic : Inside c cb y.st.pool.currentSlot_ := by
            unfold Inside; omega
          have hold : ∀ a ∈ y.carved, a + c.slotSize ≤ y.st.pool.currentSlot_ ∨
              y.st.pool.currentSlot_ + c.slotSize ≤ a := by
            intro a ha
            obtain ⟨b1, hb1, hi1⟩ := hin a ha
            rcases hapart.1 cb hcbm b1 hb1 with h | h
            · subst h
              exact Or.inl (hcur a ha (by rw [hcb]; exact hi1))
            · exact (inside_apart c cb b1 _ a h hic hi1).symm
          refine ⟨?_, ?_, ?_⟩
          · intro a ha
            rcases List.mem_cons.mp ha with h | h
            · exact ⟨cb, hcbm, by rw [h]; exact hic⟩
            · exact hin a h
          · intro a ha hi
            show a + c.slotSize ≤ y.st.pool.currentSlot_ + c.slotSize
            rcases List.mem_cons.mp ha with h | h
            · omega
            · have := hcur a h hi
              omega
          · intro a ha a1 ha1 hne
            rcases List.mem_cons.mp ha with h | h <;> rcases List.mem_cons.mp ha1 with h1 | h1
            · exact absurd (h.trans h1.symm) hne
            · rw [h]; exact (hold a1 h1).symm
            · rw [h1]; exact hold a h
            · exact hap a h a1 h1 hne
    · rw [step_allocate_pop c src y hf]
      exact ⟨hin, hcur, hap⟩

/-- A caller's store inside a live slot hits neither a carved slot that is not
live nor a block header. -/
theorem write_safe (c : Config) (src : Nat → Option Nat) (hc : c.WF) (hsrc : SourceOK c src)
    (y : Sys) (q v : Nat) (hg : GeomInv c src y) (ht : TightInv c y) (hf : FreeInv y)
    (hop : OpOK c y (Op.write q v)) :
    (∀ a ∈ y.carved, a ∉ y.live → a ≠ q) ∧ q ∉ y.st.blocks := by
  have hP : 0 < c.ptrSize := hc.1
  have hS : 0 < c.slotSize := Nat.lt_of_lt_of_le hc.1 hc.2.1
  obtain ⟨p, hpl, hpq, hqp⟩ := hop
  obtain ⟨F, -, -, -, -, hcv⟩ := hf
  obtain ⟨hin, -, hap⟩ := ht
  have hpc : p ∈ y.carved := (hcv p).mpr (Or.inl hpl)
  constructor
  · intro a ha hal heq
    have hne : a ≠ p := fun h => hal (by rw [h]; exact hpl)
    have := hap a ha p hpc hne
    omega
  · intro hqb
    obtain ⟨b1, hb1, hi1⟩ := hin p hpc
    have hapart := blocks_apart c src hsrc y.st.newCalls y.st.blocks hg.1
    unfold Inside at hi1
    rcases hapart.1 b1 hb1 q hqb with h | h
    · omega
    · omega

theorem all_invariants_run (c : Config) (src : Nat → Option Nat) (hc : c.WF)
    (hsrc : SourceOK c src) (hfit : FirstSlotFits c src) (h0 : Heap)
    (ops : List Op) (hwf : WellFormed c src ops (Sys.init h0)) :
    GeomInv c src (run c src ops (Sys.init h0)) ∧ TightInv c (run c src ops (Sys.init h0)) ∧
    FreeInv (run c src ops (Sys.init h0)) ∧ HeaderInv (run c src ops (Sys.init h0)) :=
  run_invariant c src (fun y => GeomInv c src y ∧ TightInv c y ∧ FreeInv y ∧ HeaderInv y)
    (fun _ => True)
    (fun y op hy hop _ =>
      have hB : c.slotSize ≤ c.BlockSize := Nat.le_trans (Nat.le_add_left _ _) hfit.1
      have hg := geomInv_step c src hc hB hsrc y op hy.1
      ⟨hg, tightInv_step c src hc hsrc hfit y op hy.1 hy.2.1,
        freeInv_step c src y op hg hy.2.2.1 hop
          (fun q v h => (write_safe c src hc hsrc y q v hy.1 hy.2.1 hy.2.2.1
            (by rw [← h]; exact hop)).1),
        headerInv_step c src hc hfit.1 hsrc y op hy.1 hy.2.2.1 hy.2.2.2 hop
          (fun q v h => (write_safe c src hc hsrc y q v hy.1 hy.2.1 hy.2.2.1
            (by rw [← h]; exact hop)).2)⟩)
    ops (Sys.init h0)
    ⟨geomInv_init c src h0, tightInv_init c h0, freeInv_init h0, headerInv_init h0⟩ hwf
    (fun _ _ => trivial)

/-- The first slot fits when `BlockSize` is at least twice the slot size and the
slot size, the block bases and `2 ^ w` are all multiples of the pointer size. -/
theorem firstSlotFits_of_aligned (c : Config) (src : Nat → Option Nat) (hc : c.WF)
    (hB : 2 * c.slotSize ≤ c.BlockSize) (hPS : c.ptrSize ∣ c.slotSize)
    (hPw : c.ptrSize ∣ 2 ^ c.w) (hbase : ∀ i b, src i = some b → c.ptrSize ∣ b) :
    FirstSlotFits c src := by
  have hS : 0 < c.slotSize := Nat.lt_of_lt_of_le hc.1 hc.2.1
  refine ⟨by have := hc.2.1; omega, ?_⟩
  intro i b hb
  have h1 : c.ptrSize ∣ b + c.ptrSize + padPointer c (b + c.ptrSize) c.slotSize :=
    padPointer_dvd c (b + c.ptrSize) c.slotSize c.ptrSize hPS hPw
  have h2 : c.ptrSize ∣ padPointer c (b + c.ptrSize) c.slotSize :=
    (Nat.dvd_add_right (Nat.dvd_add (hbase i b hb) (dvd_refl _))).mp h1
  have h3 := padPointer_lt c (b + c.ptrSize) c.slotSize hS
  -- a multiple of the pointer size below the slot size is at most their difference
  obtain ⟨k, hk⟩ := h2
  obtain ⟨m, hm⟩ := hPS
  have hkm : k < m := by
    by_contra hge
    have : c.ptrSize * m ≤ c.ptrSize * k := Nat.mul_le_mul_left _ (Nat.le_of_not_lt hge)
    omega
  have : c.ptrSize * (k + 1) ≤ c.ptrSize * m := Nat.mul_le_mul_left _ hkm
  rw [Nat.mul_succ] at this
  omega

theorem firstSlotFits_ofList (c : Config) (l : List Nat)
    (h1 : c.ptrSize + c.slotSize ≤ c.BlockSize)
    (h2 : ∀ b ∈ l,
      c.ptrSize + padPointer c (b + c.ptrSize) c.slotSize + c.slotSize ≤ c.BlockSize) :
    FirstSlotFits c (srcOfList l) := by
  refine ⟨h1, ?_⟩
  intro i b hb
  simp only [srcOfList] at hb
  obtain ⟨hi, hib⟩ := List.getElem?_eq_some.mp hb
  exact h2 b (by rw [← hib]; exact List.getElem_mem _)

theorem aligned_ofList (a : Nat) (l : List Nat) (h : ∀ b ∈ l, a ∣ b) :
    ∀ i b, srcOfList l i = some b → a ∣ b := by
  intro i b hb
  simp only [srcOfList] at hb
  obtain ⟨hi, hib⟩ := List.getElem?_eq_some.mp hb
  exact h b (by rw [← hib]; exact List.getElem_mem _)

/-- The shape of the block list and of the cursor is kept by every sequence of
operations, well-formed or not. -/
theorem geom_run (c : Config) (src : Nat → Option Nat) (hc : c.WF)
    (hB : c.slotSize ≤ c.BlockSize) (hsrc : SourceOK c src) :
    ∀ (ops : List Op) (y : Sys), GeomInv c src y → GeomInv c src (run c src ops y) := by
  intro ops
  induction ops with
  | nil => intro y hy; exact hy
  | cons op ops ih => intro y hy; exact ih _ (geomInv_step c src hc hB hsrc y op hy)

theorem calls_invariants_run (c : Config) (src : Nat → Option Nat) (hc : c.WF)
    (hB : c.ptrSize + c.slotSize ≤ c.BlockSize) (hsrc : SourceOK c src) (h0 : Heap)
    (ops : List Op) (hwf : WellFormed c src ops (Sys.init h0)) (hcalls : CallsOnly ops) :
    GeomInv c src (run c src ops (Sys.init h0)) ∧ FreeInv (run c src ops (Sys.init h0)) ∧
    HeaderInv (run c src ops (Sys.init h0)) :=
  run_invariant c src (fun y => GeomInv c src y ∧ FreeInv y ∧ HeaderInv y)
    (fun op => op.isCall = true)
    (fun y op hy hop hq =>
      have hg := geomInv_step c src hc (Nat.le_trans (Nat.le_add_left _ _) hB) hsrc y op hy.1
      ⟨hg,
        freeInv_step c src y op hg hy.2.1 hop
          (fun q v h => by rw [h] at hq; simp [Op.isCall] at hq),
        headerInv_step c src hc hB hsrc y op hy.1 hy.2.1 hy.2.2 hop
          (fun q v h => by rw [h] at hq; simp [Op.isCall] at hq)⟩)
    ops (Sys.init h0) ⟨geomInv_init c src h0, freeInv_init h0, headerInv_init h0⟩ hwf hcalls

/-- With `BlockSize = 24` and 16-byte slots the first slot of the block at 16
is `[32, 48)` and reaches past the end of the block into the header of the
block at 40; a store by the caller inside that slot overwrites the header, and
the destructor then releases the block at 40 only. -/
theorem first_slot_outside_breaks_teardown :
    cfgTight.WF ∧ SourceOK cfgTight (srcOfList [16, 40]) ∧
    cfgTight.ptrSize + cfgTight.slotSize ≤ cfgTight.BlockSize ∧
    WellFormed cfgTight (srcOfList [16, 40]) [Op.allocate, Op.allocate, Op.write 40 0]
      (Sys.init heapZero) ∧
    (run cfgTight (srcOfList [16, 40]) [Op.allocate, Op.allocate, Op.write 40 0]
      (Sys.init heapZero)).live = [48, 32] ∧
    (run cfgTight (srcOfList [16, 40]) [Op.allocate, Op.allocate, Op.write 40 0]
      (Sys.init heapZero)).st.blocks = [40, 16] ∧
    dtor 3 (run cfgTight (srcOfList [16, 40]) [Op.allocate, Op.allocate, Op.write 40 0]
      (Sys.init heapZero)).st = some [40] :=
  ⟨by decide, sourceOK_ofList cfgTight [16, 40] (by decide) (by decide), by decide, by decide,
    by decide, by decide, by decide⟩

theorem carvedAligned_init (a : Nat) (h0 : Heap) : CarvedAligned a (Sys.init h0) :=
  ⟨dvd_zero a, fun _ hp => by simp [Sys.init] at hp⟩

theorem carvedAligned_step (c : Config) (src : Nat → Option Nat) (a : Nat)
    (haS : a ∣ c.slotSize) (ham : a ∣ 2 ^ c.w) (y : Sys) (op : Op)
    (hy : CarvedAligned a y) : CarvedAligned a (step c src op y) := by
  obtain ⟨hcur, hcv⟩ := hy
  cases op with
  | write q v => exact ⟨hcur, hcv⟩
  | deallocate p =>
    by_cases hp : p = 0
    · subst hp; rw [step_deallocate_null]; exact ⟨hcur, hcv⟩
    · rw [step_deallocate_nonnull c src y p hp]; exact ⟨hcur, hcv⟩
  | allocate =>
    by_cases hf : y.st.pool.freeSlots_ = 0
    · by_cases hfull : y.st.pool.lastSlot_ ≤ y.st.pool.currentSlot_
      · cases hnew : src y.st.newCalls with
        | none => rw [step_allocate_fail c src y hf hfull hnew]; exact ⟨hcur, hcv⟩
        | some b =>
          rw [step_allocate_block c src y b hf hfull hnew]
          have hr := padPointer_dvd c (b + c.ptrSize) c.slotSize a haS ham
          refine ⟨Nat.dvd_add hr haS, ?_⟩
          intro q hq
          rcases List.mem_cons.mp hq with h | h
          · rw [h]; exact hr
          · exact hcv q h
      · rw [step_allocate_carve c src y hf (Nat.lt_of_not_le hfull)]
        refine ⟨Nat.dvd_add hcur haS, ?_⟩
        intro q hq
        rcases List.mem_cons.mp hq with h | h
        · rw [h]; exact hcur
        · exact hcv q h
    · rw [step_allocate_pop c src y hf]; exact ⟨hcur, hcv⟩

theorem carvedAligned_run (c : Config) (src : Nat → Option Nat) (a : Nat)
    (haS : a ∣ c.slotSize) (ham : a ∣ 2 ^ c.w) :
    ∀ (ops : List Op) (y : Sys), CarvedAligned a y → CarvedAligned a (run c src ops y) := by
  intro ops
  induction ops with
  | nil => intro y hy; exact hy
  | cons op ops ih => intro y hy; exact ih _ (carvedAligned_step c src a haS ham y op hy)

/-- From the alignment of the carved addresses and the shape of the free list:
the live addresses and the free-list head are multiples of `a`. -/
theorem alignInv_of_carved (a : Nat) (y : Sys) (hca : CarvedAligned a y) (hf : FreeInv y) :
    (∀ p ∈ y.live, a ∣ p) ∧ (y.st.pool.freeSlots_ ≠ 0 → a ∣ y.st.pool.freeSlots_) := by
  obtain ⟨F, hch, -, -, -, hcv⟩ := hf
  refine ⟨fun p hp => hca.2 p ((hcv p).mpr (Or.inl hp)), ?_⟩
  intro hne
  obtain ⟨xs, hF, -⟩ := chain_nonzero _ _ F hne hch
  exact hca.2 _ ((hcv _).mpr (Or.inr (by rw [hF]; exact List.mem_cons_self _ _)))

/-- From the closure invariant: the live addresses and the free-list head are
multiples of `a`. -/
theorem alignInv_head (a : Nat) (y : Sys) (hy : AlignInv a y) :
    (∀ p ∈ y.live, a ∣ p) ∧ (y.st.pool.freeSlots_ ≠ 0 → a ∣ y.st.pool.freeSlots_) := by
  obtain ⟨-, hlive, W, hfree, hW⟩ := hy
  refine ⟨hlive, fun hne => ?_⟩
  rcases hfree with h | h
  · exact absurd h hne
  · exact (hW _ h).1

/-! ## The claims -/

/-- C1: on a default-constructed pool that keeps the invariant
`BlockSize >= 2 * slot size`, after every well-formed sequence of `allocate`
and `deallocate` calls (`deallocate` given null or a live address, blocks from
the memory source pairwise disjoint) the live addresses are pairwise distinct
and the next `allocate` returns an address that is not live; the same holds for
sequences in which callers also store inside their live slots, when the first
slot of every block lies inside the block. -/
theorem C1_live_addresses_distinct (c : Config) (src : Nat → Option Nat) (h0 : Heap)
    (ops : List Op) (hc : c.WF) (hsrc : SourceOK c src)
    (hB2 : 2 * c.slotSize ≤ c.BlockSize)
    (hwf : WellFormed c src ops (Sys.init h0))
    (hcase : CallsOnly ops ∨ FirstSlotFits c src) :
    (run c src ops (Sys.init h0)).live.Nodup ∧
    ∀ (n hint p : Nat) (s1 : State),
      allocate c src n hint (run c src ops (Sys.init h0)).st = (.ok p, s1) →
      p ∉ (run c src ops (Sys.init h0)).live := by
  have hB : c.slotSize ≤ c.BlockSize := by omega
  have hinv : GeomInv c src (run c src ops (Sys.init h0)) ∧
      FreeInv (run c src ops (Sys.init h0)) := by
    rcases hcase with h | h
    · exact geom_free_run c src hc hB hsrc h0 ops hwf h
    · have := all_invariants_run c src hc hsrc h h0 ops hwf
      exact ⟨this.1, this.2.2.1⟩
  obtain ⟨hg, hf⟩ := hinv
  refine ⟨?_, ?_⟩
  · obtain ⟨F, -, -, hl, -, -⟩ := hf
    exact hl
  · intro n hint p s1 hres
    have hg1 := geomInv_step c src hc hB hsrc _ Op.allocate hg
    obtain ⟨F, -, -, hl, -, -⟩ := freeInv_step c src _ Op.allocate hg1 hf trivial
      (fun q v h => by cases h)
    rw [(step_allocate_ok c src _ n hint p s1 hres).1] at hl
    exact (List.nodup_cons.mp hl).1

theorem C1_live_addresses_distinct_witness :
    cfg24.WF ∧ SourceOK cfg24 (srcOfList [4096, 8192]) ∧
    2 * cfg24.slotSize ≤ cfg24.BlockSize ∧
    WellFormed cfg24 (srcOfList [4096, 8192])
      [Op.allocate, Op.allocate, Op.deallocate 4120, Op.allocate] (Sys.init heapZero) ∧
    (CallsOnly [Op.allocate, Op.allocate, Op.deallocate 4120, Op.allocate] ∨
      FirstSlotFits cfg24 (srcOfList [4096, 8192])) ∧
    ((run cfg24 (srcOfList [4096, 8192])
        [Op.allocate, Op.allocate, Op.deallocate 4120, Op.allocate]
        (Sys.init heapZero)).live.Nodup ∧
     ∀ (n hint p : Nat) (s1 : State),
      allocate cfg24 (srcOfList [4096, 8192]) n hint
        (run cfg24 (srcOfList [4096, 8192])
          [Op.allocate, Op.allocate, Op.deallocate 4120, Op.allocate]
          (Sys.init heapZero)).st = (.ok p, s1) →
      p ∉ (run cfg24 (srcOfList [4096, 8192])
          [Op.allocate, Op.allocate, Op.deallocate 4120, Op.allocate]
          (Sys.init heapZero)).live) :=
  have hsrc : SourceOK cfg24 (srcOfList [4096, 8192]) :=
    sourceOK_ofList cfg24 [4096, 8192] (by decide) (by decide)
  have hwf : WellFormed cfg24 (srcOfList [4096, 8192])
      [Op.allocate, Op.allocate, Op.deallocate 4120, Op.allocate] (Sys.init heapZero) := by
    decide
  have hcase : CallsOnly [Op.allocate, Op.allocate, Op.deallocate 4120, Op.allocate] ∨
      FirstSlotFits cfg24 (srcOfList [4096, 8192]) :=
    Or.inl (by decide)
  ⟨by decide, hsrc, by decide, hwf, hcase,
    C1_live_addresses_distinct cfg24 (srcOfList [4096, 8192]) heapZero _ (by decide) hsrc
      (by decide) hwf hcase⟩

/-- Outside the invariant `BlockSize >= 2 * slot size`, which the code does not
enforce (the assertion at `MemoryPool.h` 85-87 is commented out): with
`BlockSize = 4` and 8-byte slots, two disjoint blocks at 8 and 12 make two
successive `allocate` calls return the address 16 both times, so 16 is live
twice. -/
theorem undersized_block_same_address_live_twice :
    cfgTiny.WF ∧ SourceOK cfgTiny (srcOfList [8, 12]) ∧
    WellFormed cfgTiny (srcOfList [8, 12]) [Op.allocate, Op.allocate] (Sys.init heapZero) ∧
    (run cfgTiny (srcOfList [8, 12]) [Op.allocate, Op.allocate] (Sys.init heapZero)).live
      = [16, 16] ∧
    (run cfgTiny (srcOfList [8, 12]) [Op.allocate, Op.allocate] (Sys.init heapZero)).st.blocks
      = [12, 8] ∧
    ¬ (run cfgTiny (srcOfList [8, 12]) [Op.allocate, Op.allocate]
      (Sys.init heapZero)).live.Nodup :=
  ⟨by decide, sourceOK_ofList cfgTiny [8, 12] (by decide) (by decide), by decide, by decide,
    by decide, by decide⟩

/-- C2: for every state and every two distinct non-null addresses `a`, `b`,
after `deallocate(a)` and `deallocate(b)` the next `allocate()` returns `b`, the
one after it returns `a`, and after the four calls `freeSlots_`, `currentSlot_`,
`lastSlot_` and `currentBlock_` are what they were; the memory source is not
called. -/
theorem C2_free_list_lifo (c : Config) (src : Nat → Option Nat) (s : State) (a b : Nat)
    (ha : a ≠ 0) (hb : b ≠ 0) (hab : a ≠ b) :
    let r1 := allocate c src 1 0 (deallocate b 1 (deallocate a 1 s))
    let r2 := allocate c src 1 0 r1.2
    r1.1 = .ok b ∧ r2.1 = .ok a ∧ r2.2.pool = s.pool ∧
    r2.2.newCalls = s.newCalls ∧ r2.2.blocks = s.blocks := by
  intro r1 r2
  have h1 : r1 = (.ok b,
      { pool := { s.pool with freeSlots_ := a },
        heap := Function.update (Function.update s.heap a s.pool.freeSlots_) b a,
        newCalls := s.newCalls, blocks := s.blocks }) := by
    show allocate c src 1 0 (deallocate b 1 (deallocate a 1 s)) = _
    rw [deallocate_nonnull a 1 s ha, deallocate_nonnull b 1 _ hb, allocate_pop _ _ _ _ _ hb]
    simp
  have h2 : r2 = (.ok a,
      { pool := s.pool,
        heap := Function.update (Function.update s.heap a s.pool.freeSlots_) b a,
        newCalls := s.newCalls, blocks := s.blocks }) := by
    show allocate c src 1 0 r1.2 = _
    rw [h1, allocate_pop _ _ _ _ _ (by simpa using ha)]
    simp [Function.update_apply, hab]
  rw [h1, h2]
  simp

theorem C2_free_list_lifo_witness :
    (4144 : Nat) ≠ 0 ∧ (4168 : Nat) ≠ 0 ∧ (4144 : Nat) ≠ 4168 ∧
    (let r1 := allocate cfg24 srcOne 1 0 (deallocate 4168 1 (deallocate 4144 1 stateBusy))
     let r2 := allocate cfg24 srcOne 1 0 r1.2
     r1.1 = .ok 4168 ∧ r2.1 = .ok 4144 ∧ r2.2.pool = stateBusy.pool ∧
     r2.2.newCalls = stateBusy.newCalls ∧ r2.2.blocks = stateBusy.blocks) :=
  ⟨by decide, by decide, by decide,
    C2_free_list_lifo cfg24 srcOne stateBusy 4144 4168 (by decide) (by decide) (by decide)⟩


/-- C3: after every well-formed sequence of `allocate` and `deallocate` calls on
a default-constructed pool, every live address is a multiple of `a` and the
address returned by the next `allocate` is a multiple of `a`, for every power
of two `a` that divides the slot size (whatever the slot size is), with
`padPointer` computed in `w`-bit arithmetic.  The same holds for sequences in
which callers also store inside their live slots, when the blocks are pairwise
disjoint and the first slot of every block lies inside the block. -/
theorem C3_returned_addresses_aligned (c : Config) (src : Nat → Option Nat) (h0 : Heap)
    (ops : List Op) (a k : Nat) (hc : c.WF) (hak : a = 2 ^ k) (haS : a ∣ c.slotSize)
    (hwf : WellFormed c src ops (Sys.init h0))
    (hcase : CallsOnly ops ∨ (SourceOK c src ∧ FirstSlotFits c src)) :
    (∀ p ∈ (run c src ops (Sys.init h0)).live, a ∣ p) ∧
    ∀ (n hint p : Nat) (s1 : State),
      allocate c src n hint (run c src ops (Sys.init h0)).st = (.ok p, s1) → a ∣ p := by
  have ham : a ∣ 2 ^ c.w :=
    pow_two_dvd_word c.w c.slotSize a k hak haS (Nat.lt_of_lt_of_le hc.1 hc.2.1) hc.2.2.1
  have hca : CarvedAligned a (run c src ops (Sys.init h0)) :=
    carvedAligned_run c src a haS ham ops _ (carvedAligned_init a h0)
  have hinv : (∀ p ∈ (run c src ops (Sys.init h0)).live, a ∣ p) ∧
      ((run c src ops (Sys.init h0)).st.pool.freeSlots_ ≠ 0 →
        a ∣ (run c src ops (Sys.init h0)).st.pool.freeSlots_) := by
    rcases hcase with h | h
    · exact alignInv_head a _
        (run_invariant c src (AlignInv a) (fun op => op.isCall = true)
          (fun y op hy hop hq => alignInv_step c src a haS ham y op hy hop hq)
          ops (Sys.init h0) (alignInv_init a h0) hwf h)
    · exact alignInv_of_carved a _ hca (all_invariants_run c src hc h.1 h.2 h0 ops hwf).2.2.1
  refine ⟨hinv.1, ?_⟩
  intro n hint p s1 hres
  obtain ⟨-, hfree⟩ := hinv
  obtain ⟨hcur, -⟩ := hca
  generalize run c src ops (Sys.init h0) = y at *
  by_cases hf : y.st.pool.freeSlots_ = 0
  · by_cases hfull : y.st.pool.lastSlot_ ≤ y.st.pool.currentSlot_
    · cases hnew : src y.st.newCalls with
      | none => rw [allocate_fail c src n hint y.st hf hfull hnew] at hres; simp at hres
      | some b =>
        rw [allocate_block c src n hint y.st b hf hfull hnew] at hres
        simp only [Prod.mk.injEq, Except.ok.injEq] at hres
        rw [← hres.1]
        exact padPointer_dvd c (b + c.ptrSize) c.slotSize a haS ham
    · rw [allocate_carve c src n hint y.st hf (Nat.lt_of_not_le hfull)] at hres
      simp only [Prod.mk.injEq, Except.ok.injEq] at hres
      rw [← hres.1]; exact hcur
  · rw [allocate_pop c src n hint y.st hf] at hres
    simp only [Prod.mk.injEq, Except.ok.injEq] at hres
    rw [← hres.1]
    exact hfree hf

theorem C3_returned_addresses_aligned_witness :
    cfg24.WF ∧ 8 = 2 ^ 3 ∧ 8 ∣ cfg24.slotSize ∧
    WellFormed cfg24 srcOne [Op.allocate, Op.allocate, Op.deallocate 4120, Op.allocate]
      (Sys.init heapZero) ∧
    (CallsOnly [Op.allocate, Op.allocate, Op.deallocate 4120, Op.allocate] ∨
      (SourceOK cfg24 srcOne ∧ FirstSlotFits cfg24 srcOne)) ∧
    ((∀ p ∈ (run cfg24 srcOne [Op.allocate, Op.allocate, Op.deallocate 4120, Op.allocate]
        (Sys.init heapZero)).live, 8 ∣ p) ∧
     ∀ (n hint p : Nat) (s1 : State),
      allocate cfg24 srcOne n hint
        (run cfg24 srcOne [Op.allocate, Op.allocate, Op.deallocate 4120, Op.allocate]
          (Sys.init heapZero)).st = (.ok p, s1) → 8 ∣ p) :=
  have hcalls : CallsOnly [Op.allocate, Op.allocate, Op.deallocate 4120, Op.allocate] := by
    decide
  have hwf : WellFormed cfg24 srcOne [Op.allocate, Op.allocate, Op.deallocate 4120, Op.allocate]
      (Sys.init heapZero) := by
    decide
  ⟨by decide, by decide, by decide, hwf, Or.inl hcalls,
    C3_returned_addresses_aligned cfg24 srcOne heapZero _ 8 3 (by decide) (by decide) (by decide)
      hwf (Or.inl hcalls)⟩

/-- C4: with `BlockSize = 64`, slot size 8, pointer size 8 and two disjoint
blocks whose bases `b1`, `b2` are multiples of 8, every block yields 7 slots;
ten `allocate` calls on a default-constructed pool return `b1 + 8`, ...,
`b1 + 56`, `b2 + 8`, `b2 + 16`, `b2 + 24` and call `operator new` exactly twice;
releasing the ten addresses in reverse order of allocation and allocating ten
more times calls `operator new` no further time and returns the same ten
addresses. -/
theorem C4_scenario_two_blocks (src : Nat → Option Nat) (h0 : Heap) (b1 b2 : Nat)
    (h1 : 8 ∣ b1) (h2 : 8 ∣ b2) (hd : b1 + 64 ≤ b2 ∨ b2 + 64 ≤ b1)
    (hs0 : src 0 = some b1) (hs1 : src 1 = some b2) :
    let addrs := [b1 + 8, b1 + 16, b1 + 24, b1 + 32, b1 + 40, b1 + 48, b1 + 56,
                  b2 + 8, b2 + 16, b2 + 24]
    let y10 := run cfgScenario src (List.replicate 10 Op.allocate) (Sys.init h0)
    let y20 := run cfgScenario src (addrs.reverse.map Op.deallocate) y10
    let y30 := run cfgScenario src (List.replicate 10 Op.allocate) y20
    slotsPerBlock cfgScenario b1 = 7 ∧ slotsPerBlock cfgScenario b2 = 7 ∧
    y10.live = addrs.reverse ∧ y10.carved = addrs.reverse ∧
    y10.st.newCalls = 2 ∧ y10.st.blocks = [b2, b1] ∧
    y20.live = [] ∧ y20.st.newCalls = 2 ∧ y20.st.blocks = [b2, b1] ∧
    y30.live = addrs.reverse ∧ y30.carved = addrs.reverse ∧
    y30.st.newCalls = 2 ∧ y30.st.blocks = [b2, b1] := by
  intro addrs y10 y20 y30
  have hslots : ∀ b, 8 ∣ b → slotsPerBlock cfgScenario b = 7 := by
    intro b hb
    have hp : padPointer cfgScenario (b + cfgScenario.ptrSize) cfgScenario.slotSize = 0 :=
      padPointer_scenario b hb
    rw [slotsPerBlock_eq cfgScenario b (by decide), hp]
    simp only [carveRoom, cfgScenario]
    rw [if_pos (show b + 8 + 0 + 8 < b + 64 - 8 + 1 by omega)]
    have : b + 64 - 8 + 1 - (b + 8 + 0 + 8) + 8 - 1 = 48 := by omega
    rw [this]
  have hrev : addrs.reverse = [b2 + 24, b2 + 16, b2 + 8, b1 + 56, b1 + 48, b1 + 40, b1 + 32,
      b1 + 24, b1 + 16, b1 + 8] := rfl
  obtain ⟨Y, hY, hlive, hcarved, hnc, hbl, hfree⟩ : ∃ Y : Sys,
      run cfgScenario src (List.replicate 10 Op.allocate) (Sys.init h0) = Y ∧
      Y.live = [b2 + 24, b2 + 16, b2 + 8, b1 + 56, b1 + 48, b1 + 40, b1 + 32, b1 + 24,
        b1 + 16, b1 + 8] ∧
      Y.carved = [b2 + 24, b2 + 16, b2 + 8, b1 + 56, b1 + 48, b1 + 40, b1 + 32, b1 + 24,
        b1 + 16, b1 + 8] ∧
      Y.st.newCalls = 2 ∧ Y.st.blocks = [b2, b1] ∧ Y.st.pool.freeSlots_ = 0 :=
    ⟨_, scenario_ten_allocs src h0 b1 b2 h1 h2 hs0 hs1, rfl, rfl, rfl, rfl, rfl⟩
  have hy10 : y10 = Y := hY
  have hy20 : y20 = run cfgScenario src (addrs.reverse.map Op.deallocate) y10 := rfl
  have hy30 : y30 = run cfgScenario src (List.replicate 10 Op.allocate) y20 := rfl
  clear_value y30 y20 y10
  rw [hrev] at hy20 ⊢
  clear_value addrs
  rw [hy30, hy20, hy10]
  clear hy30 hy20 hy10 y30 y20 y10 hY
  have hnz : ∀ p ∈ Y.live, p ≠ 0 := by
    intro p hp
    rw [hlive] at hp
    simp only [List.mem_cons, List.mem_singleton, List.not_mem_nil, or_false] at hp
    omega
  have hnd : Y.live.Nodup := by
    rw [hlive]
    simp only [List.nodup_cons, List.mem_cons, List.mem_singleton, List.not_mem_nil,
      List.nodup_nil, or_false, not_or, and_true, not_false_eq_true]
    omega
  have hlen : Y.live.length = 10 := by rw [hlive]; rfl
  obtain ⟨r1, r2, r3, r4, r5, r6, r7, -⟩ := run_release_reallocate cfgScenario src Y hfree hnz hnd
  rw [hlen] at r4 r5 r6 r7
  rw [hlive] at r1 r2 r3 r4 r5 r6 r7
  rw [hcarved] at r5
  rw [hnc] at r2 r6
  rw [hbl] at r3 r7
  exact ⟨hslots b1 h1, hslots b2 h2, hlive, hcarved, hnc, hbl, r1, r2, r3, r4, r5, r6, r7⟩

theorem C4_scenario_two_blocks_witness :
    8 ∣ 4096 ∧ 8 ∣ 8192 ∧ (4096 + 64 ≤ 8192 ∨ 8192 + 64 ≤ 4096) ∧
    srcOfList [4096, 8192] 0 = some 4096 ∧ srcOfList [4096, 8192] 1 = some 8192 ∧
    (let addrs := [4096 + 8, 4096 + 16, 4096 + 24, 4096 + 32, 4096 + 40, 4096 + 48, 4096 + 56,
                  8192 + 8, 8192 + 16, 8192 + 24]
     let y10 := run cfgScenario (srcOfList [4096, 8192]) (List.replicate 10 Op.allocate)
       (Sys.init heapZero)
     let y20 := run cfgScenario (srcOfList [4096, 8192]) (addrs.reverse.map Op.deallocate) y10
     let y30 := run cfgScenario (srcOfList [4096, 8192]) (List.replicate 10 Op.allocate) y20
     slotsPerBlock cfgScenario 4096 = 7 ∧ slotsPerBlock cfgScenario 8192 = 7 ∧
     y10.live = addrs.reverse ∧ y10.carved = addrs.reverse ∧
     y10.st.newCalls = 2 ∧ y10.st.blocks = [8192, 4096] ∧
     y20.live = [] ∧ y20.st.newCalls = 2 ∧ y20.st.blocks = [8192, 4096] ∧
     y30.live = addrs.reverse ∧ y30.carved = addrs.reverse ∧
     y30.st.newCalls = 2 ∧ y30.st.blocks = [8192, 4096]) :=
  ⟨by decide, by decide, by decide, rfl, rfl,
    C4_scenario_two_blocks (srcOfList [4096, 8192]) heapZero 4096 8192 (by decide) (by decide)
      (by decide) rfl rfl⟩

/-- C5: after every sequence of operations (well-formed or not) on a
default-constructed pool in which every acquired block yields the same number
`s ≥ 1` of slots, the number of blocks acquired is `ceil(c / s)`, written
`(c + s - 1) / s`, where `c` is the number of slots produced by bump carving; an
allocation served from the free list adds nothing to `c` and acquires no block;
and when `BlockSize` is at least the slot size and the blocks are pairwise
disjoint, the carved slots are pairwise distinct addresses. -/
theorem C5_block_count_is_ceiling (c : Config) (src : Nat → Option Nat) (h0 : Heap)
    (ops : List Op) (s : Nat) (hc : c.WF) (hs : 1 ≤ s)
    (hyield : ∀ b ∈ (run c src ops (Sys.init h0)).st.blocks, slotsPerBlock c b = s) :
    (run c src ops (Sys.init h0)).st.blocks.length
      = ((run c src ops (Sys.init h0)).carved.length + s - 1) / s ∧
    (∀ y : Sys, y.st.pool.freeSlots_ ≠ 0 →
      (step c src Op.allocate y).carved = y.carved ∧
      (step c src Op.allocate y).st.blocks = y.st.blocks ∧
      (step c src Op.allocate y).st.newCalls = y.st.newCalls) ∧
    (c.slotSize ≤ c.BlockSize → SourceOK c src →
      (run c src ops (Sys.init h0)).carved.Nodup) := by
  have hS : 0 < c.slotSize := Nat.lt_of_lt_of_le hc.1 hc.2.1
  refine ⟨?_, ?_, ?_⟩
  · exact countInv_ceil c s _ hs
      (countInv_run c src s hS ops (Sys.init h0) (Or.inl ⟨rfl, rfl, rfl, rfl⟩) hyield)
  · intro y hy
    rw [step_allocate_pop c src y hy]
    exact ⟨rfl, rfl, rfl⟩
  · intro hB hsrc
    exact (geom_run c src hc hB hsrc ops _ (geomInv_init c src h0)).2.2.2.2.2.2

theorem C5_block_count_is_ceiling_witness :
    cfgScenario.WF ∧ 1 ≤ 7 ∧
    (∀ b ∈ (run cfgScenario (srcOfList [4096, 8192])
        (List.replicate 8 Op.allocate ++ [Op.deallocate 4104, Op.allocate])
        (Sys.init heapZero)).st.blocks, slotsPerBlock cfgScenario b = 7) ∧
    ((run cfgScenario (srcOfList [4096, 8192])
        (List.replicate 8 Op.allocate ++ [Op.deallocate 4104, Op.allocate])
        (Sys.init heapZero)).st.blocks.length
      = ((run cfgScenario (srcOfList [4096, 8192])
          (List.replicate 8 Op.allocate ++ [Op.deallocate 4104, Op.allocate])
          (Sys.init heapZero)).carved.length + 7 - 1) / 7 ∧
     (∀ y : Sys, y.st.pool.freeSlots_ ≠ 0 →
      (step cfgScenario (srcOfList [4096, 8192]) Op.allocate y).carved = y.carved ∧
      (step cfgScenario (srcOfList [4096, 8192]) Op.allocate y).st.blocks = y.st.blocks ∧
      (step cfgScenario (srcOfList [4096, 8192]) Op.allocate y).st.newCalls = y.st.newCalls) ∧
     (cfgScenario.slotSize ≤ cfgScenario.BlockSize →
      SourceOK cfgScenario (srcOfList [4096, 8192]) →
      (run cfgScenario (srcOfList [4096, 8192])
        (List.replicate 8 Op.allocate ++ [Op.deallocate 4104, Op.allocate])
        (Sys.init heapZero)).carved.Nodup)) :=
  have hyield : ∀ b ∈ (run cfgScenario (srcOfList [4096, 8192])
      (List.replicate 8 Op.allocate ++ [Op.deallocate 4104, Op.allocate])
      (Sys.init heapZero)).st.blocks, slotsPerBlock cfgScenario b = 7 := by
    decide
  ⟨by decide, by decide, hyield,
    C5_block_count_is_ceiling cfgScenario (srcOfList [4096, 8192]) heapZero _ 7 (by decide)
      (by decide) hyield⟩

/-- C6: on a pool that keeps the invariant `BlockSize >= 2 * slot size`, in
every state reached from a default-constructed pool by a well-formed sequence
of `allocate` and `deallocate` calls, with blocks from the memory source
pairwise disjoint and any number of allocations outstanding, the destructor
loop ends, for every fuel above the number of blocks, and passes to
`operator delete` exactly the blocks handed out by `operator new`, each of them
once; the same holds for sequences in which callers also store inside their
live slots, when the first slot of every block lies inside the block (as it
does for pointer-aligned slot sizes and block bases). -/
theorem C6_teardown_releases_each_block_once (c : Config) (src : Nat → Option Nat)
    (h0 : Heap) (ops : List Op) (hc : c.WF) (hsrc : SourceOK c src)
    (hB2 : 2 * c.slotSize ≤ c.BlockSize)
    (hwf : WellFormed c src ops (Sys.init h0))
    (hcase : CallsOnly ops ∨ FirstSlotFits c src) :
    (∀ fuel, (run c src ops (Sys.init h0)).st.blocks.length < fuel →
      dtor fuel (run c src ops (Sys.init h0)).st
        = some (run c src ops (Sys.init h0)).st.blocks) ∧
    (run c src ops (Sys.init h0)).st.blocks.Nodup := by
  have hinv : HeaderInv (run c src ops (Sys.init h0)) := by
    rcases hcase with h | h
    · exact (calls_invariants_run c src hc (by have := hc.2.1; omega) hsrc h0 ops hwf h).2.2
    · exact (all_invariants_run c src hc hsrc h h0 ops hwf).2.2.2
  obtain ⟨hch, hnd, -⟩ := hinv
  exact ⟨fun fuel hfuel => dtorLoop_chain _ _ _ fuel hch hfuel, hnd⟩

theorem C6_teardown_releases_each_block_once_witness :
    cfg24.WF ∧ SourceOK cfg24 (srcOfList [4096, 8192]) ∧
    2 * cfg24.slotSize ≤ cfg24.BlockSize ∧
    WellFormed cfg24 (srcOfList [4096, 8192])
      [Op.allocate, Op.allocate, Op.write 4128 0, Op.deallocate 4144, Op.allocate]
      (Sys.init heapZero) ∧
    (CallsOnly [Op.allocate, Op.allocate, Op.write 4128 0, Op.deallocate 4144, Op.allocate] ∨
      FirstSlotFits cfg24 (srcOfList [4096, 8192])) ∧
    ((∀ fuel, (run cfg24 (srcOfList [4096, 8192])
        [Op.allocate, Op.allocate, Op.write 4128 0, Op.deallocate 4144, Op.allocate]
        (Sys.init heapZero)).st.blocks.length < fuel →
      dtor fuel (run cfg24 (srcOfList [4096, 8192])
        [Op.allocate, Op.allocate, Op.write 4128 0, Op.deallocate 4144, Op.allocate]
        (Sys.init heapZero)).st
        = some (run cfg24 (srcOfList [4096, 8192])
        [Op.allocate, Op.allocate, Op.write 4128 0, Op.deallocate 4144, Op.allocate]
        (Sys.init heapZero)).st.blocks) ∧
     (run cfg24 (srcOfList [4096, 8192])
        [Op.allocate, Op.allocate, Op.write 4128 0, Op.deallocate 4144, Op.allocate]
        (Sys.init heapZero)).st.blocks.Nodup) :=
  have hsrc : SourceOK cfg24 (srcOfList [4096, 8192]) :=
    sourceOK_ofList cfg24 [4096, 8192] (by decide) (by decide)
  have hfit : FirstSlotFits cfg24 (srcOfList [4096, 8192]) :=
    firstSlotFits_ofList cfg24 [4096, 8192] (by decide) (by decide)
  have hwf : WellFormed cfg24 (srcOfList [4096, 8192])
      [Op.allocate, Op.allocate, Op.write 4128 0, Op.deallocate 4144, Op.allocate]
      (Sys.init heapZero) := by
    decide
  ⟨by decide, hsrc, by decide, hwf, Or.inr hfit,
    C6_teardown_releases_each_block_once cfg24 (srcOfList [4096, 8192]) heapZero _ (by decide)
      hsrc (by decide) hwf (Or.inr hfit)⟩

/-- Outside the invariant `BlockSize >= 2 * slot size`: with `BlockSize = 8` and
8-byte slots the first slot of the block at 8 is the address 16, which is the
base of the next block; once the caller passes 16 to `deallocate`, the header
of the block at 16 holds null and the destructor stops after that block, never
releasing the block at 8. -/
theorem undersized_block_never_released :
    cfgOneSlot.WF ∧ SourceOK cfgOneSlot (srcOfList [8, 16]) ∧
    WellFormed cfgOneSlot (srcOfList [8, 16]) [Op.allocate, Op.allocate, Op.deallocate 16]
      (Sys.init heapZero) ∧
    (run cfgOneSlot (srcOfList [8, 16]) [Op.allocate, Op.allocate, Op.deallocate 16]
      (Sys.init heapZero)).st.blocks = [16, 8] ∧
    dtor 3 (run cfgOneSlot (srcOfList [8, 16]) [Op.allocate, Op.allocate, Op.deallocate 16]
      (Sys.init heapZero)).st = some [16] ∧
    CallsOnly [Op.allocate, Op.allocate, Op.deallocate 16] :=
  ⟨by decide, sourceOK_ofList cfgOneSlot [8, 16] (by decide) (by decide), by decide, by decide,
    by decide, by decide⟩

/-- C7, the code at a failing input: the copy constructor and the converting
constructor leave all four members of the new object as they found them (here
the values 4096, 4120, 8169, 4104 left in its storage), whereas the default
constructor sets them to null; an `allocate` on the copy then hands out the
stale address 4104 although the pool has acquired no block. -/
theorem C7_copy_leaves_members_unassigned :
    ctor_copy ⟨4096, 4120, 8169, 4104⟩ (ctor ⟨0, 0, 0, 0⟩) ⟨0, 0, 0, 0⟩
      = ⟨4096, 4120, 8169, 4104⟩ ∧
    ctor_rebind ⟨4096, 4120, 8169, 4104⟩ (ctor ⟨0, 0, 0, 0⟩) ⟨0, 0, 0, 0⟩
      = ⟨4096, 4120, 8169, 4104⟩ ∧
    ctor ⟨4096, 4120, 8169, 4104⟩ = ⟨0, 0, 0, 0⟩ ∧
    (allocate cfg24 srcOne 1 0
      { pool := ctor_copy ⟨4096, 4120, 8169, 4104⟩ (ctor ⟨0, 0, 0, 0⟩) ⟨0, 0, 0, 0⟩,
        heap := heapZero, newCalls := 0, blocks := [] }).1 = .ok 4104 ∧
    (allocate cfg24 srcOne 1 0
      { pool := ctor_copy ⟨4096, 4120, 8169, 4104⟩ (ctor ⟨0, 0, 0, 0⟩) ⟨0, 0, 0, 0⟩,
        heap := heapZero, newCalls := 0, blocks := [] }).2.blocks = [] :=
  ⟨by decide, by decide, by decide, rfl, rfl⟩


/-- C8: `deallocate(0, n)` changes nothing, for every state and every count `n`:
the members, the heap and the record of the memory source stay as they are, so
the next `allocate` gives the result it would have given without the call. -/
theorem C8_deallocate_null_noop (c : Config) (src : Nat → Option Nat) (n m : Nat) (hint : Nat)
    (s : State) :
    deallocate 0 n s = s ∧
    allocate c src m hint (deallocate 0 n s) = allocate c src m hint s := by
  have h : deallocate 0 n s = s := by simp [deallocate]
  exact ⟨h, by rw [h]⟩


/-- C9: in every state with an empty free list and `currentSlot_ >= lastSlot_`,
when `operator new` fails, `allocate()` and `newElement(v)` end with `bad_alloc`
after exactly one call of `operator new`, and leave the members, the heap and
the block list as they were; and `allocate` ends with a failure in no other
situation. -/
theorem C9_allocation_failure_atomic (c : Config) (src : Nat → Option Nat) (n : Nat)
    (hint : Nat) (val : List Nat) (s : State)
    (hfree : s.pool.freeSlots_ = 0) (hfull : s.pool.lastSlot_ ≤ s.pool.currentSlot_)
    (hnew : src s.newCalls = none) :
    allocate c src n hint s = (.error .bad_alloc, { s with newCalls := s.newCalls + 1 }) ∧
    newElement c src val s = (.error .bad_alloc, { s with newCalls := s.newCalls + 1 }) ∧
    (∀ (t : State) (e : Failure) (t1 : State), allocate c src n hint t = (.error e, t1) →
      t.pool.freeSlots_ = 0 ∧ t.pool.lastSlot_ ≤ t.pool.currentSlot_ ∧
      src t.newCalls = none) := by
  have h := allocate_fail c src n hint s hfree hfull hnew
  refine ⟨h, ?_, ?_⟩
  · simp [newElement, allocate_fail c src 1 0 s hfree hfull hnew]
  · intro t e t1 ht
    by_cases h1 : t.pool.freeSlots_ = 0
    · by_cases h2 : t.pool.lastSlot_ ≤ t.pool.currentSlot_
      · cases h3 : src t.newCalls with
        | none => exact ⟨h1, h2, rfl⟩
        | some b => rw [allocate_block c src n hint t b h1 h2 h3] at ht; simp at ht
      · rw [allocate_carve c src n hint t h1 (Nat.lt_of_not_le h2)] at ht; simp at ht
    · rw [allocate_pop c src n hint t h1] at ht; simp at ht

theorem C9_allocation_failure_atomic_witness :
    (Sys.init heapZero).st.pool.freeSlots_ = 0 ∧
    (Sys.init heapZero).st.pool.lastSlot_ ≤ (Sys.init heapZero).st.pool.currentSlot_ ∧
    srcOfList [] (Sys.init heapZero).st.newCalls = none ∧
    (allocate cfg24 (srcOfList []) 1 0 (Sys.init heapZero).st =
      (.error .bad_alloc,
        { (Sys.init heapZero).st with newCalls := (Sys.init heapZero).st.newCalls + 1 }) ∧
     newElement cfg24 (srcOfList []) [7] (Sys.init heapZero).st =
      (.error .bad_alloc,
        { (Sys.init heapZero).st with newCalls := (Sys.init heapZero).st.newCalls + 1 }) ∧
     (∀ (t : State) (e : Failure) (t1 : State),
      allocate cfg24 (srcOfList []) 1 0 t = (.error e, t1) →
      t.pool.freeSlots_ = 0 ∧ t.pool.lastSlot_ ≤ t.pool.currentSlot_ ∧
      srcOfList [] t.newCalls = none)) :=
  ⟨rfl, Nat.le_refl _, rfl,
    C9_allocation_failure_atomic cfg24 (srcOfList []) 1 0 [7] (Sys.init heapZero).st rfl
      (Nat.le_refl _) rfl⟩

/-- What the code does on the first call: a default-constructed pool has all
four members null and has acquired no block; the first `allocate()` on it
calls `operator new` once,
acquires the block `b` it answers, stores null in the header of `b`, and
returns `b + ptrSize + padPointer(b + ptrSize, slotSize)`, an address in
`[b + ptrSize, b + ptrSize + slotSize)`; when the slot size divides `2 ^ w` this
is the first multiple of the slot size at or after `b + ptrSize`. -/
theorem lazy_first_block (c : Config) (src : Nat → Option Nat) (n hint : Nat)
    (self : MemoryPool) (h0 : Heap) (b : Nat) (hc : c.WF) (hsrc : src 0 = some b) :
    let s0 : State := { pool := ctor self, heap := h0, newCalls := 0, blocks := [] }
    let r := allocate c src n hint s0
    let first := b + c.ptrSize + padPointer c (b + c.ptrSize) c.slotSize
    ctor self = ⟨0, 0, 0, 0⟩ ∧
    r.1 = .ok first ∧ r.2.blocks = [b] ∧ r.2.newCalls = 1 ∧ r.2.heap b = 0 ∧
    r.2.pool.currentBlock_ = b ∧
    b + c.ptrSize ≤ first ∧ first < b + c.ptrSize + c.slotSize ∧
    (c.slotSize ∣ 2 ^ c.w →
      c.slotSize ∣ first ∧ ∀ x, b + c.ptrSize ≤ x → c.slotSize ∣ x → first ≤ x) := by
  intro s0 r first
  have hS : 0 < c.slotSize := Nat.lt_of_lt_of_le hc.1 hc.2.1
  have hr : r = _ := allocate_block c src n hint s0 b rfl (Nat.le_refl _) hsrc
  have hpad := padPointer_lt c (b + c.ptrSize) c.slotSize hS
  refine ⟨rfl, by rw [hr], by rw [hr], by rw [hr], ?_, by rw [hr], ?_, ?_, ?_⟩
  · rw [hr]; simp [s0, ctor]
  · show b + c.ptrSize ≤ b + c.ptrSize + _
    omega
  · show b + c.ptrSize + _ < _
    omega
  · intro hdvd
    exact ⟨padPointer_dvd c _ _ _ (dvd_refl _) hdvd,
      fun x hx hxd => padPointer_least c _ _ hS hdvd x hx hxd⟩

theorem lazy_first_block_example :
    cfgScenario.WF ∧ srcOne 0 = some 4096 ∧
    (let s0 : State := { pool := ctor ⟨7, 7, 7, 7⟩, heap := heapZero, newCalls := 0, blocks := [] }
     let r := allocate cfgScenario srcOne 1 0 s0
     let first := 4096 + cfgScenario.ptrSize + padPointer cfgScenario (4096 + cfgScenario.ptrSize) cfgScenario.slotSize
     ctor ⟨7, 7, 7, 7⟩ = ⟨0, 0, 0, 0⟩ ∧
     r.1 = .ok first ∧ r.2.blocks = [4096] ∧ r.2.newCalls = 1 ∧ r.2.heap 4096 = 0 ∧
     r.2.pool.currentBlock_ = 4096 ∧
     4096 + cfgScenario.ptrSize ≤ first ∧ first < 4096 + cfgScenario.ptrSize + cfgScenario.slotSize ∧
     (cfgScenario.slotSize ∣ 2 ^ cfgScenario.w →
       cfgScenario.slotSize ∣ first ∧
       ∀ x, 4096 + cfgScenario.ptrSize ≤ x → cfgScenario.slotSize ∣ x → first ≤ x)) :=
  ⟨by decide, rfl,
    lazy_first_block cfgScenario srcOne 1 0 ⟨7, 7, 7, 7⟩ heapZero 4096 (by decide) rfl⟩

/-- C10, the code at a failing input: on a default-constructed pool with 24-byte
slots on a 64-bit platform, the memory source answering with the block at
4096, the first `allocate()` returns 4120, which is not a multiple of the slot
size, although 4104, the address right behind the header, is a multiple of 24
and of 8: the address returned is not the first slot-aligned address at or
after the block base plus the pointer size. -/
theorem C10_first_slot_skips_aligned_address :
    cfg24.WF ∧
    (allocate cfg24 srcOne 1 0
      { pool := ctor ⟨0, 0, 0, 0⟩, heap := heapZero, newCalls := 0, blocks := [] }).1
      = .ok 4120 ∧
    ¬ (24 ∣ 4120) ∧ 4096 + 8 ≤ 4104 ∧ 24 ∣ 4104 ∧ 8 ∣ 4104 ∧ 4104 < 4120 := by
  refine ⟨by decide, ?_, by decide, by decide, by decide, by decide, by decide⟩
  rfl

/-! ## Further facts about padding and block acquisition -/

theorem padPointer_eq (c : Config) (p align : Nat) (h : 0 < align) (hm : align ∣ 2 ^ c.w) :
    padPointer c p align = (align - p % align) % align := by
  have h1 : align ∣ p + padPointer c p align := padPointer_dvd c p align align (dvd_refl _) hm
  have h2 : padPointer c p align < align := padPointer_lt c p align h
  have h3 : (align - p % align) % align < align := Nat.mod_lt _ h
  have hlt : p % align < align := Nat.mod_lt _ h
  have h4 : p + (align - p % align) % align ≡ 0 [MOD align] :=
    calc p + (align - p % align) % align
        ≡ p % align + (align - p % align) [MOD align] :=
          Nat.ModEq.add (Nat.mod_modEq p align).symm (Nat.mod_modEq _ _)
      _ = align := by omega
      _ ≡ 0 [MOD align] := (Nat.modEq_zero_iff_dvd).mpr (dvd_refl _)
  have h5 : p + padPointer c p align ≡ p + (align - p % align) % align [MOD align] :=
    ((Nat.modEq_zero_iff_dvd).mpr h1).trans h4.symm
  have h6 : padPointer c p align ≡ (align - p % align) % align [MOD align] :=
    Nat.ModEq.add_left_cancel' p h5
  exact Nat.ModEq.eq_of_lt_of_lt h6 h2 h3


theorem allocateBlock_ok (c : Config) (src : Nat → Option Nat) (s : State) (b : Nat)
    (hb : src s.newCalls = some b) :
    allocateBlock c src s =
      (.ok (),
        { pool := ⟨b, b + c.ptrSize + padPointer c (b + c.ptrSize) c.slotSize,
                   b + c.BlockSize - c.slotSize + 1, s.pool.freeSlots_⟩,
          heap := Function.update s.heap b s.pool.currentBlock_,
          newCalls := s.newCalls + 1,
          blocks := b :: s.blocks }) := by
  simp [allocateBlock, operator_new, hb]

/-- A multiple of `k` below a multiple `m` of `k` is at most `m - k`. -/
theorem multiple_below (k x m : Nat) (hx : k ∣ x) (hm : k ∣ m) (hlt : x < m) : x + k ≤ m := by
  obtain ⟨i, hi⟩ := hx
  obtain ⟨j, hj⟩ := hm
  have hij : i < j := by
    by_contra hge
    have : k * j ≤ k * i := Nat.mul_le_mul_left _ (Nat.le_of_not_lt hge)
    omega
  have : k * (i + 1) ≤ k * j := Nat.mul_le_mul_left _ hij
  rw [Nat.mul_succ] at this
  omega


/-! ## Capacity -/

theorem first_block_capacity (c : Config) (b pad : Nat) (hS : 0 < c.slotSize)
    (hPS : c.ptrSize ≤ c.slotSize) (hB : 2 * c.slotSize ≤ c.BlockSize) :
    1 + carveRoom c (b + c.ptrSize + pad + c.slotSize) (b + c.BlockSize - c.slotSize + 1)
      ≤ (c.BlockSize - c.ptrSize) / c.slotSize := by
  unfold carveRoom
  split
  · rename_i hlt
    have e : b + c.BlockSize - c.slotSize + 1 - (b + c.ptrSize + pad + c.slotSize)
        + c.slotSize - 1 = c.BlockSize - c.ptrSize - pad - c.slotSize := by omega
    rw [e, Nat.add_comm, ← Nat.add_div_right _ hS]
    apply Nat.div_le_div_right
    omega
  · rw [Nat.add_zero]
    exact (Nat.le_div_iff_mul_le hS).mpr (by omega)

theorem slotsPerBlock_le (c : Config) (b : Nat) (hc : c.WF)
    (hB : 2 * c.slotSize ≤ c.BlockSize) :
    slotsPerBlock c b ≤ (c.BlockSize - c.ptrSize) / c.slotSize := by
  have hS : 0 < c.slotSize := Nat.lt_of_lt_of_le hc.1 hc.2.1
  rw [slotsPerBlock_eq c b hS]
  exact first_block_capacity c b _ hS hc.2.1 hB

theorem capInv_step (c : Config) (src : Nat → Option Nat) (hc : c.WF)
    (hB : 2 * c.slotSize ≤ c.BlockSize) (y : Sys) (op : Op)
    (hy : CapInv c ((c.BlockSize - c.ptrSize) / c.slotSize) y) :
    CapInv c ((c.BlockSize - c.ptrSize) / c.slotSize) (step c src op y) := by
  have hS : 0 < c.slotSize := Nat.lt_of_lt_of_le hc.1 hc.2.1
  cases op with
  | write q v => exact hy
  | deallocate p =>
    by_cases hp : p = 0
    · subst hp; rw [step_deallocate_null]; exact hy
    · rw [step_deallocate_nonnull c src y p hp]; exact hy
  | allocate =>
    by_cases hf : y.st.pool.freeSlots_ = 0
    · by_cases hfull : y.st.pool.lastSlot_ ≤ y.st.pool.currentSlot_
      · cases hnew : src y.st.newCalls with
        | none => rw [step_allocate_fail c src y hf hfull hnew]; exact hy
        | some b =>
          rw [step_allocate_block c src y b hf hfull hnew]
          have hcap := first_block_capacity c b (padPointer c (b + c.ptrSize) c.slotSize) hS
            hc.2.1 hB
          right
          refine ⟨1, Nat.le_refl _, hcap, ?_, by simp⟩
          rcases hy with ⟨h1, h2, -, -⟩ | ⟨k, hk1, hk2, hk3, hk4⟩
          · simp [h1, h2]
          · simp only [List.length_cons, Nat.add_sub_cancel]
            obtain ⟨m, hm⟩ : ∃ m, y.st.blocks.length = m + 1 :=
              ⟨y.st.blocks.length - 1, by
                have := List.length_pos.mpr hk4
                omega⟩
            rw [hm, Nat.add_sub_cancel] at hk3
            rw [hm, Nat.succ_mul]
            omega
      · have hlt : y.st.pool.currentSlot_ < y.st.pool.lastSlot_ := Nat.lt_of_not_le hfull
        rw [step_allocate_carve c src y hf hlt]
        rcases hy with ⟨-, -, h3, h4⟩ | ⟨k, hk1, hk2, hk3, hk4⟩
        · omega
        · right
          rw [carveRoom_step c _ _ hS hlt] at hk2
          refine ⟨k + 1, by omega, by simp only; omega, ?_, hk4⟩
          simp only [List.length_cons]
          omega
    · rw [step_allocate_pop c src y hf]; exact hy

theorem capInv_run (c : Config) (src : Nat → Option Nat) (hc : c.WF)
    (hB : 2 * c.slotSize ≤ c.BlockSize) :
    ∀ (ops : List Op) (y : Sys), CapInv c ((c.BlockSize - c.ptrSize) / c.slotSize) y →
      CapInv c ((c.BlockSize - c.ptrSize) / c.slotSize) (run c src ops y) := by
  intro ops
  induction ops with
  | nil => intro y hy; exact hy
  | cons op ops ih => intro y hy; exact ih _ (capInv_step c src hc hB y op hy)

theorem capInv_total (c : Config) (q : Nat) (y : Sys) (hy : CapInv c q y) :
    y.carved.length ≤ y.st.blocks.length * q := by
  rcases hy with ⟨h1, h2, -, -⟩ | ⟨k, hk1, hk2, hk3, hk4⟩
  · simp [h1, h2]
  · obtain ⟨m, hm⟩ : ∃ m, y.st.blocks.length = m + 1 :=
      ⟨y.st.blocks.length - 1, by
        have := List.length_pos.mpr hk4
        omega⟩
    rw [hm, Nat.add_sub_cancel] at hk3
    rw [hm, Nat.succ_mul]
    omega

theorem max_size_eq (c : Config) (hc : c.WF) (hB : 2 * c.slotSize ≤ c.BlockSize) :
    subW c.w c.BlockSize c.ptrSize = c.BlockSize - c.ptrSize ∧
    (c.BlockSize - c.ptrSize) / c.slotSize * ((2 ^ c.w - 1) / c.BlockSize) < 2 ^ c.w ∧
    max_size c = (c.BlockSize - c.ptrSize) / c.slotSize * ((2 ^ c.w - 1) / c.BlockSize) := by
  obtain ⟨hP, hPS, hSw, hBw⟩ := hc
  have hpos : 0 < 2 ^ c.w := by positivity
  have hsub : subW c.w c.BlockSize c.ptrSize = c.BlockSize - c.ptrSize := by
    unfold subW
    rw [Nat.mod_eq_of_lt hBw, Nat.mod_eq_of_lt (by omega : c.ptrSize < 2 ^ c.w)]
    have e : c.BlockSize + (2 ^ c.w - c.ptrSize) = (c.BlockSize - c.ptrSize) + 2 ^ c.w := by omega
    rw [e, Nat.add_mod_right, Nat.mod_eq_of_lt (by omega)]
  have hq : (c.BlockSize - c.ptrSize) / c.slotSize ≤ c.BlockSize :=
    Nat.le_trans (Nat.div_le_self _ _) (Nat.sub_le _ _)
  have hprod : (c.BlockSize - c.ptrSize) / c.slotSize * ((2 ^ c.w - 1) / c.BlockSize)
      ≤ 2 ^ c.w - 1 :=
    Nat.le_trans (Nat.mul_le_mul_right _ hq) (Nat.mul_div_le _ _)
  refine ⟨hsub, by omega, ?_⟩
  unfold max_size
  simp only
  rw [hsub, Nat.mod_eq_of_lt (by omega)]

/-! ## Well-formed pool states -/

theorem poolWF_init (c : Config) (src : Nat → Option Nat) (h0 : Heap) :
    PoolWF c src (Sys.init h0) :=
  ⟨geomInv_init c src h0, tightInv_init c h0, freeInv_init h0⟩

theorem poolWF_step (c : Config) (src : Nat → Option Nat) (hc : c.WF)
    (hsrc : SourceOK c src) (hfit : FirstSlotFits c src) (y : Sys) (op : Op)
    (hy : PoolWF c src y) (hop : OpOK c y op) : PoolWF c src (step c src op y) :=
  have hB : c.slotSize ≤ c.BlockSize := Nat.le_trans (Nat.le_add_left _ _) hfit.1
  have hg := geomInv_step c src hc hB hsrc y op hy.1
  ⟨hg, tightInv_step c src hc hsrc hfit y op hy.1 hy.2.1,
    freeInv_step c src y op hg hy.2.2 hop
      (fun q v h => (write_safe c src hc hsrc y q v hy.1 hy.2.1 hy.2.2
        (by rw [← h]; exact hop)).1)⟩

theorem poolWF_run (c : Config) (src : Nat → Option Nat) (hc : c.WF)
    (hsrc : SourceOK c src) (hfit : FirstSlotFits c src) (ops : List Op) (y : Sys)
    (hy : PoolWF c src y) (hwf : WellFormed c src ops y) : PoolWF c src (run c src ops y) := by
  induction ops generalizing y with
  | nil => exact hy
  | cons op ops ih =>
    exact ih (step c src op y) (poolWF_step c src hc hsrc hfit y op hy hwf.1) hwf.2

theorem chain_congr (heap heap1 : Heap) :
    ∀ (L : List Nat) (p : Nat), Chain heap p L → (∀ a ∈ L, heap1 a = heap a) →
      Chain heap1 p L := by
  intro L
  induction L with
  | nil => intro p h _; exact h
  | cons x xs ih =>
    intro p h hq
    obtain ⟨h1, h2, h3⟩ := h
    refine ⟨h1, h2, ?_⟩
    rw [hq x (List.mem_cons_self _ _)]
    exact ih _ h3 (fun a ha => hq a (List.mem_cons_of_mem _ ha))

/-- A well-formed pool stays well-formed under any change of the heap that
leaves the link words of the free slots alone. -/
theorem poolWF_heap_congr (c : Config) (src : Nat → Option Nat) (y : Sys) (heap1 : Heap)
    (hy : PoolWF c src y) (h : ∀ a ∈ y.carved, a ∉ y.live → heap1 a = y.st.heap a) :
    PoolWF c src { y with st := { y.st with heap := heap1 } } := by
  obtain ⟨hg, ht, F, hch, hFnd, hlnd, hFl, hcv⟩ := hy
  refine ⟨hg, ht, F, ?_, hFnd, hlnd, hFl, hcv⟩
  exact chain_congr y.st.heap heap1 F _ hch
    (fun a ha => h a ((hcv a).mpr (Or.inr ha)) (hFl a ha))

/-- A live slot lies inside a block. -/
theorem live_inside (c : Config) (src : Nat → Option Nat) (y : Sys) (hy : PoolWF c src y) :
    ∀ q ∈ y.live, ∃ b ∈ y.st.blocks, Inside c b q := by
  obtain ⟨-, ⟨hin, -, -⟩, ⟨F, -, -, -, -, hcv⟩⟩ := hy
  intro q hq
  exact hin q ((hcv q).mpr (Or.inl hq))

/-- Two different live slots do not overlap. -/
theorem live_apart (c : Config) (src : Nat → Option Nat) (y : Sys) (hy : PoolWF c src y) :
    ∀ q ∈ y.live, ∀ q1 ∈ y.live, q ≠ q1 →
      q + c.slotSize ≤ q1 ∨ q1 + c.slotSize ≤ q := by
  obtain ⟨-, ⟨-, -, hap⟩, ⟨F, -, -, -, -, hcv⟩⟩ := hy
  intro q hq q1 hq1 hne
  exact hap q ((hcv q).mpr (Or.inl hq)) q1 ((hcv q1).mpr (Or.inl hq1)) hne

/-- The only word `allocate` can change is the header of a block it has just
acquired. -/
theorem allocate_heap_frame (c : Config) (src : Nat → Option Nat) (n hint : Nat) (s : State)
    (x : Nat) (hx : (allocate c src n hint s).2.heap x ≠ s.heap x) :
    ∃ b, src s.newCalls = some b ∧ x = b ∧
      (allocate c src n hint s).2.blocks = b :: s.blocks := by
  by_cases hfr : s.pool.freeSlots_ = 0
  · by_cases hfull : s.pool.lastSlot_ ≤ s.pool.currentSlot_
    · cases hnew : src s.newCalls with
      | none =>
        rw [allocate_fail c src n hint s hfr hfull hnew] at hx
        exact absurd rfl hx
      | some b =>
        rw [allocate_block c src n hint s b hfr hfull hnew] at hx ⊢
        refine ⟨b, rfl, ?_, rfl⟩
        by_contra hne
        exact hx (Function.update_noteq hne _ _)
    · rw [allocate_carve c src n hint s hfr (Nat.lt_of_not_le hfull)] at hx
      exact absurd rfl hx
  · rw [allocate_pop c src n hint s hfr] at hx
    exact absurd rfl hx

/-- The only word `deallocate(p)` can change is the one at `p`. -/
theorem deallocate_heap_frame (p m : Nat) (s : State) (x : Nat)
    (hx : (deallocate p m s).heap x ≠ s.heap x) : x = p := by
  by_cases hp : p = 0
  · subst hp
    simp [deallocate] at hx
  · rw [deallocate_nonnull p m s hp] at hx
    by_contra hne
    exact hx (Function.update_noteq hne _ _)

/-- `allocate` leaves every word inside a live slot as it was. -/
theorem allocate_keeps_live (c : Config) (src : Nat → Option Nat) (hc : c.WF)
    (hsrc : SourceOK c src) (y : Sys) (hy : PoolWF c src y) (n hint : Nat) :
    ∀ q ∈ y.live, ∀ x, q ≤ x → x < q + c.slotSize →
      (allocate c src n hint y.st).2.heap x = y.st.heap x := by
  have hP : 0 < c.ptrSize := hc.1
  intro q hq x hqx hxq
  by_contra hne
  obtain ⟨b, hb, hxb, -⟩ := allocate_heap_frame c src n hint y.st x hne
  obtain ⟨b1, hb1, hi1⟩ := live_inside c src y hy q hq
  have hd := (blocks_apart c src hsrc _ _ hy.1.1).2 b hb b1 hb1
  unfold Inside at hi1
  omega

/-- In a well-formed pool `allocate` succeeds when the memory source can answer
the next call. -/
theorem allocate_succeeds (c : Config) (src : Nat → Option Nat) (n hint : Nat) (s : State)
    (hav : (src s.newCalls).isSome) :
    ∃ p s1, allocate c src n hint s = (.ok p, s1) ∧ s.newCalls ≤ s1.newCalls ∧
      s1.newCalls ≤ s.newCalls + 1 := by
  by_cases hfr : s.pool.freeSlots_ = 0
  · by_cases hfull : s.pool.lastSlot_ ≤ s.pool.currentSlot_
    · cases hnew : src s.newCalls with
      | none => rw [hnew] at hav; exact absurd hav (by simp)
      | some b =>
        exact ⟨_, _, allocate_block c src n hint s b hfr hfull hnew, Nat.le_succ _,
          Nat.le_refl _⟩
    · exact ⟨_, _, allocate_carve c src n hint s hfr (Nat.lt_of_not_le hfull), Nat.le_refl _,
        Nat.le_succ _⟩
  · exact ⟨_, _, allocate_pop c src n hint s hfr, Nat.le_refl _, Nat.le_succ _⟩

/-! ## The stack over the pool -/

theorem stackRep_congr (off : Nat) (heap heap1 : Heap) (ns : List Nat) :
    ∀ (head : Nat) (vs : List Nat),
      (∀ n ∈ ns, heap1 n = heap n ∧ heap1 (n + off) = heap (n + off)) →
      StackRep off heap head ns vs → StackRep off heap1 head ns vs := by
  induction ns with
  | nil =>
    intro head vs _ h
    cases vs with
    | nil => exact h
    | cons v vs => exact h
  | cons n ns ih =>
    intro head vs hfr h
    cases vs with
    | nil => exact h
    | cons v vs =>
      obtain ⟨h1, h2, h3, h4⟩ := h
      have hn := hfr n (List.mem_cons_self _ _)
      refine ⟨h1, h2, by rw [hn.1]; exact h3, ?_⟩
      rw [hn.2]
      exact ih _ _ (fun m hm => hfr m (List.mem_cons_of_mem _ hm)) h4

theorem stackInv_nil (c : Config) (src : Nat → Option Nat) (off : Nat) (k : StackAlloc)
    (ns : List Nat) (h : StackInv c src off k ns []) : ns = [] ∧ k.head_ = 0 := by
  obtain ⟨y, -, -, -, hrep⟩ := h
  cases ns with
  | nil => exact ⟨rfl, hrep⟩
  | cons n ns => exact absurd hrep (by simp [StackRep])

theorem stackInv_cons (c : Config) (src : Nat → Option Nat) (off : Nat) (k : StackAlloc)
    (ns : List Nat) (v : Nat) (vs : List Nat) (h : StackInv c src off k ns (v :: vs)) :
    k.head_ ≠ 0 ∧ k.allocator_.heap k.head_ = v ∧ ∃ ns1, ns = k.head_ :: ns1 := by
  obtain ⟨y, -, -, -, hrep⟩ := h
  cases ns with
  | nil => exact absurd hrep (by simp [StackRep])
  | cons n ns =>
    obtain ⟨h1, h2, h3, -⟩ := hrep
    subst h1
    exact ⟨h2, h3, ns, rfl⟩

theorem stackInv_ctor (c : Config) (src : Nat → Option Nat) (off : Nat) (h0 : Heap) :
    StackInv c src off (StackAlloc.ctor h0) [] [] :=
  ⟨Sys.init h0, rfl, poolWF_init c src h0, rfl, rfl⟩

/-- One `push` on a stack whose allocator can get memory: the call returns,
the new node is live in the pool and on top, and the nodes below keep their
values. -/
theorem push_spec (c : Config) (src : Nat → Option Nat) (off : Nat) (hc : c.WF)
    (hsrc : SourceOK c src) (hfit : FirstSlotFits c src) (ho1 : c.ptrSize ≤ off)
    (ho2 : off + c.ptrSize ≤ c.slotSize) (k : StackAlloc) (ns vs : List Nat) (x : Nat)
    (hinv : StackInv c src off k ns vs) (hav : (src k.allocator_.newCalls).isSome) :
    ∃ k1, StackAlloc.push c src off x k = (.ok (), k1) ∧
      StackInv c src off k1 (k1.head_ :: ns) (x :: vs) ∧
      k.allocator_.newCalls ≤ k1.allocator_.newCalls ∧
      k1.allocator_.newCalls ≤ k.allocator_.newCalls + 1 := by
  have hP : 0 < c.ptrSize := hc.1
  obtain ⟨y, hst, hy, hlive, hrep⟩ := hinv
  obtain ⟨p, s1, hal, hn1, hn2⟩ := allocate_succeeds c src 1 0 k.allocator_ hav
  have hal1 : allocate c src 1 0 y.st = (.ok p, s1) := by rw [hst]; exact hal
  obtain ⟨hl1, hs1⟩ := step_allocate_ok c src y 1 0 p s1 hal1
  have hy1 := poolWF_step c src hc hsrc hfit y Op.allocate hy trivial
  have hkeep := allocate_keeps_live c src hc hsrc y hy 1 0
  rw [hal1] at hkeep
  have hpl : p ∈ (step c src Op.allocate y).live := by rw [hl1]; exact List.mem_cons_self _ _
  have hnd : (p :: y.live).Nodup := by rw [← hl1]; exact hy1.2.2.choose_spec.2.2.1
  have hpn : ∀ n ∈ y.live, n ≠ p := fun n hn h =>
    (List.nodup_cons.mp hnd).1 (h ▸ hn)
  generalize step c src Op.allocate y = y1 at hl1 hs1 hy1 hpl
  have hap : ∀ n ∈ y.live, n + c.slotSize ≤ p ∨ p + c.slotSize ≤ n := fun n hn =>
    live_apart c src _ hy1 n (by rw [hl1]; exact List.mem_cons_of_mem _ hn) p hpl (hpn n hn)
  obtain ⟨b, -, hib⟩ := live_inside c src _ hy1 p hpl
  have hp0 : p ≠ 0 := by unfold Inside at hib; omega
  have hS1 : (List.replicate c.slotSize 0).length = c.slotSize := List.length_replicate _ _
  -- the stores into the new node stay inside its slot
  have hout : ∀ a, a + c.slotSize ≤ p ∨ p + c.slotSize ≤ a →
      Function.update (Function.update
        (construct p (List.replicate c.slotSize 0) s1).heap p x) (p + off) k.head_ a
        = s1.heap a := by
    intro a ha
    have a1 : a ≠ p := by omega
    have a2 : a ≠ p + off := by omega
    rw [Function.update_noteq a2, Function.update_noteq a1]
    exact construct_heap_out p _ s1 a (by rw [hS1]; omega)
  have hy5 := poolWF_heap_congr c src y1
    (Function.update (Function.update
      (construct p (List.replicate c.slotSize 0) s1).heap p x) (p + off) k.head_) hy1
    (fun a hac hal => by
      rw [hs1]
      have hpc : p ∈ y1.carved :=
        (hy1.2.2.choose_spec.2.2.2.2 p).mpr (Or.inl hpl)
      have hne : a ≠ p := fun e => hal (e ▸ hpl)
      have := hy1.2.1.2.2 a hac p hpc hne
      exact hout a (by omega))
  have hpush : StackAlloc.push c src off x k =
      (.ok (),
        { allocator_ :=
            { pool := s1.pool,
              heap := Function.update (Function.update
                (construct p (List.replicate c.slotSize 0) s1).heap p x) (p + off) k.head_,
              newCalls := s1.newCalls,
              blocks := s1.blocks },
          head_ := p }) := by
    simp only [StackAlloc.push, hal]
    rfl
  refine ⟨_, hpush, ⟨_, ?_, hy5, ?_, ?_⟩, hn1, hn2⟩
  · simp only [hs1]
  · show y1.live = p :: ns
    rw [hl1, hlive]
  · have hpo : p ≠ p + off := by omega
    refine ⟨rfl, hp0, ?_, ?_⟩
    · dsimp only
      rw [Function.update_noteq hpo, Function.update_same]
    · have : (Function.update (Function.update
          (construct p (List.replicate c.slotSize 0) s1).heap p x) (p + off) k.head_)
          (p + off) = k.head_ := Function.update_same _ _ _
      simp only [this]
      refine stackRep_congr off k.allocator_.heap _ ns k.head_ vs ?_ hrep
      intro n hn
      rw [← hlive] at hn
      have h1 := hap n hn
      have e1 := hkeep n hn n (Nat.le_refl _) (by omega)
      have e2 := hkeep n hn (n + off) (by omega) (by omega)
      simp only at e1 e2
      rw [hst] at e1 e2
      constructor
      · have a1 : n ≠ p := by omega
        have a2 : n ≠ p + off := by omega
        rw [Function.update_noteq a2, Function.update_noteq a1,
          construct_heap_out p _ s1 n (by rw [hS1]; omega), e1]
      · have a3 : n + off ≠ p := by omega
        have a4 : n + off ≠ p + off := by omega
        rw [Function.update_noteq a4, Function.update_noteq a3,
          construct_heap_out p _ s1 (n + off) (by rw [hS1]; omega), e2]

/-- One `pop` on a non-empty stack: it returns the top value, the node goes
back to the pool, and the nodes below keep their values. -/
theorem pop_spec (c : Config) (src : Nat → Option Nat) (off : Nat) (hc : c.WF)
    (hsrc : SourceOK c src) (hfit : FirstSlotFits c src)
    (ho2 : off + c.ptrSize ≤ c.slotSize) (k : StackAlloc) (n : Nat) (ns : List Nat)
    (v : Nat) (vs : List Nat) (hinv : StackInv c src off k (n :: ns) (v :: vs)) :
    (StackAlloc.pop off k).1 = v ∧ StackInv c src off (StackAlloc.pop off k).2 ns vs ∧
    (StackAlloc.pop off k).2.allocator_.newCalls = k.allocator_.newCalls ∧
    (∀ m ∈ ns, (StackAlloc.pop off k).2.allocator_.heap m = k.allocator_.heap m) := by
  have hP : 0 < c.ptrSize := hc.1
  obtain ⟨y, hst, hy, hlive, hrep⟩ := hinv
  obtain ⟨hh, hn0, hv, hrest⟩ := hrep
  have hnl : n ∈ y.live := by rw [hlive]; exact List.mem_cons_self _ _
  have hy1 := poolWF_step c src hc hsrc hfit y (Op.deallocate n) hy (Or.inr hnl)
  have hnd : (n :: ns).Nodup := by rw [← hlive]; exact hy.2.2.choose_spec.2.2.1
  have hmn : ∀ m ∈ ns, m ≠ n := fun m hm h => (List.nodup_cons.mp hnd).1 (h ▸ hm)
  have hap : ∀ m ∈ ns, m + c.slotSize ≤ n ∨ n + c.slotSize ≤ m := fun m hm =>
    live_apart c src y hy m (by rw [hlive]; exact List.mem_cons_of_mem _ hm) n hnl (hmn m hm)
  have hpop : StackAlloc.pop off k =
      (k.allocator_.heap n,
        { allocator_ :=
            { k.allocator_ with
              heap := Function.update k.allocator_.heap n k.allocator_.pool.freeSlots_,
              pool := { k.allocator_.pool with freeSlots_ := n } },
          head_ := k.allocator_.heap (n + off) }) := by
    simp [StackAlloc.pop, destroy, hh, deallocate_nonnull n 1 k.allocator_ hn0]
  rw [hpop]
  refine ⟨hv, ⟨step c src (Op.deallocate n) y, ?_, hy1, ?_, ?_⟩, rfl, ?_⟩
  · rw [step_deallocate_nonnull c src y n hn0, hst]
  · rw [step_deallocate_nonnull c src y n hn0, hlive]
    simp
  · refine stackRep_congr off k.allocator_.heap _ ns _ vs ?_ hrest
    intro m hm
    have h1 := hap m hm
    have a1 : m ≠ n := hmn m hm
    have a2 : m + off ≠ n := by omega
    simp [Function.update, a1, a2]
  · intro m hm
    simp [Function.update, hmn m hm]

theorem pushAll_spec (c : Config) (src : Nat → Option Nat) (off : Nat) (hc : c.WF)
    (hsrc : SourceOK c src) (hfit : FirstSlotFits c src) (ho1 : c.ptrSize ≤ off)
    (ho2 : off + c.ptrSize ≤ c.slotSize) (xs : List Nat) :
    ∀ (k : StackAlloc) (ns vs : List Nat), StackInv c src off k ns vs →
      (∀ i, k.allocator_.newCalls ≤ i → i < k.allocator_.newCalls + xs.length →
        (src i).isSome) →
      ∃ k1 ns1, StackAlloc.pushAll c src off xs k = (.ok (), k1) ∧
        StackInv c src off k1 ns1 (xs.reverse ++ vs) := by
  induction xs with
  | nil =>
    intro k ns vs hinv _
    exact ⟨k, ns, rfl, by simpa using hinv⟩
  | cons x xs ih =>
    intro k ns vs hinv hav
    obtain ⟨k1, hp, hinv1, hn1, hn2⟩ := push_spec c src off hc hsrc hfit ho1 ho2 k ns vs x hinv
      (hav _ (Nat.le_refl _) (by simp))
    obtain ⟨k2, ns2, hp2, hinv2⟩ := ih k1 _ _ hinv1 (fun i h1 h2 =>
      hav i (Nat.le_trans hn1 h1) (by simp only [List.length_cons]; omega))
    refine ⟨k2, ns2, ?_, by simpa using hinv2⟩
    simp only [StackAlloc.pushAll, hp]
    exact hp2

theorem popAll_spec (c : Config) (src : Nat → Option Nat) (off : Nat) (hc : c.WF)
    (hsrc : SourceOK c src) (hfit : FirstSlotFits c src)
    (ho2 : off + c.ptrSize ≤ c.slotSize) (n : Nat) :
    ∀ (k : StackAlloc) (ns vs : List Nat), StackInv c src off k ns vs → n ≤ vs.length →
      (StackAlloc.popAll off n k).1 = vs.take n ∧
      ∃ ns1, StackInv c src off (StackAlloc.popAll off n k).2 ns1 (vs.drop n) := by
  induction n with
  | zero =>
    intro k ns vs hinv _
    exact ⟨rfl, ns, hinv⟩
  | succ n ih =>
    intro k ns vs hinv hlen
    cases vs with
    | nil => simp at hlen
    | cons v vs =>
      obtain ⟨-, -, ns1, hns⟩ := stackInv_cons c src off k ns v vs hinv
      subst hns
      obtain ⟨h1, h2, -, -⟩ := pop_spec c src off hc hsrc hfit ho2 k _ ns1 v vs hinv
      obtain ⟨h3, ns2, h4⟩ := ih _ ns1 vs h2 (by simpa using hlen)
      refine ⟨?_, ns2, ?_⟩
      · simp only [StackAlloc.popAll, List.take_succ_cons, h1, h3]
      · simpa [StackAlloc.popAll] using h4

/-! ## The claims, continued -/

/-- C11: the count and the hint are ignored.  In every pool state, for every
count `n` and every hint, `allocate(n, hint)` returns the same result and
leaves the same state as `allocate()`, and `deallocate(p, m)` leaves the same
state as `deallocate(p)`.  A call that returns consumes exactly one slot: it
either pops the head of the free list, leaving the cursor and the heap alone,
or leaves the cursor exactly one slot size behind the returned address (which
is the old cursor when no block had to be acquired). -/
theorem C11_count_and_hint_ignored (c : Config) (src : Nat → Option Nat) (n hint m : Nat)
    (p : Nat) (s : State) :
    allocate c src n hint s = allocate c src 1 0 s ∧
    deallocate p m s = deallocate p 1 s ∧
    (∀ (r : Nat) (s1 : State), allocate c src n hint s = (.ok r, s1) →
      (s.pool.freeSlots_ ≠ 0 ∧ r = s.pool.freeSlots_ ∧
        s1.pool.freeSlots_ = s.heap s.pool.freeSlots_ ∧
        s1.pool.currentSlot_ = s.pool.currentSlot_ ∧ s1.heap = s.heap) ∨
      (s.pool.freeSlots_ = 0 ∧ s1.pool.freeSlots_ = 0 ∧
        s1.pool.currentSlot_ = r + c.slotSize ∧
        (s.pool.currentSlot_ < s.pool.lastSlot_ → r = s.pool.currentSlot_))) := by
  refine ⟨rfl, rfl, ?_⟩
  intro r s1 hres
  by_cases hf : s.pool.freeSlots_ = 0
  · right
    by_cases hfull : s.pool.lastSlot_ ≤ s.pool.currentSlot_
    · cases hnew : src s.newCalls with
      | none => rw [allocate_fail c src n hint s hf hfull hnew] at hres; simp at hres
      | some b =>
        rw [allocate_block c src n hint s b hf hfull hnew] at hres
        simp only [Prod.mk.injEq, Except.ok.injEq] at hres
        obtain ⟨h1, h2⟩ := hres
        subst h2
        subst h1
        exact ⟨hf, hf, rfl, fun h => by omega⟩
    · rw [allocate_carve c src n hint s hf (Nat.lt_of_not_le hfull)] at hres
      simp only [Prod.mk.injEq, Except.ok.injEq] at hres
      obtain ⟨h1, h2⟩ := hres
      subst h2
      subst h1
      exact ⟨hf, hf, rfl, fun _ => rfl⟩
  · left
    rw [allocate_pop c src n hint s hf] at hres
    simp only [Prod.mk.injEq, Except.ok.injEq] at hres
    obtain ⟨h1, h2⟩ := hres
    subst h2
    subst h1
    exact ⟨hf, rfl, rfl, rfl, rfl⟩

theorem C11_count_and_hint_ignored_witness :
    (allocate cfg24 srcOne 5 77 stateBusy).1 = .ok 4120 ∧
    allocate cfg24 srcOne 5 77 stateBusy = allocate cfg24 srcOne 1 0 stateBusy ∧
    deallocate 4144 3 stateBusy = deallocate 4144 1 stateBusy ∧
    (allocate cfg24 srcOne 5 77 stateBusy).2.pool.currentSlot_ = stateBusy.pool.currentSlot_ :=
  have h := C11_count_and_hint_ignored cfg24 srcOne 5 77 3 4144 stateBusy
  ⟨rfl, h.1, h.2.1,
    (h.2.2 4120 (allocate cfg24 srcOne 5 77 stateBusy).2 rfl).elim (fun a => a.2.2.2.1)
      (fun b => absurd b.1 (by decide))⟩

/-- C12: the convenience pair is the composition of the raw pair.  In every
pool state `newElement(v)` has the result of `allocate()` and leaves the same
pool members, memory-source record and block list; when it returns `p`, the
range `[p, p + sizeof(T))` holds the object representation of `v`, every word
of the heap outside this range is as `allocate()` left it, and, `p` being
non-null, `allocate()` after `deleteElement(p)` returns `p` again.  For
non-null `p`, `deleteElement(p)` leaves the state of `destroy(p)` followed by
`deallocate(p)`; `deleteElement(null)` changes nothing. -/
theorem C12_convenience_pair (c : Config) (src : Nat → Option Nat) (val : List Nat)
    (s : State) :
    ((newElement c src val s).1 = (allocate c src 1 0 s).1 ∧
     (newElement c src val s).2.pool = (allocate c src 1 0 s).2.pool ∧
     (newElement c src val s).2.newCalls = (allocate c src 1 0 s).2.newCalls ∧
     (newElement c src val s).2.blocks = (allocate c src 1 0 s).2.blocks ∧
     (∀ (p : Nat) (s1 : State), newElement c src val s = (.ok p, s1) →
       (∀ (i : Nat) (hi : i < val.length), s1.heap (p + i) = val[i]) ∧
       (∀ q, q < p ∨ p + val.length ≤ q → s1.heap q = (allocate c src 1 0 s).2.heap q) ∧
       (p ≠ 0 → (allocate c src 1 0 (deleteElement p s1)).1 = .ok p))) ∧
    (∀ (p : Nat) (t : State), p ≠ 0 → deleteElement p t = deallocate p 1 (destroy p t)) ∧
    (∀ t : State, deleteElement 0 t = t) := by
  refine ⟨?_, ?_, ?_⟩
  · rcases h : allocate c src 1 0 s with ⟨res, s1⟩
    cases res with
    | error e =>
      have hn : newElement c src val s = (.error e, s1) := by simp [newElement, h]
      rw [hn]
      exact ⟨rfl, rfl, rfl, rfl, fun p t ht => by simp at ht⟩
    | ok p =>
      have hn : newElement c src val s = (.ok p, construct p val s1) := by
        simp [newElement, h]
      rw [hn]
      refine ⟨rfl, rfl, rfl, rfl, ?_⟩
      intro p1 t ht
      simp only [Prod.mk.injEq, Except.ok.injEq] at ht
      obtain ⟨hp, hs⟩ := ht
      subst hp
      subst hs
      refine ⟨fun i hi => construct_heap_in p val s1 i hi,
        fun q hq => construct_heap_out p val s1 q hq, ?_⟩
      intro hp0
      simp only [deleteElement, destroy, hp0, ne_eq, not_false_eq_true, if_true]
      rw [deallocate_nonnull _ _ _ hp0, allocate_pop _ _ _ _ _ (by simpa using hp0)]
  · intro p t hp
    simp [deleteElement, hp]
  · intro t
    simp [deleteElement]

theorem C12_convenience_pair_witness :
    (newElement cfg24 srcOne (List.replicate 24 42) stateBusy).1 = .ok 4120 ∧
    (newElement cfg24 srcOne (List.replicate 24 42) stateBusy).2.heap 4120 = 42 ∧
    (newElement cfg24 srcOne (List.replicate 24 42) stateBusy).2.heap 4136 = 42 ∧
    (newElement cfg24 srcOne (List.replicate 24 42) stateBusy).2.heap 4144
      = (allocate cfg24 srcOne 1 0 stateBusy).2.heap 4144 ∧
    (allocate cfg24 srcOne 1 0
      (deleteElement 4120 (newElement cfg24 srcOne (List.replicate 24 42) stateBusy).2)).1
      = .ok 4120 :=
  have h := (C12_convenience_pair cfg24 srcOne (List.replicate 24 42) stateBusy).1.2.2.2.2 4120
    (newElement cfg24 srcOne (List.replicate 24 42) stateBusy).2 rfl
  ⟨rfl, h.1 0 (by decide), h.1 16 (by decide), h.2.1 4144 (Or.inr (by decide)),
    h.2.2 (by decide)⟩

/-- C13: with `BlockSize >= 2 * slot size`, `max_size()` equals
`floor((BlockSize - sizeof(pointer)) / slotSize) * floor((2^w - 1) / BlockSize)`,
the subtraction and the product being the same in `w`-bit arithmetic as over
the naturals; no block yields more than
`floor((BlockSize - sizeof(pointer)) / slotSize)` slots; and after every sequence
of operations on a default-constructed pool in which at most
`floor((2^w - 1) / BlockSize)` blocks were acquired, the number of slots carved
so far (counted with or without repetition) is at most `max_size()`. -/
theorem C13_max_size_bounds_carving (c : Config) (src : Nat → Option Nat) (h0 : Heap)
    (ops : List Op) (hc : c.WF) (hB : 2 * c.slotSize ≤ c.BlockSize) :
    max_size c = (c.BlockSize - c.ptrSize) / c.slotSize * ((2 ^ c.w - 1) / c.BlockSize) ∧
    subW c.w c.BlockSize c.ptrSize = c.BlockSize - c.ptrSize ∧
    (c.BlockSize - c.ptrSize) / c.slotSize * ((2 ^ c.w - 1) / c.BlockSize) < 2 ^ c.w ∧
    (∀ b, slotsPerBlock c b ≤ (c.BlockSize - c.ptrSize) / c.slotSize) ∧
    ((run c src ops (Sys.init h0)).st.blocks.length ≤ (2 ^ c.w - 1) / c.BlockSize →
      (run c src ops (Sys.init h0)).carved.length ≤ max_size c ∧
      (run c src ops (Sys.init h0)).carved.dedup.length ≤ max_size c) := by
  obtain ⟨hsub, hlt, hmax⟩ := max_size_eq c hc hB
  refine ⟨hmax, hsub, hlt, fun b => slotsPerBlock_le c b hc hB, ?_⟩
  intro hblocks
  have hcap := capInv_total c _ _
    (capInv_run c src hc hB ops (Sys.init h0) (Or.inl ⟨rfl, rfl, rfl, rfl⟩))
  have hle : (run c src ops (Sys.init h0)).carved.length ≤ max_size c := by
    rw [hmax]
    calc (run c src ops (Sys.init h0)).carved.length
        ≤ (run c src ops (Sys.init h0)).st.blocks.length
            * ((c.BlockSize - c.ptrSize) / c.slotSize) := hcap
      _ ≤ (2 ^ c.w - 1) / c.BlockSize * ((c.BlockSize - c.ptrSize) / c.slotSize) :=
          Nat.mul_le_mul_right _ hblocks
      _ = (c.BlockSize - c.ptrSize) / c.slotSize * ((2 ^ c.w - 1) / c.BlockSize) :=
          Nat.mul_comm _ _
  exact ⟨hle, Nat.le_trans (List.Sublist.length_le (List.dedup_sublist _)) hle⟩

theorem C13_max_size_bounds_carving_witness :
    cfgScenario.WF ∧ 2 * cfgScenario.slotSize ≤ cfgScenario.BlockSize ∧
    (max_size cfgScenario
        = (cfgScenario.BlockSize - cfgScenario.ptrSize) / cfgScenario.slotSize
          * ((2 ^ cfgScenario.w - 1) / cfgScenario.BlockSize) ∧
     subW cfgScenario.w cfgScenario.BlockSize cfgScenario.ptrSize
        = cfgScenario.BlockSize - cfgScenario.ptrSize ∧
     (cfgScenario.BlockSize - cfgScenario.ptrSize) / cfgScenario.slotSize
        * ((2 ^ cfgScenario.w - 1) / cfgScenario.BlockSize) < 2 ^ cfgScenario.w ∧
     (∀ b, slotsPerBlock cfgScenario b
        ≤ (cfgScenario.BlockSize - cfgScenario.ptrSize) / cfgScenario.slotSize) ∧
     ((run cfgScenario (srcOfList [4096, 8192]) (List.replicate 9 Op.allocate)
          (Sys.init heapZero)).st.blocks.length
        ≤ (2 ^ cfgScenario.w - 1) / cfgScenario.BlockSize →
      (run cfgScenario (srcOfList [4096, 8192]) (List.replicate 9 Op.allocate)
          (Sys.init heapZero)).carved.length ≤ max_size cfgScenario ∧
      (run cfgScenario (srcOfList [4096, 8192]) (List.replicate 9 Op.allocate)
          (Sys.init heapZero)).carved.dedup.length ≤ max_size cfgScenario)) :=
  ⟨by decide, by decide,
    C13_max_size_bounds_carving cfgScenario (srcOfList [4096, 8192]) heapZero
      (List.replicate 9 Op.allocate) (by decide) (by decide)⟩

/-- C14: a `StackAlloc` over a `MemoryPool` of nodes behaves as a stack.  The
node pool keeps the invariant `BlockSize >= 2 * sizeof(Node)`, node size and
block bases are multiples of the pointer size, the blocks are pairwise
disjoint and the memory source answers the calls made.  Starting from an empty
stack (the allocator a well-formed pool without live slots, `head_` null; the
freshly constructed stack is one), pushing `x1, ..., xk` succeeds, leaves the
stack non-empty with `top() = xk` when `k > 0`, the next `k` calls of `pop()`
return `xk, ..., x1` in this order and leave an empty stack again; and a
`pop()` on any non-empty stack returns the top value and leaves the words of
all nodes below, and so the values still on the stack, unchanged. -/
theorem C14_stack_over_pool (c : Config) (src : Nat → Option Nat) (off : Nat) (hc : c.WF)
    (hsrc : SourceOK c src) (hB : 2 * c.slotSize ≤ c.BlockSize)
    (hPS : c.ptrSize ∣ c.slotSize) (hPw : c.PtrDividesWord)
    (hbase : ∀ i b, src i = some b → c.ptrSize ∣ b) (ho1 : c.ptrSize ≤ off)
    (ho2 : off + c.ptrSize ≤ c.slotSize) (k0 : StackAlloc) (xs : List Nat)
    (hk0 : StackInv c src off k0 [] [])
    (hav : ∀ i, k0.allocator_.newCalls ≤ i → i < k0.allocator_.newCalls + xs.length →
      (src i).isSome) :
    (∀ h0, StackInv c src off (StackAlloc.ctor h0) [] [] ∧ (StackAlloc.ctor h0).empty = true) ∧
    k0.empty = true ∧
    (∃ k1, StackAlloc.pushAll c src off xs k0 = (.ok (), k1) ∧
      (xs ≠ [] → k1.empty = false ∧ xs.getLast? = some k1.top) ∧
      (StackAlloc.popAll off xs.length k1).1 = xs.reverse ∧
      (StackAlloc.popAll off xs.length k1).2.empty = true ∧
      StackInv c src off (StackAlloc.popAll off xs.length k1).2 [] []) ∧
    (∀ k n ns v vs, StackInv c src off k (n :: ns) (v :: vs) →
      k.empty = false ∧ k.top = v ∧ (StackAlloc.pop off k).1 = v ∧
      StackInv c src off (StackAlloc.pop off k).2 ns vs ∧
      ∀ m ∈ ns,
        (StackAlloc.pop off k).2.allocator_.heap m = k.allocator_.heap m ∧
        (StackAlloc.pop off k).2.allocator_.heap (m + off) = k.allocator_.heap (m + off)) := by
  have hfit : FirstSlotFits c src := firstSlotFits_of_aligned c src hc hB hPS hPw hbase
  refine ⟨fun h0 => ⟨stackInv_ctor c src off h0, rfl⟩, ?_, ?_, ?_⟩
  · simp [StackAlloc.empty, (stackInv_nil c src off k0 [] hk0).2]
  · obtain ⟨k1, ns1, hp, hinv1⟩ :=
      pushAll_spec c src off hc hsrc hfit ho1 ho2 xs k0 [] [] hk0 hav
    rw [List.append_nil] at hinv1
    obtain ⟨h1, ns2, h2⟩ := popAll_spec c src off hc hsrc hfit ho2 xs.length k1 ns1
      xs.reverse hinv1 (by simp)
    have hd : List.drop xs.length xs.reverse = [] := by simp
    rw [hd] at h2
    obtain ⟨hns2, hhead⟩ := stackInv_nil c src off _ ns2 h2
    subst hns2
    refine ⟨k1, hp, ?_, ?_, ?_, h2⟩
    · intro hne
      obtain ⟨v, vs, hv⟩ : ∃ v vs, xs.reverse = v :: vs := by
        cases hr : xs.reverse with
        | nil => exact absurd (List.reverse_eq_nil_iff.mp hr) hne
        | cons v vs => exact ⟨v, vs, rfl⟩
      rw [hv] at hinv1
      obtain ⟨hh, ht, -⟩ := stackInv_cons c src off k1 ns1 v vs hinv1
      refine ⟨by simp [StackAlloc.empty, hh], ?_⟩
      have hl : xs.getLast? = some v := by
        rw [← List.head?_reverse, hv]
        rfl
      rw [hl]
      exact congrArg some ht.symm
    · rw [h1]
      simp
    · simp [StackAlloc.empty, hhead]
  · intro k n ns v vs hinv
    obtain ⟨hh, ht, -⟩ := stackInv_cons c src off k _ v vs hinv
    obtain ⟨h1, h2, -, h4⟩ := pop_spec c src off hc hsrc hfit ho2 k n ns v vs hinv
    refine ⟨by simp [StackAlloc.empty, hh], ht, h1, h2, ?_⟩
    intro m hm
    refine ⟨h4 m hm, ?_⟩
    obtain ⟨y, hst, hy, hlive, hrep⟩ := hinv
    have hP : 0 < c.ptrSize := hc.1
    have hnl : n ∈ y.live := by rw [hlive]; exact List.mem_cons_self _ _
    have hml : m ∈ y.live := by rw [hlive]; exact List.mem_cons_of_mem _ hm
    have hnd : (n :: ns).Nodup := by rw [← hlive]; exact hy.2.2.choose_spec.2.2.1
    have hmn : m ≠ n := fun h => (List.nodup_cons.mp hnd).1 (h ▸ hm)
    have hap := live_apart c src y hy m hml n hnl hmn
    by_contra hne
    have := deallocate_heap_frame k.head_ 1 (destroy k.head_ k.allocator_) (m + off) hne
    rw [hrep.1] at this
    omega

theorem C14_stack_over_pool_witness :
    cfgNode.WF ∧ SourceOK cfgNode (srcOfList [4096, 8192, 12288]) ∧
    2 * cfgNode.slotSize ≤ cfgNode.BlockSize ∧ cfgNode.ptrSize ∣ cfgNode.slotSize ∧
    cfgNode.PtrDividesWord ∧
    (∀ i b, srcOfList [4096, 8192, 12288] i = some b → cfgNode.ptrSize ∣ b) ∧
    StackInv cfgNode (srcOfList [4096, 8192, 12288]) 8 (StackAlloc.ctor heapZero) [] [] ∧
    ((∀ h0, StackInv cfgNode (srcOfList [4096, 8192, 12288]) 8 (StackAlloc.ctor h0) [] [] ∧
        (StackAlloc.ctor h0).empty = true) ∧
      (StackAlloc.ctor heapZero).empty = true ∧
      (∃ k1, StackAlloc.pushAll cfgNode (srcOfList [4096, 8192, 12288]) 8 [7, 9, 11]
          (StackAlloc.ctor heapZero) = (.ok (), k1) ∧
        ([7, 9, 11] ≠ [] → k1.empty = false ∧ [7, 9, 11].getLast? = some k1.top) ∧
        (StackAlloc.popAll 8 [7, 9, 11].length k1).1 = [7, 9, 11].reverse ∧
        (StackAlloc.popAll 8 [7, 9, 11].length k1).2.empty = true ∧
        StackInv cfgNode (srcOfList [4096, 8192, 12288]) 8
          (StackAlloc.popAll 8 [7, 9, 11].length k1).2 [] []) ∧
      (∀ k n ns v vs, StackInv cfgNode (srcOfList [4096, 8192, 12288]) 8 k (n :: ns) (v :: vs) →
        k.empty = false ∧ k.top = v ∧ (StackAlloc.pop 8 k).1 = v ∧
        StackInv cfgNode (srcOfList [4096, 8192, 12288]) 8 (StackAlloc.pop 8 k).2 ns vs ∧
        ∀ m ∈ ns,
          (StackAlloc.pop 8 k).2.allocator_.heap m = k.allocator_.heap m ∧
          (StackAlloc.pop 8 k).2.allocator_.heap (m + 8) = k.allocator_.heap (m + 8))) :=
  have hsrc : SourceOK cfgNode (srcOfList [4096, 8192, 12288]) :=
    sourceOK_ofList cfgNode [4096, 8192, 12288] (by decide) (by decide)
  have hbase := aligned_ofList cfgNode.ptrSize [4096, 8192, 12288] (by decide)
  have hk0 := stackInv_ctor cfgNode (srcOfList [4096, 8192, 12288]) 8 heapZero
  ⟨by decide, hsrc, by decide, by decide, by decide, hbase, hk0,
    C14_stack_over_pool cfgNode (srcOfList [4096, 8192, 12288]) 8 (by decide) hsrc
      (by decide) (by decide) (by decide) hbase
      (by decide) (by decide) (StackAlloc.ctor heapZero) [7, 9, 11] hk0
      (by
        intro i _ h2
        have h3 : i < 3 := by simpa [StackAlloc.ctor] using h2
        interval_cases i <;> rfl)⟩

/-- Outside the invariant `BlockSize >= 2 * slot size`: with `BlockSize = 4096`
and a 4088-byte node (`prev` at offset 4080) the first slot of the block at 4096
starts at 5112 and ends outside the block; the header of the next block, at
9192, is the word that holds `prev` of the first node.  After `push(7)`,
`push(9)` the two calls of `pop()` return 9 and 7, and then `empty()` is
false. -/
theorem undersized_block_stack_not_empty_after_pops :
    cfgBigNode.WF ∧ SourceOK cfgBigNode (srcOfList [4096, 9192]) ∧
    (StackAlloc.ctor heapZero).empty = true ∧
    (StackAlloc.pushAll cfgBigNode (srcOfList [4096, 9192]) 4080 [7, 9]
      (StackAlloc.ctor heapZero)).1 = .ok () ∧
    (StackAlloc.popAll 4080 2
      (StackAlloc.pushAll cfgBigNode (srcOfList [4096, 9192]) 4080 [7, 9]
        (StackAlloc.ctor heapZero)).2).1 = [9, 7] ∧
    (StackAlloc.popAll 4080 2
      (StackAlloc.pushAll cfgBigNode (srcOfList [4096, 9192]) 4080 [7, 9]
        (StackAlloc.ctor heapZero)).2).2.empty = false ∧
    (StackAlloc.popAll 4080 2
      (StackAlloc.pushAll cfgBigNode (srcOfList [4096, 9192]) 4080 [7, 9]
        (StackAlloc.ctor heapZero)).2).2.head_ = 4096 :=
  ⟨by decide, sourceOK_ofList cfgBigNode [4096, 9192] (by decide) (by decide),
    by decide, rfl, by decide, by decide, by decide⟩

/-- C15: `BlockSize >= 2 * slot size` leaves room for one slot in every block.
If `BlockSize` is at least twice the slot size, the slot size and the block
base returned by the memory source are multiples of the pointer size (and the
pointer size divides `2 ^ w`, as a power of two does), then `allocateBlock()`
returns with `currentSlot_ < lastSlot_` and
`currentSlot_ + slotSize <= base + BlockSize`, the cursor behind the header; so
the address `allocate()` returns right after acquiring the block, without
testing the bound again, is that cursor and its slot lies inside the block. -/
theorem C15_first_slot_fits (c : Config) (src : Nat → Option Nat) (s : State) (b : Nat)
    (hc : c.WF) (hPw : c.PtrDividesWord) (hB : 2 * c.slotSize ≤ c.BlockSize)
    (hPS : c.ptrSize ∣ c.slotSize) (hbase : c.ptrSize ∣ b)
    (hnew : src s.newCalls = some b) :
    (allocateBlock c src s).1 = .ok () ∧
    (allocateBlock c src s).2.pool.currentSlot_ < (allocateBlock c src s).2.pool.lastSlot_ ∧
    (allocateBlock c src s).2.pool.currentSlot_ + c.slotSize ≤ b + c.BlockSize ∧
    b + c.ptrSize ≤ (allocateBlock c src s).2.pool.currentSlot_ ∧
    (s.pool.freeSlots_ = 0 → s.pool.lastSlot_ ≤ s.pool.currentSlot_ →
      ∀ (n hint p : Nat) (s1 : State), allocate c src n hint s = (.ok p, s1) →
        p = (allocateBlock c src s).2.pool.currentSlot_ ∧
        b + c.ptrSize ≤ p ∧ p + c.slotSize ≤ b + c.BlockSize) := by
  have hS : 0 < c.slotSize := Nat.lt_of_lt_of_le hc.1 hc.2.1
  have h1 : c.ptrSize ∣ b + c.ptrSize + padPointer c (b + c.ptrSize) c.slotSize :=
    padPointer_dvd c (b + c.ptrSize) c.slotSize c.ptrSize hPS hPw
  have h2 : c.ptrSize ∣ padPointer c (b + c.ptrSize) c.slotSize :=
    (Nat.dvd_add_right (Nat.dvd_add hbase (dvd_refl _))).mp h1
  have h3 := padPointer_lt c (b + c.ptrSize) c.slotSize hS
  have h4 := multiple_below _ _ _ h2 hPS h3
  rw [allocateBlock_ok c src s b hnew]
  refine ⟨rfl, ?_, ?_, ?_, ?_⟩
  · show b + c.ptrSize + _ < b + c.BlockSize - c.slotSize + 1
    omega
  · show b + c.ptrSize + _ + c.slotSize ≤ _
    omega
  · show b + c.ptrSize ≤ b + c.ptrSize + _
    omega
  · intro hf hfull n hint p s1 hres
    rw [allocate_block c src n hint s b hf hfull hnew] at hres
    simp only [Prod.mk.injEq, Except.ok.injEq] at hres
    rw [← hres.1]
    refine ⟨rfl, by omega, by omega⟩

theorem C15_first_slot_fits_witness :
    cfg24.WF ∧ cfg24.PtrDividesWord ∧ 2 * cfg24.slotSize ≤ cfg24.BlockSize ∧
    cfg24.ptrSize ∣ cfg24.slotSize ∧ cfg24.ptrSize ∣ 4096 ∧
    srcOne (Sys.init heapZero).st.newCalls = some 4096 ∧
    ((allocateBlock cfg24 srcOne (Sys.init heapZero).st).1 = .ok () ∧
      (allocateBlock cfg24 srcOne (Sys.init heapZero).st).2.pool.currentSlot_
        < (allocateBlock cfg24 srcOne (Sys.init heapZero).st).2.pool.lastSlot_ ∧
      (allocateBlock cfg24 srcOne (Sys.init heapZero).st).2.pool.currentSlot_ + cfg24.slotSize
        ≤ 4096 + cfg24.BlockSize ∧
      4096 + cfg24.ptrSize
        ≤ (allocateBlock cfg24 srcOne (Sys.init heapZero).st).2.pool.currentSlot_ ∧
      ((Sys.init heapZero).st.pool.freeSlots_ = 0 →
        (Sys.init heapZero).st.pool.lastSlot_ ≤ (Sys.init heapZero).st.pool.currentSlot_ →
        ∀ (n hint p : Nat) (s1 : State),
          allocate cfg24 srcOne n hint (Sys.init heapZero).st = (.ok p, s1) →
          p = (allocateBlock cfg24 srcOne (Sys.init heapZero).st).2.pool.currentSlot_ ∧
          4096 + cfg24.ptrSize ≤ p ∧ p + cfg24.slotSize ≤ 4096 + cfg24.BlockSize)) :=
  ⟨by decide, by decide, by decide, by decide, by decide, rfl,
    C15_first_slot_fits cfg24 srcOne (Sys.init heapZero).st 4096 (by decide) (by decide)
      (by decide) (by decide) (by decide) rfl⟩

/-- What `padPointer` does compute: `padPointer(p, align)`, evaluated in `w`-bit
unsigned arithmetic, is less than `align` for every `align >= 1`, and `p` plus
the padding is a multiple of every divisor of `align` that divides `2 ^ w`.
When `align` itself divides `2 ^ w` the padding equals
`(align - p mod align) mod align` and `p` plus the padding is a multiple of
`align`; when the slot size divides `2 ^ w`, the first slot of every block,
the body plus its padding, is a multiple of the slot size. -/
theorem padPointer_padding (c : Config) (p align : Nat) (h : 1 ≤ align) :
    padPointer c p align < align ∧
    (∀ a, a ∣ align → a ∣ 2 ^ c.w → a ∣ p + padPointer c p align) ∧
    (align ∣ 2 ^ c.w →
      padPointer c p align = (align - p % align) % align ∧
      align ∣ p + padPointer c p align) ∧
    (c.slotSize ∣ 2 ^ c.w → ∀ (src : Nat → Option Nat) (s : State) (b : Nat),
      src s.newCalls = some b →
      (allocateBlock c src s).2.pool.currentSlot_
        = b + c.ptrSize + padPointer c (b + c.ptrSize) c.slotSize ∧
      c.slotSize ∣ (allocateBlock c src s).2.pool.currentSlot_) := by
  refine ⟨padPointer_lt c p align h, fun a ha hm => padPointer_dvd c p align a ha hm, ?_, ?_⟩
  · intro hm
    exact ⟨padPointer_eq c p align h hm, padPointer_dvd c p align align (dvd_refl _) hm⟩
  · intro hm src s b hb
    rw [allocateBlock_ok c src s b hb]
    exact ⟨rfl, padPointer_dvd c (b + c.ptrSize) c.slotSize c.slotSize (dvd_refl _) hm⟩

theorem padPointer_padding_example :
    1 ≤ 8 ∧
    (padPointer cfgScenario 4100 8 < 8 ∧
    (∀ a, a ∣ 8 → a ∣ 2 ^ cfgScenario.w → a ∣ 4100 + padPointer cfgScenario 4100 8) ∧
    (8 ∣ 2 ^ cfgScenario.w →
      padPointer cfgScenario 4100 8 = (8 - 4100 % 8) % 8 ∧
      8 ∣ 4100 + padPointer cfgScenario 4100 8) ∧
    (cfgScenario.slotSize ∣ 2 ^ cfgScenario.w →
      ∀ (src : Nat → Option Nat) (s : State) (b : Nat),
      src s.newCalls = some b →
      (allocateBlock cfgScenario src s).2.pool.currentSlot_
        = b + cfgScenario.ptrSize
          + padPointer cfgScenario (b + cfgScenario.ptrSize) cfgScenario.slotSize ∧
      cfgScenario.slotSize ∣ (allocateBlock cfgScenario src s).2.pool.currentSlot_)) :=
  ⟨by decide, padPointer_padding cfgScenario 4100 8 (by decide)⟩

/-- C16, the code at a failing input: with 64-bit `size_t` and 24-byte slots
`padPointer(4104, 24)` is 16, because `align - result` wraps before the
remainder is taken, while `(24 - 4104 mod 24) mod 24` is 0; `4104 + 16 = 4120`
is not a multiple of 24, and 4120 is the first slot of the block at 4096, which
is therefore not a multiple of the slot size. -/
theorem C16_padPointer_wraps :
    1 ≤ 24 ∧ padPointer cfg24 4104 24 = 16 ∧ (24 - 4104 % 24) % 24 = 0 ∧
    ¬ (24 ∣ 4104 + padPointer cfg24 4104 24) ∧
    (allocateBlock cfg24 srcOne
      { pool := ctor ⟨0, 0, 0, 0⟩, heap := heapZero, newCalls := 0, blocks := [] }).2.pool.currentSlot_
      = 4120 ∧
    ¬ (cfg24.slotSize ∣ 4120) := by
  refine ⟨by decide, by decide, by decide, by decide, ?_, by decide⟩
  rfl


/-- C17: `lastSlot_` is the exact bound past which a full slot cannot fit.  After
`allocateBlock()` on a block with base `b`, `lastSlot_` is
`b + BlockSize - slotSize + 1` and for every cursor `cur` behind the header the
test `cur >= lastSlot_` is false exactly when `cur + slotSize <= b + BlockSize`.
Hence, on a pool that keeps the invariant `BlockSize >= 2 * slot size`, with
slot size and block bases multiples of the pointer size and blocks pairwise
disjoint, after every well-formed run from a default-constructed pool every
carved slot lies inside `[b + sizeof(pointer), b + BlockSize)` for an acquired
block `b`, the test on the cursor of the current block is false exactly when a
full slot fits, and an `allocate()` that calls the memory source finds the free
list empty and no room for a full slot. -/
theorem C17_lastSlot_is_exact_bound (c : Config) (src : Nat → Option Nat) (h0 : Heap)
    (ops : List Op) (hc : c.WF) (hsrc : SourceOK c src)
    (hB : 2 * c.slotSize ≤ c.BlockSize)
    (hPS : c.ptrSize ∣ c.slotSize) (hPw : c.PtrDividesWord)
    (hbase : ∀ i b, src i = some b → c.ptrSize ∣ b)
    (hwf : WellFormed c src ops (Sys.init h0)) :
    (∀ (s : State) (b cur : Nat), src s.newCalls = some b → b + c.ptrSize ≤ cur →
      (allocateBlock c src s).2.pool.lastSlot_ = b + c.BlockSize - c.slotSize + 1 ∧
      (¬ cur ≥ (allocateBlock c src s).2.pool.lastSlot_ ↔
        cur + c.slotSize ≤ b + c.BlockSize)) ∧
    (∀ a ∈ (run c src ops (Sys.init h0)).carved,
      ∃ b ∈ (run c src ops (Sys.init h0)).st.blocks,
        b + c.ptrSize ≤ a ∧ a + c.slotSize ≤ b + c.BlockSize) ∧
    (∀ b rest, (run c src ops (Sys.init h0)).st.blocks = b :: rest →
      (run c src ops (Sys.init h0)).st.pool.currentBlock_ = b ∧
      b + c.ptrSize ≤ (run c src ops (Sys.init h0)).st.pool.currentSlot_ ∧
      (¬ (run c src ops (Sys.init h0)).st.pool.currentSlot_
          ≥ (run c src ops (Sys.init h0)).st.pool.lastSlot_ ↔
        (run c src ops (Sys.init h0)).st.pool.currentSlot_ + c.slotSize ≤ b + c.BlockSize) ∧
      ((step c src Op.allocate (run c src ops (Sys.init h0))).st.newCalls
          ≠ (run c src ops (Sys.init h0)).st.newCalls →
        (run c src ops (Sys.init h0)).st.pool.freeSlots_ = 0 ∧
        ¬ (run c src ops (Sys.init h0)).st.pool.currentSlot_ + c.slotSize
            ≤ b + c.BlockSize)) := by
  have hP : 0 < c.ptrSize := hc.1
  have hS : 0 < c.slotSize := Nat.lt_of_lt_of_le hc.1 hc.2.1
  have hfit : FirstSlotFits c src := firstSlotFits_of_aligned c src hc hB hPS hPw hbase
  have hPSB : c.ptrSize + c.slotSize ≤ c.BlockSize := hfit.1
  obtain ⟨hg, ht, -, -⟩ := all_invariants_run c src hc hsrc hfit h0 ops hwf
  refine ⟨?_, ht.1, ?_⟩
  · intro s b cur hb hcur
    rw [allocateBlock_ok c src s b hb]
    refine ⟨rfl, ?_⟩
    show ¬ cur ≥ b + c.BlockSize - c.slotSize + 1 ↔ _
    omega
  · intro b rest hbl
    obtain ⟨hcb, hlast, hlow⟩ := hg.2.2.1 b rest hbl
    generalize run c src ops (Sys.init h0) = y at *
    refine ⟨hcb, hlow, by rw [hlast]; omega, ?_⟩
    intro hcalls
    by_cases hf : y.st.pool.freeSlots_ = 0
    · by_cases hfull : y.st.pool.lastSlot_ ≤ y.st.pool.currentSlot_
      · exact ⟨hf, by rw [hlast] at hfull; omega⟩
      · rw [step_allocate_carve c src y hf (Nat.lt_of_not_le hfull)] at hcalls
        exact absurd rfl hcalls
    · rw [step_allocate_pop c src y hf] at hcalls
      exact absurd rfl hcalls

theorem C17_lastSlot_is_exact_bound_witness :
    cfg24.WF ∧ SourceOK cfg24 (srcOfList [4096]) ∧
    2 * cfg24.slotSize ≤ cfg24.BlockSize ∧ cfg24.ptrSize ∣ cfg24.slotSize ∧
    cfg24.PtrDividesWord ∧ (∀ i b, srcOfList [4096] i = some b → cfg24.ptrSize ∣ b) ∧
    WellFormed cfg24 (srcOfList [4096]) [Op.allocate] (Sys.init heapZero) ∧
    ((∀ (s : State) (b cur : Nat), (srcOfList [4096]) s.newCalls = some b →
        b + cfg24.ptrSize ≤ cur →
        (allocateBlock cfg24 (srcOfList [4096]) s).2.pool.lastSlot_
          = b + cfg24.BlockSize - cfg24.slotSize + 1 ∧
        (¬ cur ≥ (allocateBlock cfg24 (srcOfList [4096]) s).2.pool.lastSlot_ ↔
          cur + cfg24.slotSize ≤ b + cfg24.BlockSize)) ∧
      (∀ a ∈ (run cfg24 (srcOfList [4096]) [Op.allocate]
            (Sys.init heapZero)).carved,
        ∃ b ∈ (run cfg24 (srcOfList [4096]) [Op.allocate]
            (Sys.init heapZero)).st.blocks,
          b + cfg24.ptrSize ≤ a ∧ a + cfg24.slotSize ≤ b + cfg24.BlockSize) ∧
      (∀ b rest, (run cfg24 (srcOfList [4096]) [Op.allocate]
            (Sys.init heapZero)).st.blocks = b :: rest →
        (run cfg24 (srcOfList [4096]) [Op.allocate]
            (Sys.init heapZero)).st.pool.currentBlock_ = b ∧
        b + cfg24.ptrSize ≤ (run cfg24 (srcOfList [4096]) [Op.allocate]
            (Sys.init heapZero)).st.pool.currentSlot_ ∧
        (¬ (run cfg24 (srcOfList [4096]) [Op.allocate]
            (Sys.init heapZero)).st.pool.currentSlot_
            ≥ (run cfg24 (srcOfList [4096]) [Op.allocate]
            (Sys.init heapZero)).st.pool.lastSlot_ ↔
          (run cfg24 (srcOfList [4096]) [Op.allocate]
            (Sys.init heapZero)).st.pool.currentSlot_ + cfg24.slotSize ≤ b + cfg24.BlockSize) ∧
        ((step cfg24 (srcOfList [4096]) Op.allocate (run cfg24 (srcOfList [4096]) [Op.allocate]
            (Sys.init heapZero))).st.newCalls
            ≠ (run cfg24 (srcOfList [4096]) [Op.allocate]
            (Sys.init heapZero)).st.newCalls →
          (run cfg24 (srcOfList [4096]) [Op.allocate]
            (Sys.init heapZero)).st.pool.freeSlots_ = 0 ∧
          ¬ (run cfg24 (srcOfList [4096]) [Op.allocate]
            (Sys.init heapZero)).st.pool.currentSlot_ + cfg24.slotSize
              ≤ b + cfg24.BlockSize))) :=
  have hsrc : SourceOK cfg24 (srcOfList [4096]) :=
    sourceOK_ofList cfg24 [4096] (by decide) (by decide)
  have hbase := aligned_ofList cfg24.ptrSize [4096] (by decide)
  have hwf : WellFormed cfg24 (srcOfList [4096]) [Op.allocate] (Sys.init heapZero) := by
    decide
  ⟨by decide, hsrc, by decide, by decide, by decide, hbase, hwf,
    C17_lastSlot_is_exact_bound cfg24 (srcOfList [4096]) heapZero [Op.allocate] (by decide)
      hsrc (by decide) (by decide) (by decide) hbase hwf⟩

/-- Outside the invariant `BlockSize >= 2 * slot size` the first slot of a block,
which is handed out without the test, need not fit: with `BlockSize = 8` and
8-byte slots and pointers the first `allocate()` on the block at 8 carves the
slot at 16, which ends at 24, behind the end of the block at 16. -/
theorem undersized_block_first_slot_outside :
    cfgOneSlot.WF ∧ SourceOK cfgOneSlot (srcOfList [8]) ∧
    WellFormed cfgOneSlot (srcOfList [8]) [Op.allocate] (Sys.init heapZero) ∧
    (run cfgOneSlot (srcOfList [8]) [Op.allocate] (Sys.init heapZero)).carved = [16] ∧
    (run cfgOneSlot (srcOfList [8]) [Op.allocate] (Sys.init heapZero)).st.blocks = [8] ∧
    ¬ (16 + cfgOneSlot.slotSize ≤ 8 + cfgOneSlot.BlockSize) :=
  ⟨by decide, sourceOK_ofList cfgOneSlot [8] (by decide) (by decide), by decide, by decide,
    by decide, by decide⟩

/-- C18: on a default-constructed pool that keeps the invariant
`BlockSize >= 2 * slot size`, after every well-formed sequence of `allocate`
and `deallocate` calls with pairwise disjoint blocks, the links starting at
`freeSlots_` form a finite chain that ends in null, visits no address twice,
and visits exactly the carved slots that are not live; the same holds for
sequences in which callers also store inside their live slots, when the first
slot of every block lies inside the block. -/
theorem C18_free_list_is_carved_not_live (c : Config) (src : Nat → Option Nat) (h0 : Heap)
    (ops : List Op) (hc : c.WF) (hsrc : SourceOK c src)
    (hB2 : 2 * c.slotSize ≤ c.BlockSize)
    (hwf : WellFormed c src ops (Sys.init h0))
    (hcase : CallsOnly ops ∨ FirstSlotFits c src) :
    ∃ F : List Nat,
      Chain (run c src ops (Sys.init h0)).st.heap
        (run c src ops (Sys.init h0)).st.pool.freeSlots_ F ∧
      F.Nodup ∧
      ∀ a, a ∈ F ↔
        (a ∈ (run c src ops (Sys.init h0)).carved ∧ a ∉ (run c src ops (Sys.init h0)).live) := by
  have hf : FreeInv (run c src ops (Sys.init h0)) := by
    rcases hcase with h | h
    · exact (geom_free_run c src hc (by omega) hsrc h0 ops hwf h).2
    · exact (all_invariants_run c src hc hsrc h h0 ops hwf).2.2.1
  obtain ⟨F, hch, hnd, -, hFl, hcv⟩ := hf
  refine ⟨F, hch, hnd, ?_⟩
  intro a
  constructor
  · intro ha
    exact ⟨(hcv a).mpr (Or.inr ha), hFl a ha⟩
  · intro ⟨hac, hal⟩
    rcases (hcv a).mp hac with h | h
    · exact absurd h hal
    · exact h

theorem C18_free_list_is_carved_not_live_witness :
    cfg24.WF ∧ SourceOK cfg24 (srcOfList [4096, 8192]) ∧
    2 * cfg24.slotSize ≤ cfg24.BlockSize ∧
    WellFormed cfg24 (srcOfList [4096, 8192])
      [Op.allocate, Op.allocate, Op.deallocate 4120, Op.deallocate 4144, Op.allocate]
      (Sys.init heapZero) ∧
    (CallsOnly [Op.allocate, Op.allocate, Op.deallocate 4120, Op.deallocate 4144, Op.allocate] ∨
      FirstSlotFits cfg24 (srcOfList [4096, 8192])) ∧
    (∃ F : List Nat,
      Chain (run cfg24 (srcOfList [4096, 8192])
          [Op.allocate, Op.allocate, Op.deallocate 4120, Op.deallocate 4144, Op.allocate]
          (Sys.init heapZero)).st.heap
        (run cfg24 (srcOfList [4096, 8192])
          [Op.allocate, Op.allocate, Op.deallocate 4120, Op.deallocate 4144, Op.allocate]
          (Sys.init heapZero)).st.pool.freeSlots_ F ∧
      F.Nodup ∧
      ∀ a, a ∈ F ↔
        (a ∈ (run cfg24 (srcOfList [4096, 8192])
          [Op.allocate, Op.allocate, Op.deallocate 4120, Op.deallocate 4144, Op.allocate]
          (Sys.init heapZero)).carved ∧
         a ∉ (run cfg24 (srcOfList [4096, 8192])
          [Op.allocate, Op.allocate, Op.deallocate 4120, Op.deallocate 4144, Op.allocate]
          (Sys.init heapZero)).live)) :=
  have hsrc : SourceOK cfg24 (srcOfList [4096, 8192]) :=
    sourceOK_ofList cfg24 [4096, 8192] (by decide) (by decide)
  have hwf : WellFormed cfg24 (srcOfList [4096, 8192])
      [Op.allocate, Op.allocate, Op.deallocate 4120, Op.deallocate 4144, Op.allocate]
      (Sys.init heapZero) := by
    decide
  have hcase : CallsOnly
      [Op.allocate, Op.allocate, Op.deallocate 4120, Op.deallocate 4144, Op.allocate] ∨
      FirstSlotFits cfg24 (srcOfList [4096, 8192]) :=
    Or.inl (by decide)
  ⟨by decide, hsrc, by decide, hwf, hcase,
    C18_free_list_is_carved_not_live cfg24 (srcOfList [4096, 8192]) heapZero _ (by decide)
      hsrc (by decide) hwf hcase⟩

/-- Outside the invariant `BlockSize >= 2 * slot size`: with `BlockSize = 4` and
8-byte slots the address 16 is handed out twice; after one `deallocate(16)` it
heads the free list while it is still live, and after the second
`deallocate(16)` its link points to itself, so the free list is a cycle. -/
theorem undersized_block_free_slot_still_live :
    cfgTiny.WF ∧ SourceOK cfgTiny (srcOfList [8, 12]) ∧
    WellFormed cfgTiny (srcOfList [8, 12])
      [Op.allocate, Op.allocate, Op.deallocate 16, Op.deallocate 16] (Sys.init heapZero) ∧
    CallsOnly [Op.allocate, Op.allocate, Op.deallocate 16, Op.deallocate 16] ∧
    (run cfgTiny (srcOfList [8, 12]) [Op.allocate, Op.allocate, Op.deallocate 16]
      (Sys.init heapZero)).st.pool.freeSlots_ = 16 ∧
    16 ∈ (run cfgTiny (srcOfList [8, 12]) [Op.allocate, Op.allocate, Op.deallocate 16]
      (Sys.init heapZero)).live ∧
    (run cfgTiny (srcOfList [8, 12])
      [Op.allocate, Op.allocate, Op.deallocate 16, Op.deallocate 16]
      (Sys.init heapZero)).st.pool.freeSlots_ = 16 ∧
    (run cfgTiny (srcOfList [8, 12])
      [Op.allocate, Op.allocate, Op.deallocate 16, Op.deallocate 16]
      (Sys.init heapZero)).st.heap 16 = 16 :=
  ⟨by decide, sourceOK_ofList cfgTiny [8, 12] (by decide) (by decide), by decide, by decide,
    by decide, by decide, by decide, by decide⟩

/-- C19: on a pool that keeps the invariant `BlockSize >= 2 * slot size`, with
slot size and block bases multiples of the pointer size, in every state reached
from a default-constructed pool by a well-formed sequence of operations, with
pairwise disjoint blocks, the byte ranges `[a, a + slotSize)` of two distinct
carved slots are disjoint, and the byte range of a carved slot does not meet
the header link `[b, b + sizeof(pointer))` of any acquired block `b`. -/
theorem C19_slots_do_not_overlap (c : Config) (src : Nat → Option Nat) (h0 : Heap)
    (ops : List Op) (hc : c.WF) (hsrc : SourceOK c src)
    (hB : 2 * c.slotSize ≤ c.BlockSize)
    (hPS : c.ptrSize ∣ c.slotSize) (hPw : c.PtrDividesWord)
    (hbase : ∀ i b, src i = some b → c.ptrSize ∣ b)
    (hwf : WellFormed c src ops (Sys.init h0)) :
    (∀ a ∈ (run c src ops (Sys.init h0)).carved,
      ∀ a1 ∈ (run c src ops (Sys.init h0)).carved, a ≠ a1 →
        a + c.slotSize ≤ a1 ∨ a1 + c.slotSize ≤ a) ∧
    (∀ a ∈ (run c src ops (Sys.init h0)).carved,
      ∀ b ∈ (run c src ops (Sys.init h0)).st.blocks,
        a + c.slotSize ≤ b ∨ b + c.ptrSize ≤ a) := by
  have hfit : FirstSlotFits c src := firstSlotFits_of_aligned c src hc hB hPS hPw hbase
  obtain ⟨hg, ht, -, -⟩ := all_invariants_run c src hc hsrc hfit h0 ops hwf
  obtain ⟨hin, -, hap⟩ := ht
  refine ⟨hap, ?_⟩
  intro a ha b hb
  obtain ⟨b1, hb1, hi1⟩ := hin a ha
  have hapart := blocks_apart c src hsrc _ _ hg.1
  have hPB := hfit.1
  unfold Inside at hi1
  rcases hapart.1 b1 hb1 b hb with h | h
  · subst h; exact Or.inr hi1.1
  · omega

theorem C19_slots_do_not_overlap_witness :
    cfg24.WF ∧ SourceOK cfg24 (srcOfList [4096, 8192]) ∧
    2 * cfg24.slotSize ≤ cfg24.BlockSize ∧ cfg24.ptrSize ∣ cfg24.slotSize ∧
    cfg24.PtrDividesWord ∧
    (∀ i b, srcOfList [4096, 8192] i = some b → cfg24.ptrSize ∣ b) ∧
    WellFormed cfg24 (srcOfList [4096, 8192])
      [Op.allocate, Op.allocate, Op.deallocate 4120, Op.allocate, Op.allocate]
      (Sys.init heapZero) ∧
    ((∀ a ∈ (run cfg24 (srcOfList [4096, 8192])
        [Op.allocate, Op.allocate, Op.deallocate 4120, Op.allocate, Op.allocate]
        (Sys.init heapZero)).carved,
      ∀ a1 ∈ (run cfg24 (srcOfList [4096, 8192])
        [Op.allocate, Op.allocate, Op.deallocate 4120, Op.allocate, Op.allocate]
        (Sys.init heapZero)).carved, a ≠ a1 →
        a + cfg24.slotSize ≤ a1 ∨ a1 + cfg24.slotSize ≤ a) ∧
     (∀ a ∈ (run cfg24 (srcOfList [4096, 8192])
        [Op.allocate, Op.allocate, Op.deallocate 4120, Op.allocate, Op.allocate]
        (Sys.init heapZero)).carved,
      ∀ b ∈ (run cfg24 (srcOfList [4096, 8192])
        [Op.allocate, Op.allocate, Op.deallocate 4120, Op.allocate, Op.allocate]
        (Sys.init heapZero)).st.blocks,
        a + cfg24.slotSize ≤ b ∨ b + cfg24.ptrSize ≤ a)) :=
  have hsrc : SourceOK cfg24 (srcOfList [4096, 8192]) :=
    sourceOK_ofList cfg24 [4096, 8192] (by decide) (by decide)
  have hbase := aligned_ofList cfg24.ptrSize [4096, 8192] (by decide)
  have hwf : WellFormed cfg24 (srcOfList [4096, 8192])
      [Op.allocate, Op.allocate, Op.deallocate 4120, Op.allocate, Op.allocate]
      (Sys.init heapZero) := by
    decide
  ⟨by decide, hsrc, by decide, by decide, by decide, hbase, hwf,
    C19_slots_do_not_overlap cfg24 (srcOfList [4096, 8192]) heapZero _ (by decide) hsrc
      (by decide) (by decide) (by decide) hbase hwf⟩

/-- Outside the invariant `BlockSize >= 2 * slot size`: with `BlockSize = 8` and
8-byte slots and the disjoint blocks at 8 and 16, the slot carved from the block
at 8 is `[16, 24)`, which is the header link `[16, 24)` of the block at 16. -/
theorem undersized_block_slot_overlaps_header :
    cfgOneSlot.WF ∧ SourceOK cfgOneSlot (srcOfList [8, 16]) ∧
    WellFormed cfgOneSlot (srcOfList [8, 16]) [Op.allocate, Op.allocate] (Sys.init heapZero) ∧
    CallsOnly [Op.allocate, Op.allocate] ∧
    16 ∈ (run cfgOneSlot (srcOfList [8, 16]) [Op.allocate, Op.allocate]
      (Sys.init heapZero)).carved ∧
    16 ∈ (run cfgOneSlot (srcOfList [8, 16]) [Op.allocate, Op.allocate]
      (Sys.init heapZero)).st.blocks ∧
    ¬ (16 + cfgOneSlot.slotSize ≤ 16 ∨ 16 + cfgOneSlot.ptrSize ≤ 16) :=
  ⟨by decide, sourceOK_ofList cfgOneSlot [8, 16] (by decide) (by decide), by decide, by decide,
    by decide, by decide, by decide⟩

/-- C20: in every well-formed pool state (`PoolWF`: every carved slot inside a
block, no two overlapping, the free list a chain through the carved slots that
are not live), with blocks from the memory source pairwise disjoint,
`allocate()` changes no word of the heap except the header link of a block it
has just acquired, `deallocate(p)` changes no word except the link word at `p`,
and every word inside a slot that is live before and after the call is left
as it was. -/
theorem C20_pool_never_writes_live_storage (c : Config) (src : Nat → Option Nat) (y : Sys)
    (hc : c.WF) (hsrc : SourceOK c src) (hy : PoolWF c src y) :
    (∀ n hint x, (allocate c src n hint y.st).2.heap x ≠ y.st.heap x →
      ∃ b, src y.st.newCalls = some b ∧ x = b ∧
        (allocate c src n hint y.st).2.blocks = b :: y.st.blocks) ∧
    (∀ p m x, (deallocate p m y.st).heap x ≠ y.st.heap x → x = p) ∧
    (∀ n hint, ∀ q ∈ y.live, ∀ x, q ≤ x → x < q + c.slotSize →
      (allocate c src n hint y.st).2.heap x = y.st.heap x) ∧
    (∀ p m, OpOK c y (Op.deallocate p) →
      ∀ q ∈ (step c src (Op.deallocate p) y).live, ∀ x, q ≤ x → x < q + c.slotSize →
        (deallocate p m y.st).heap x = y.st.heap x) := by
  have hP : 0 < c.ptrSize := hc.1
  refine ⟨fun n hint x hx => allocate_heap_frame c src n hint y.st x hx,
    fun p m x hx => deallocate_heap_frame p m y.st x hx,
    fun n hint => allocate_keeps_live c src hc hsrc y hy n hint, ?_⟩
  intro p m hop q hq x hqx hxq
  by_contra hne
  have hxp := deallocate_heap_frame p m y.st x hne
  by_cases hp : p = 0
  · subst hp
    simp [deallocate] at hne
  · rw [step_deallocate_nonnull c src y p hp] at hq
    have hpl : p ∈ y.live := by
      rcases hop with h | h
      · exact absurd h hp
      · exact h
    have hlnd : y.live.Nodup := hy.2.2.choose_spec.2.2.1
    obtain ⟨hqp, hql⟩ := (hlnd.mem_erase_iff).mp hq
    have := live_apart c src y hy q hql p hpl hqp
    omega

theorem C20_pool_never_writes_live_storage_witness :
    cfg24.WF ∧ SourceOK cfg24 (srcOfList [4096, 8192]) ∧
    PoolWF cfg24 (srcOfList [4096, 8192])
      (run cfg24 (srcOfList [4096, 8192]) [Op.allocate, Op.allocate, Op.deallocate 4120]
        (Sys.init heapZero)) ∧
    ((∀ n hint x,
      (allocate cfg24 (srcOfList [4096, 8192]) n hint
        (run cfg24 (srcOfList [4096, 8192]) [Op.allocate, Op.allocate, Op.deallocate 4120]
          (Sys.init heapZero)).st).2.heap x
        ≠ (run cfg24 (srcOfList [4096, 8192]) [Op.allocate, Op.allocate, Op.deallocate 4120]
          (Sys.init heapZero)).st.heap x →
      ∃ b, srcOfList [4096, 8192]
          (run cfg24 (srcOfList [4096, 8192]) [Op.allocate, Op.allocate, Op.deallocate 4120]
            (Sys.init heapZero)).st.newCalls = some b ∧ x = b ∧
        (allocate cfg24 (srcOfList [4096, 8192]) n hint
          (run cfg24 (srcOfList [4096, 8192]) [Op.allocate, Op.allocate, Op.deallocate 4120]
            (Sys.init heapZero)).st).2.blocks
          = b :: (run cfg24 (srcOfList [4096, 8192])
            [Op.allocate, Op.allocate, Op.deallocate 4120] (Sys.init heapZero)).st.blocks) ∧
    (∀ p m x,
      (deallocate p m
        (run cfg24 (srcOfList [4096, 8192]) [Op.allocate, Op.allocate, Op.deallocate 4120]
          (Sys.init heapZero)).st).heap x
        ≠ (run cfg24 (srcOfList [4096, 8192]) [Op.allocate, Op.allocate, Op.deallocate 4120]
          (Sys.init heapZero)).st.heap x → x = p) ∧
    (∀ n hint,
      ∀ q ∈ (run cfg24 (srcOfList [4096, 8192]) [Op.allocate, Op.allocate, Op.deallocate 4120]
          (Sys.init heapZero)).live,
      ∀ x, q ≤ x → x < q + cfg24.slotSize →
      (allocate cfg24 (srcOfList [4096, 8192]) n hint
        (run cfg24 (srcOfList [4096, 8192]) [Op.allocate, Op.allocate, Op.deallocate 4120]
          (Sys.init heapZero)).st).2.heap x
        = (run cfg24 (srcOfList [4096, 8192]) [Op.allocate, Op.allocate, Op.deallocate 4120]
          (Sys.init heapZero)).st.heap x) ∧
    (∀ p m,
      OpOK cfg24
        (run cfg24 (srcOfList [4096, 8192]) [Op.allocate, Op.allocate, Op.deallocate 4120]
          (Sys.init heapZero)) (Op.deallocate p) →
      ∀ q ∈ (step cfg24 (srcOfList [4096, 8192]) (Op.deallocate p)
          (run cfg24 (srcOfList [4096, 8192]) [Op.allocate, Op.allocate, Op.deallocate 4120]
            (Sys.init heapZero))).live,
      ∀ x, q ≤ x → x < q + cfg24.slotSize →
        (deallocate p m
          (run cfg24 (srcOfList [4096, 8192]) [Op.allocate, Op.allocate, Op.deallocate 4120]
            (Sys.init heapZero)).st).heap x
          = (run cfg24 (srcOfList [4096, 8192]) [Op.allocate, Op.allocate, Op.deallocate 4120]
            (Sys.init heapZero)).st.heap x)) :=
  have hsrc : SourceOK cfg24 (srcOfList [4096, 8192]) :=
    sourceOK_ofList cfg24 [4096, 8192] (by decide) (by decide)
  have hfit : FirstSlotFits cfg24 (srcOfList [4096, 8192]) :=
    firstSlotFits_ofList cfg24 [4096, 8192] (by decide) (by decide)
  have hwf : WellFormed cfg24 (srcOfList [4096, 8192])
      [Op.allocate, Op.allocate, Op.deallocate 4120] (Sys.init heapZero) := by
    decide
  have hinv := all_invariants_run cfg24 (srcOfList [4096, 8192]) (by decide) hsrc hfit heapZero
    [Op.allocate, Op.allocate, Op.deallocate 4120] hwf
  have hy : PoolWF cfg24 (srcOfList [4096, 8192])
      (run cfg24 (srcOfList [4096, 8192]) [Op.allocate, Op.allocate, Op.deallocate 4120]
        (Sys.init heapZero)) :=
    ⟨hinv.1, hinv.2.1, hinv.2.2.1⟩
  ⟨by decide, hsrc, hy,
    C20_pool_never_writes_live_storage cfg24 (srcOfList [4096, 8192]) _ (by decide) hsrc hy⟩

end MemoryPool
